import Mathlib

namespace HcloudPricing

/-! ## Floating-point values as the Go runtime holds them

A float64 is kept as sign, integer significand and binary exponent, so that every
operation below is an exact integer computation followed by one IEEE-754
round-to-nearest-even step. -/

/-- Value of a Go float64 variable: `finite neg m e` stands for (-1)^neg * m * 2^e. -/
inductive F64 where
  | finite (neg : Bool) (m : Nat) (e : Int)
  | inf (neg : Bool)
  | nan
deriving DecidableEq, Repr

/-- Parameters of a binary format (strconv.floatInfo): significand width with the hidden
bit, exponent of the smallest normal number, exponent of the largest finite number. -/
structure FloatInfo where
  prec : Nat
  emin : Int
  emax : Int

def float32info : FloatInfo := ⟨24, -126, 127⟩

def float64info : FloatInfo := ⟨53, -1022, 1023⟩

/-- Number of binary digits of n (0 for 0); the fuel is an upper bound for it. -/
def bitLenAux : Nat → Nat → Nat
  | 0, _ => 0
  | fuel + 1, n => if n = 0 then 0 else bitLenAux fuel (n / 2) + 1

def bitLen (n : Nat) : Nat := bitLenAux n n

/-- The integer e with 2^e ≤ n/d < 2^(e+1), for positive n and d. -/
def floorLog2 (n d : Nat) : Int :=
  let k : Int := (bitLen n : Int) - (bitLen d : Int)
  if d * 2 ^ k.toNat ≤ n * 2 ^ (-k).toNat then k else k - 1

/-- Quotient n/d rounded to the nearest integer, ties to the even one. -/
def divRoundHalfEven (n d : Nat) : Nat :=
  let q := n / d
  let r := n % d
  if 2 * r < d then q
  else if d < 2 * r then q + 1
  else if q % 2 = 0 then q else q + 1

/-- IEEE-754 round-to-nearest-even of the rational (-1)^neg * n/d into the format:
subnormals below 2^emin, infinity past the largest finite number. -/
def roundRat (fmt : FloatInfo) (neg : Bool) (n d : Nat) : F64 :=
  if n = 0 then .finite neg 0 0
  else
    let e := max (floorLog2 n d) fmt.emin
    let s := e - ((fmt.prec : Int) - 1)
    let m := divRoundHalfEven (n * 2 ^ (-s).toNat) (d * 2 ^ s.toNat)
    if fmt.emax < e ∨ (e = fmt.emax ∧ 2 ^ fmt.prec ≤ m) then .inf neg
    else .finite neg m s

/-- Rounding of the dyadic number (-1)^neg * m * 2^e to float64. -/
def roundDyadic (neg : Bool) (m : Nat) (e : Int) : F64 :=
  roundRat float64info neg (m * 2 ^ e.toNat) (2 ^ (-e).toNat)

/-- Conversion float64(i) of an integer. -/
def F64.ofInt (i : Int) : F64 :=
  roundRat float64info (decide (i < 0)) i.natAbs 1

/-- Float64 product x * y. -/
def F64.mul : F64 → F64 → F64
  | .nan, _ => .nan
  | _, .nan => .nan
  | .inf a, .inf b => .inf (xor a b)
  | .inf a, .finite b m _ => if m = 0 then .nan else .inf (xor a b)
  | .finite a m _, .inf b => if m = 0 then .nan else .inf (xor a b)
  | .finite a m e, .finite b n f => roundDyadic (xor a b) (m * n) (e + f)

/-- Float64 quotient x / y. -/
def F64.div : F64 → F64 → F64
  | .nan, _ => .nan
  | _, .nan => .nan
  | .inf _, .inf _ => .nan
  | .inf a, .finite b _ _ => .inf (xor a b)
  | .finite a _ _, .inf b => .finite (xor a b) 0 0
  | .finite a m e, .finite b n f =>
    if n = 0 then (if m = 0 then .nan else .inf (xor a b))
    else roundRat float64info (xor a b) (m * 2 ^ (e - f).toNat) (n * 2 ^ (f - e).toNat)

/-- Float64 sum x + y. -/
def F64.add : F64 → F64 → F64
  | .nan, _ => .nan
  | _, .nan => .nan
  | .inf a, .inf b => if a = b then .inf a else .nan
  | .inf a, .finite _ _ _ => .inf a
  | .finite _ _ _, .inf b => .inf b
  | .finite a m e, .finite b n f =>
    let g := min e f
    let x : Int := (if a then -1 else 1) * ((m * 2 ^ (e - g).toNat : Nat) : Int)
    let y : Int := (if b then -1 else 1) * ((n * 2 ^ (f - g).toNat : Nat) : Int)
    let z := x + y
    if z = 0 then .finite (a && b) 0 0
    else roundDyadic (decide (z < 0)) z.natAbs g

/-- Function math.Ceil: the least integer value not below x; zeros, infinities and NaN are
returned as they are, and a value in (-1, 0) gives negative zero. -/
def F64.ceil : F64 → F64
  | .nan => .nan
  | .inf a => .inf a
  | .finite false m e =>
    let n := m * 2 ^ e.toNat
    let d := 2 ^ (-e).toNat
    .finite false ((n + d - 1) / d) 0
  | .finite true m e => .finite true (m * 2 ^ e.toNat / 2 ^ (-e).toNat) 0

/-! ## Text -/

def digitChar (n : Nat) : Char := Char.ofNat (48 + n % 10)

/-- Decimal digits of n, most significant first; the fuel bounds their number. -/
def natDigitsAux : Nat → Nat → List Char → List Char
  | 0, _, acc => acc
  | fuel + 1, n, acc =>
    if n < 10 then digitChar n :: acc
    else natDigitsAux fuel (n / 10) (digitChar n :: acc)

def natDigits (n : Nat) : List Char := natDigitsAux (n + 1) n []

/-- The six digits after the decimal point for a fraction of r millionths. -/
def fracDigits6 (r : Nat) : List Char :=
  [digitChar (r / 100000), digitChar (r / 10000), digitChar (r / 1000),
   digitChar (r / 100), digitChar (r / 10), digitChar r]

/-- Result of fmt.Sprintf("%f", x): six digits after the point, the exact binary value
rounded half-to-even, a minus sign from the sign bit. -/
def sprintfF : F64 → String
  | .nan => "NaN"
  | .inf false => "+Inf"
  | .inf true => "-Inf"
  | .finite neg m e =>
    let u := divRoundHalfEven (m * 2 ^ e.toNat * 1000000) (2 ^ (-e).toNat)
    String.mk ((if neg then [ '-'] else []) ++ natDigits (u / 1000000) ++ [ '.'] ++
      fracDigits6 (u % 1000000))


/-! ## strconv.ParseFloat(s, 32) -/

/-- Errors of strconv: `invalid` is ErrSyntax, `outOfRange` is ErrRange. -/
inductive NumError where
  | invalid
  | outOfRange
deriving DecidableEq, Repr

/-- Go: lower(c) is c | ('x' - 'X'). -/
def lower (c : Char) : Nat := c.toNat ||| 32

def isDigit (c : Char) : Bool := decide ('0' ≤ c ∧ c ≤ '9')

def isHexLetter (c : Char) : Bool := decide (97 ≤ lower c ∧ lower c ≤ 102)

/-- Length of the longest common beginning of s and a lower-case word, upper-case ASCII
letters of s taken as lower case. -/
def commonPrefixLenIgnoreCase : List Char → List Char → Nat
  | c :: cs, p :: ps =>
    let c1 := if 'A' ≤ c ∧ c ≤ 'Z' then Char.ofNat (c.toNat + 32) else c
    if c1 = p then commonPrefixLenIgnoreCase cs ps + 1 else 0
  | _, _ => 0

/-- The branch of strconv.special shared by a signed beginning and an i: an infinity. -/
def specialInf (neg : Bool) (s : List Char) : Option (F64 × List Char) :=
  let n := commonPrefixLenIgnoreCase s "infinity".data
  let n := if 3 < n ∧ n < 8 then 3 else n
  if n = 3 ∨ n = 8 then some (.inf neg, s.drop n) else none

/-- Function strconv.special: infinities and NaN, with the unread rest of the input. -/
def special : List Char → Option (F64 × List Char)
  | [] => none
  | c :: cs =>
    if c = '+' ∨ c = '-' then specialInf (decide (c = '-')) cs
    else if c = 'i' ∨ c = 'I' then specialInf false (c :: cs)
    else if c = 'n' ∨ c = 'N' then
      (if commonPrefixLenIgnoreCase (c :: cs) "nan".data = 3 then some (.nan, cs.drop 2) else none)
    else none

/-- Variables of the digit loop of strconv.readFloat. The significand is kept in full
(Go keeps 19 digits and a truncation flag, and falls back on the whole digit string where
they do not decide the rounding). -/
structure ScanState where
  mantissa : Nat
  nd : Int
  dp : Int
  sawdot : Bool
  sawdigits : Bool
  underscores : Bool
deriving DecidableEq, Repr

/-- The digit loop of readFloat; returns the state and the unread rest. -/
def scanDigits (hex : Bool) : List Char → ScanState → ScanState × List Char
  | [], st => (st, [])
  | c :: cs, st =>
    if c = '_' then scanDigits hex cs { st with underscores := true }
    else if c = '.' then
      if st.sawdot then (st, c :: cs)
      else scanDigits hex cs { st with sawdot := true, dp := st.nd }
    else if isDigit c then
      if c = '0' ∧ st.nd = 0 then
        scanDigits hex cs { st with sawdigits := true, dp := st.dp - 1 }
      else
        let m := st.mantissa * (if hex then 16 else 10) + (c.toNat - 48)
        scanDigits hex cs { st with sawdigits := true, nd := st.nd + 1, mantissa := m }
    else if hex ∧ isHexLetter c then
      let m := st.mantissa * 16 + (lower c - 97 + 10)
      scanDigits hex cs { st with sawdigits := true, nd := st.nd + 1, mantissa := m }
    else (st, c :: cs)

/-- The exponent loop of readFloat: digits and underscores, the exponent capped as in Go. -/
def scanExponent : List Char → Nat → Bool → Nat × Bool × List Char
  | [], e, us => (e, us, [])
  | c :: cs, e, us =>
    if isDigit c then scanExponent cs (if e < 10000 then e * 10 + (c.toNat - 48) else e) us
    else if c = '_' then scanExponent cs e true
    else (e, us, c :: cs)

/-- The loop of strconv.underscoreOK; saw is 0 for a digit, 1 for an underscore, 2 for
anything else, 3 at the beginning. -/
def underscoreLoop (hex : Bool) : List Char → Nat → Bool
  | [], saw => decide (saw ≠ 1)
  | c :: cs, saw =>
    if isDigit c ∨ (hex ∧ isHexLetter c) then underscoreLoop hex cs 0
    else if c = '_' then (if saw ≠ 0 then false else underscoreLoop hex cs 1)
    else if saw = 1 then false
    else underscoreLoop hex cs 2

/-- Function strconv.underscoreOK: underscores only between digits or after a base mark. -/
def underscoreOK (s : List Char) : Bool :=
  let s := match s with
    | c :: cs => if c = '-' ∨ c = '+' then cs else c :: cs
    | [] => []
  match s with
  | c :: d :: cs =>
    if c = '0' ∧ (lower d = 98 ∨ lower d = 111 ∨ lower d = 120) then
      underscoreLoop (decide (lower d = 120)) cs 0
    else underscoreLoop false s 3
  | _ => underscoreLoop false s 3

/-- What readFloat hands back when it accepts: sign, significand, exponent, base of the
exponent (2 for a hexadecimal literal, 10 otherwise) and the unread rest of the input. -/
structure FloatLit where
  neg : Bool
  mantissa : Nat
  exp : Int
  hex : Bool
  rest : List Char
deriving DecidableEq, Repr

/-- The test of readFloat for a hexadecimal literal: at least three characters are left and
the first two are 0 and x (or X). -/
def hexMark : List Char → Bool
  | a :: b :: _ :: _ => decide (a = '0' ∧ lower b = 120)
  | _ => false

/-- Function strconv.readFloat on the input s; none is ok = false. -/
def readFloat (s : List Char) : Option FloatLit :=
  match s with
  | [] => none
  | c0 :: _ =>
    let neg := decide (c0 = '-')
    let s1 := if c0 = '+' ∨ c0 = '-' then s.drop 1 else s
    let hex := hexMark s1
    let s2 := if hex then s1.drop 2 else s1
    let (st, s3) := scanDigits hex s2 ⟨0, 0, 0, false, false, false⟩
    if ¬ st.sawdigits then none
    else
      let dp := if st.sawdot then st.dp else st.nd
      let dp := if hex then dp * 4 else dp
      let ndMant := if hex then st.nd * 4 else st.nd
      let expChar := if hex then 112 else 101
      let finish (dp : Int) (us : Bool) (rest : List Char) : Option FloatLit :=
        if us ∧ ¬ underscoreOK (s.take (s.length - rest.length)) then none
        else some ⟨neg, st.mantissa, if st.mantissa ≠ 0 then dp - ndMant else 0, hex, rest⟩
      match s3 with
      | c :: s4 =>
        if lower c = expChar then
          match s4 with
          | [] => none
          | d :: s5 =>
            let esign : Int := if d = '-' then -1 else 1
            let s6 := if d = '+' ∨ d = '-' then s5 else d :: s5
            match s6 with
            | [] => none
            | f :: _ =>
              if ¬ isDigit f then none
              else
                let (e, us, s7) := scanExponent s6 0 st.underscores
                finish (dp + (e : Int) * esign) us s7
        else if hex then none
        else finish dp st.underscores s3
      | [] => if hex then none else finish dp st.underscores []

/-- The nearest float32 to the literal, as strconv.atof32 returns it, with the range error
of an overflow. -/
def FloatLit.toFloat32 (l : FloatLit) : F64 × Option NumError :=
  let b : Nat := if l.hex then 2 else 10
  let v := roundRat float32info l.neg (l.mantissa * b ^ l.exp.toNat) (b ^ (-l.exp).toNat)
  match v with
  | .inf _ => (v, some .outOfRange)
  | _ => (v, none)

/-- Function strconv.ParseFloat(s, 32): the float32 nearest to the number written in s,
widened to float64, and the error. A malformed s gives 0 and ErrSyntax. -/
def ParseFloat32 (s : String) : F64 × Option NumError :=
  match special s.data with
  | some (v, rest) => if rest = [] then (v, none) else (.finite false 0 0, some .invalid)
  | none =>
    match readFloat s.data with
    | none => (.finite false 0 0, some .invalid)
    | some l => if l.rest = [] then l.toFloat32 else (.finite false 0 0, some .invalid)

/-! ## Package time -/

/-- A wall-clock instant (time.Time without monotonic reading) in nanoseconds. -/
structure Time where
  nanos : Int
deriving DecidableEq, Repr

/-- A time.Duration: a count of nanoseconds held in an int64. -/
abbrev Duration := Int

def maxDuration : Duration := 9223372036854775807

def minDuration : Duration := -9223372036854775808

/-- Constant time.Hour. -/
def Hour : Duration := 3600000000000

/-- Method Time.Sub: t - u, or the largest or smallest Duration when the difference does not
fit. -/
def Time.Sub (t u : Time) : Duration :=
  max minDuration (min maxDuration (t.nanos - u.nanos))

/-- Method Duration.Hours: float64(d / Hour) + float64(d % Hour) / (60*60*1e9). -/
def Duration.Hours (d : Duration) : F64 :=
  let hour := Int.tdiv d Hour
  let nsec := Int.tmod d Hour
  F64.add (F64.ofInt hour) (F64.div (F64.ofInt nsec) (F64.ofInt 3600000000000))

/-- Function getCurrentCosts of fetcher/server.go; now is the value of time.Now(). -/
def getCurrentCosts (now : Time) (created : Time) (hourlyPrice : String) : String :=
  let currentTime := now
  let diff := Duration.Hours (currentTime.Sub created)
  let rounded := F64.ceil diff
  let floatHourlyCosts := (ParseFloat32 hourlyPrice).1
  let currentCosts := F64.mul floatHourlyCosts rounded
  let currentCostsAsString := sprintfF currentCosts
  currentCostsAsString


/-- M is an integer nearest to x: M is not below an integer below x, not above an integer
above x, above K when x exceeds K + 1/2, and not above K when x is below K + 1/2. -/
def NearestInt (x : ℚ) (M : Nat) : Prop :=
  (∀ K : Nat, (K : ℚ) ≤ x → K ≤ M) ∧ (∀ K : Nat, x ≤ (K : ℚ) → M ≤ K) ∧
  (∀ K : Nat, (K : ℚ) + 1 / 2 < x → K + 1 ≤ M) ∧
  (∀ K : Nat, x < (K : ℚ) + 1 / 2 → M ≤ K)

/-! ## Data of the hcloud client (the fields the fetchers read) -/

/-- Type hcloud.Location. -/
structure Location where
  Name : String
deriving DecidableEq, Repr

/-- Type hcloud.Price: amounts as decimal text. -/
structure Price where
  Net : String
  Gross : String
deriving DecidableEq, Repr

/-- Type hcloud.ServerTypeLocationPricing. -/
structure ServerTypeLocationPricing where
  Location : Location
  Hourly : Price
  Monthly : Price
deriving DecidableEq, Repr

/-- Type hcloud.ServerType. -/
structure ServerType where
  Name : String
  Pricings : List ServerTypeLocationPricing
deriving DecidableEq, Repr

/-- Type hcloud.Datacenter. -/
structure Datacenter where
  Location : Location
deriving DecidableEq, Repr

/-- Type hcloud.Server. -/
structure Server where
  Name : String
  Created : Time
  Datacenter : Datacenter
  ServerType : ServerType
deriving DecidableEq, Repr

/-- A Go error value, identified by its message. -/
structure GoError where
  msg : String
deriving DecidableEq, Repr

/-- The provider as a fetcher sees it: the outcome of client.Server.List(ctx, opts). -/
structure Client where
  ServerList : Except GoError (List Server)

/-! ## Metric vectors -/

/-- Label values of one series of a vector, in the order of the label names. -/
abbrev Labels := List String

/-- A prometheus GaugeVec or CounterVec: the label tuples it holds, each with its value. -/
structure MetricVec where
  cells : List (Labels × String)
deriving DecidableEq, Repr

/-- Method Reset: deletes every series of the vector. -/
def MetricVec.Reset (_ : MetricVec) : MetricVec := ⟨[]⟩

/-- The value held under a label tuple, if the vector holds the tuple. -/
def MetricVec.value (v : MetricVec) (labels : Labels) : Option String :=
  (v.cells.find? (fun c => decide (c.1 = labels))).map (fun c => c.2)

/-- Writing a value under a label tuple: the tuple is created when absent, its former
value is replaced. -/
def MetricVec.set (v : MetricVec) (labels : Labels) (value : String) : MetricVec :=
  ⟨(labels, value) :: v.cells.filter (fun c => decide (c.1 ≠ labels))⟩

/-- Modelled from the spec: parseToGauge, a helper of package fetcher whose source is not
at hand. The spec has the series under the label tuple set to the amount; the amount is kept
as the decimal text handed over. The call vec.WithLabelValues(labels...) that selects the
series is part of this step. -/
def parseToGauge (vec : MetricVec) (labels : Labels) (value : String) : MetricVec :=
  vec.set labels value

/-- Modelled from the spec: parseToCounter, a helper of package fetcher whose source is not
at hand. The spec has the counter series set to the same value as the gauge. -/
def parseToCounter (vec : MetricVec) (labels : Labels) (value : String) : MetricVec :=
  vec.set labels value

/-! ## Package fetcher -/

/-- Struct baseFetcher: the four collectors of a fetcher. -/
structure baseFetcher where
  hourly : MetricVec
  monthly : MetricVec
  current : MetricVec
  currentCounter : MetricVec
deriving DecidableEq, Repr

/-- The four collectors after Reset on each. -/
def baseFetcher.Reset (b : baseFetcher) : baseFetcher :=
  ⟨b.hourly.Reset, b.monthly.Reset, b.current.Reset, b.currentCounter.Reset⟩

/-- Function findServerPricing of fetcher/server.go. -/
def findServerPricing (location : Location) :
    List ServerTypeLocationPricing → Except GoError ServerTypeLocationPricing
  | [] => .error ⟨"no server pricing found for location " ++ location.Name⟩
  | pricing :: pricings =>
    if pricing.Location.Name = location.Name then .ok pricing
    else findServerPricing location pricings

/-- The label values server.Run passes to WithLabelValues for the server s. -/
def serverLabels (s : Server) : Labels :=
  [s.Name, s.Datacenter.Location.Name, s.ServerType.Name]

/-- The loop of server.Run over the enumerated servers; k counts the servers done, and
clock k is the value of time.Now() read for the server at index k. -/
def serverLoop (clock : Nat → Time) : Nat → List Server → baseFetcher →
    baseFetcher × Option GoError
  | _, [], server => (server, none)
  | k, s :: servers, server =>
    let location := s.Datacenter.Location
    let created := s.Created
    match findServerPricing location s.ServerType.Pricings with
    | .error err => (server, some err)
    | .ok pricing =>
      let labels := [s.Name, location.Name, s.ServerType.Name]
      let hourly := parseToGauge server.hourly labels pricing.Hourly.Gross
      let monthly := parseToGauge server.monthly labels pricing.Monthly.Gross
      let currentCostsAsString := getCurrentCosts (clock k) created pricing.Hourly.Net
      let current := parseToGauge server.current labels currentCostsAsString
      let currentCounter := parseToCounter server.currentCounter labels currentCostsAsString
      serverLoop clock (k + 1) servers ⟨hourly, monthly, current, currentCounter⟩

/-- Method server.Run of fetcher/server.go: the collectors after the call and the error
returned (none is nil). -/
def server.Run (clock : Nat → Time) (client : Client) (server : baseFetcher) :
    baseFetcher × Option GoError :=
  match client.ServerList with
  | .error err => (server, some err)
  | .ok servers => serverLoop clock 0 servers server

/-- Interface Fetcher: the four collectors behind GetHourly, GetMonthly, GetCurrent and
GetCurrentCounter, and the method Run acting on them. -/
structure Fetcher where
  base : baseFetcher
  Run : Client → baseFetcher → baseFetcher × Option GoError

/-- Function NewServer: the server fetcher over its collectors. -/
def NewServer (clock : Nat → Time) (base : baseFetcher) : Fetcher :=
  ⟨base, server.Run clock⟩

/-- Type prometheus.MultiError: a list of errors. -/
abbrev MultiError := List GoError

/-- Method MultiError.Append: nil errors are not added. -/
def MultiError.Append (errs : MultiError) (err : Option GoError) : MultiError :=
  match err with
  | some e => errs ++ [e]
  | none => errs

/-- State of the loop of Fetchers.Run: the aggregate, the fetchers already handled, and
the positions of the fetchers whose Run has been invoked, in the order of the calls. -/
structure CycleState where
  errors : MultiError
  fetchers : List Fetcher
  calls : List Nat

/-- The loop of Fetchers.Run; i is the position of the next fetcher. -/
def fetchersLoop (client : Client) : List Fetcher → Nat → CycleState → CycleState
  | [], _, st => st
  | fetcher :: rest, i, st =>
    let cleared := fetcher.base.Reset
    let (after, err) := fetcher.Run client cleared
    fetchersLoop client rest (i + 1)
      ⟨st.errors.Append err, st.fetchers ++ [⟨after, fetcher.Run⟩], st.calls ++ [i]⟩

/-- Outcome of Fetchers.Run: the error returned (none is nil), the fetchers with their
collectors after the cycle, and the invocations of Run. -/
structure CycleResult where
  err : Option MultiError
  fetchers : List Fetcher
  calls : List Nat

/-- Method Fetchers.Run of fetcher/fetcher.go. -/
def Fetchers.Run (fetchers : List Fetcher) (client : Client) : CycleResult :=
  let st := fetchersLoop client fetchers 0 ⟨[], [], []⟩
  if st.errors.length > 0 then ⟨some st.errors, st.fetchers, st.calls⟩
  else ⟨none, st.fetchers, st.calls⟩

/-- The error the Run of fetcher f returns in a cycle, on its cleared collectors. -/
def runError (client : Client) (f : Fetcher) : Option GoError :=
  (f.Run client f.base.Reset).2

/-- The collectors of fetcher f after its Run in a cycle, started on cleared collectors. -/
def runPublished (client : Client) (f : Fetcher) : baseFetcher :=
  (f.Run client f.base.Reset).1

/-- A server whose location has an entry among the pricings of its type. -/
def priced (s : Server) : Prop :=
  ∃ p ∈ s.ServerType.Pricings, p.Location.Name = s.Datacenter.Location.Name

/-- The label tuple is held by one of the four collectors. -/
def holds (b : baseFetcher) (labels : Labels) : Prop :=
  b.hourly.value labels ≠ none ∨ b.monthly.value labels ≠ none ∨
  b.current.value labels ≠ none ∨ b.currentCounter.value labels ≠ none

/-! ## Statements of the specification -/

/-- The number a decimal text denotes: sign, digits and decimal exponent as readFloat reads
them; none for a text that is not a decimal number. -/
def decimalValue (s : String) : Option ℚ :=
  match readFloat s.data with
  | some l =>
    if l.rest = [] ∧ l.hex = false then
      some ((if l.neg then -1 else 1) * (l.mantissa : ℚ) * (10 : ℚ) ^ l.exp)
    else none
  | none => none

/-- The span from T to N in hours, rounded up to whole hours. -/
def ceilHours (T N : Time) : Nat :=
  ⌈((N.nanos - T.nanos : Int) : ℚ) / 3600000000000⌉₊

/-- The accrual ceiling rule of the specification at one input: the text returned for the
creation time T, the evaluation instant N and the price text p denotes the price times the
hours from T to N rounded up. -/
def AccrualCeilingRule (T N : Time) (p : String) : Prop :=
  ∃ q, decimalValue p = some q ∧
    decimalValue (getCurrentCosts N T p) = some ((ceilHours T N : ℚ) * q)

/-- The published accrual of the specification for a run over the servers with the
evaluation instant now: the current gauge holds, under the label tuple of the server s,
a text that denotes the hourly net price of s times its hours since creation rounded up. -/
def PublishedAccrualRule (now : Time) (servers : List Server) (s : Server) : Prop :=
  ∃ p q cur, findServerPricing s.Datacenter.Location s.ServerType.Pricings = .ok p ∧
    decimalValue p.Hourly.Net = some q ∧
    (server.Run (fun _ => now) ⟨.ok servers⟩ ⟨⟨[]⟩, ⟨[]⟩, ⟨[]⟩, ⟨[]⟩⟩).1.current.value
      (serverLabels s) = some cur ∧
    decimalValue cur = some ((ceilHours s.Created now : ℚ) * q)

/-- The number written by a list of decimal digits that continues the number acc. -/
def digitsValue (acc : Nat) (ds : List Char) : Nat :=
  ds.foldl (fun a c => a * 10 + (c.toNat - 48)) acc

/-- The characters are decimal digits. -/
def AllDigits (ds : List Char) : Prop :=
  ∀ c ∈ ds, isDigit c = true

/-- The text of u millionths, as Sprintf writes a value that is not negative. -/
def microsText (u : Nat) : String :=
  String.mk (natDigits (u / 1000000) ++ [ '.'] ++ fracDigits6 (u % 1000000))

/-- The characters left after a leading run of decimal digits. -/
def skipDigits : List Char → List Char
  | c :: cs => if isDigit c then skipDigits cs else c :: cs
  | [] => []

/-- The characters left after an optional sign. -/
def skipSign : List Char → List Char
  | c :: cs => if c = '+' ∨ c = '-' then cs else c :: cs
  | [] => []

/-- The characters left after an optional decimal point. -/
def skipPoint : List Char → List Char
  | c :: cs => if c = '.' then cs else c :: cs
  | [] => []

/-- The specification's syntactically valid decimal number: an optional sign, decimal
digits with at most one decimal point among them and at least one digit, and optionally a
decimal exponent, that is e or E, an optional sign and at least one digit. -/
def isDecimalNumber (s : String) : Bool :=
  let s1 := skipSign s.data
  let s2 := skipDigits s1
  let s3 := skipPoint s2
  let s4 := skipDigits s3
  if (s1.length - s2.length) + (s3.length - s4.length) = 0 then false
  else
    match s4 with
    | [] => true
    | c :: cs =>
      if c = 'e' ∨ c = 'E' then
        decide (skipSign cs ≠ [] ∧ skipDigits (skipSign cs) = [])
      else false

/-- The rule of the specification for a malformed price at one input: when the price text
is not a syntactically valid decimal number, the text getCurrentCosts returns denotes
zero. -/
def MalformedPriceRule (now created : Time) (hourlyPrice : String) : Prop :=
  isDecimalNumber hourlyPrice = false →
    decimalValue (getCurrentCosts now created hourlyPrice) = some 0

/-! ## Lookup of a price -/

theorem findServerPricing_eq_find (L : Location) (P : List ServerTypeLocationPricing) :
    findServerPricing L P =
      match P.find? (fun q => decide (q.Location.Name = L.Name)) with
      | some p => .ok p
      | none => .error ⟨"no server pricing found for location " ++ L.Name⟩ := by
  induction P with
  | nil => rfl
  | cons q qs ih =>
    by_cases h : q.Location.Name = L.Name
    · simp [findServerPricing, h]
    · simp [findServerPricing, h, ih]

theorem findServerPricing_error_iff (L : Location) (P : List ServerTypeLocationPricing) :
    (∃ e, findServerPricing L P = .error e) ↔ ∀ p ∈ P, p.Location.Name ≠ L.Name := by
  rw [findServerPricing_eq_find]
  cases hf : P.find? (fun q => decide (q.Location.Name = L.Name)) with
  | none =>
    simp only [List.find?_eq_none, decide_eq_true_eq] at hf
    simpa using hf
  | some p =>
    have hp := List.find?_some hf
    have hm := List.mem_of_find?_eq_some hf
    simp only [decide_eq_true_eq] at hp
    constructor
    · rintro ⟨e, he⟩
      cases he
    · intro h
      exact absurd hp (h p hm)

theorem findServerPricing_ok_mem (L : Location) (P : List ServerTypeLocationPricing)
    (p : ServerTypeLocationPricing) (h : findServerPricing L P = .ok p) :
    p ∈ P ∧ p.Location.Name = L.Name := by
  rw [findServerPricing_eq_find] at h
  cases hf : P.find? (fun q => decide (q.Location.Name = L.Name)) with
  | none => rw [hf] at h; cases h
  | some q =>
    rw [hf] at h
    cases h
    have hp := List.find?_some hf
    simp only [decide_eq_true_eq] at hp
    exact ⟨List.mem_of_find?_eq_some hf, hp⟩

/-- C2. findServerPricing fails exactly when no entry of the list carries the location's
name: it returns an error if and only if every entry's location name differs from the
name of L (so also on the empty list); the error is the one that names the location; and
a returned entry is an entry of the list whose location name is that of L, never an entry
of another location and never a made-up price. -/
theorem C2_lookup_fails_exactly_on_absence (L : Location)
    (P : List ServerTypeLocationPricing) :
    ((∃ e, findServerPricing L P = .error e) ↔ ∀ p ∈ P, p.Location.Name ≠ L.Name) ∧
    (∀ e, findServerPricing L P = .error e →
      e = ⟨"no server pricing found for location " ++ L.Name⟩) ∧
    (∀ p, findServerPricing L P = .ok p → p ∈ P ∧ p.Location.Name = L.Name) ∧
    (∃ e, findServerPricing L [] = .error e) := by
  refine ⟨findServerPricing_error_iff L P, ?_, findServerPricing_ok_mem L P, ⟨_, rfl⟩⟩
  intro e he
  rw [findServerPricing_eq_find] at he
  cases hf : P.find? (fun q => decide (q.Location.Name = L.Name)) with
  | none => rw [hf] at he; cases he; rfl
  | some q => rw [hf] at he; cases he

theorem find_eq_head_filter {α : Type} (f : α → Bool) (l : List α) :
    l.find? f = (l.filter f).head? := by
  induction l with
  | nil => rfl
  | cons a as ih =>
    cases hfa : f a with
    | true => rw [List.find?_cons_of_pos _ hfa, List.filter_cons_of_pos hfa]; rfl
    | false =>
      rw [List.find?_cons_of_neg _ (by simp [hfa]), List.filter_cons_of_neg (by simp [hfa])]
      exact ih

/-- C3. When exactly one entry of the list has the location name of L, that is when the
entries with that name are the single entry p, findServerPricing succeeds and returns p
with all its amounts, wherever p stands in the list. -/
theorem C3_unique_entry_returned (L : Location) (P : List ServerTypeLocationPricing)
    (p : ServerTypeLocationPricing)
    (h : P.filter (fun q => decide (q.Location.Name = L.Name)) = [p]) :
    findServerPricing L P = .ok p := by
  rw [findServerPricing_eq_find]
  have : P.find? (fun q => decide (q.Location.Name = L.Name)) = some p := by
    rw [find_eq_head_filter, h]
    rfl
  rw [this]

theorem C3_unique_entry_returned_witness :
    findServerPricing ⟨"fsn1"⟩
      [⟨⟨"nbg1"⟩, ⟨"0.0040", "0.0048"⟩, ⟨"2.5", "3.0"⟩⟩,
       ⟨⟨"fsn1"⟩, ⟨"0.0050", "0.0060"⟩, ⟨"2.5", "3.0"⟩⟩,
       ⟨⟨"hel1"⟩, ⟨"0.0070", "0.0080"⟩, ⟨"3.5", "4.0"⟩⟩] =
      .ok ⟨⟨"fsn1"⟩, ⟨"0.0050", "0.0060"⟩, ⟨"2.5", "3.0"⟩⟩ :=
  C3_unique_entry_returned ⟨"fsn1"⟩ _ _ (by decide)

/-! ## Metric vectors -/

theorem find_filter_of_imp {α : Type} (p q : α → Bool) (l : List α)
    (h : ∀ a, p a = true → q a = true) : (l.filter q).find? p = l.find? p := by
  induction l with
  | nil => rfl
  | cons a as ih =>
    cases hq : q a with
    | true =>
      rw [List.filter_cons_of_pos hq]
      cases hp : p a with
      | true => rw [List.find?_cons_of_pos _ hp, List.find?_cons_of_pos _ hp]
      | false =>
        rw [List.find?_cons_of_neg _ (by simp [hp]), List.find?_cons_of_neg _ (by simp [hp])]
        exact ih
    | false =>
      rw [List.filter_cons_of_neg (by simp [hq])]
      have hp : p a = false := by
        cases hp : p a with
        | true => rw [h a hp] at hq; cases hq
        | false => rfl
      rw [List.find?_cons_of_neg _ (by simp [hp])]
      exact ih

theorem MetricVec.value_set (v : MetricVec) (l k : Labels) (x : String) :
    (v.set l x).value k = if k = l then some x else v.value k := by
  unfold MetricVec.value MetricVec.set
  by_cases hk : k = l
  · subst hk
    simp
  · have hlk : ¬ l = k := fun h => hk h.symm
    rw [if_neg hk, List.find?_cons_of_neg _ (by simpa using hlk)]
    rw [find_filter_of_imp]
    intro a ha
    simp only [decide_eq_true_eq] at ha
    simp only [ne_eq, decide_not, Bool.not_eq_true', decide_eq_false_iff_not]
    intro h
    exact hk (ha.symm.trans h)

theorem MetricVec.value_Reset (v : MetricVec) (k : Labels) : v.Reset.value k = none := rfl

/-! ## The cycle over all fetchers -/


theorem fetchersLoop_spec (client : Client) (fs : List Fetcher) (i : Nat) (st : CycleState) :
    (fetchersLoop client fs i st).errors = st.errors ++ fs.filterMap (runError client) ∧
    (fetchersLoop client fs i st).fetchers.map Fetcher.base =
      st.fetchers.map Fetcher.base ++ fs.map (runPublished client) ∧
    (fetchersLoop client fs i st).fetchers.map Fetcher.Run =
      st.fetchers.map Fetcher.Run ++ fs.map Fetcher.Run ∧
    (fetchersLoop client fs i st).calls = st.calls ++ List.range' i fs.length := by
  induction fs generalizing i st with
  | nil => simp [fetchersLoop]
  | cons f rest ih =>
    simp only [fetchersLoop]
    obtain ⟨h1, h2, h3, h4⟩ := ih (i + 1)
      ⟨st.errors.Append (f.Run client f.base.Reset).2,
       st.fetchers ++ [⟨(f.Run client f.base.Reset).1, f.Run⟩], st.calls ++ [i]⟩
    refine ⟨?_, ?_, ?_, ?_⟩
    · rw [h1]
      cases he : (f.Run client f.base.Reset).2 with
      | none => simp [MultiError.Append, runError, he]
      | some e => simp [MultiError.Append, runError, he]
    · rw [h2]; simp [runPublished]
    · rw [h3]; simp
    · rw [h4]; simp [List.range'_succ]

theorem cycle_err (fetchers : List Fetcher) (client : Client) :
    (Fetchers.Run fetchers client).err =
      if fetchers.filterMap (runError client) = [] then none
      else some (fetchers.filterMap (runError client)) := by
  have h := (fetchersLoop_spec client fetchers 0 ⟨[], [], []⟩).1
  simp only [List.nil_append] at h
  unfold Fetchers.Run
  simp only [h]
  cases hl : fetchers.filterMap (runError client) with
  | nil => simp
  | cons e es => simp

theorem cycle_fetchers (fetchers : List Fetcher) (client : Client) :
    (Fetchers.Run fetchers client).fetchers.map Fetcher.base =
      fetchers.map (runPublished client) := by
  have h := (fetchersLoop_spec client fetchers 0 ⟨[], [], []⟩).2.1
  simp only [List.map_nil, List.nil_append] at h
  unfold Fetchers.Run
  dsimp only
  split <;> exact h

theorem cycle_calls (fetchers : List Fetcher) (client : Client) :
    (Fetchers.Run fetchers client).calls = List.range fetchers.length := by
  have h := (fetchersLoop_spec client fetchers 0 ⟨[], [], []⟩).2.2.2
  simp only [List.nil_append] at h
  unfold Fetchers.Run
  rw [List.range_eq_range']
  dsimp only
  split <;> exact h

/-- C4. Fetchers.Run invokes the Run of every fetcher once, in the order of the list (the
recorded invocations are the positions 0, 1, ..., n-1), whatever the earlier fetchers
returned; the collectors of every fetcher after the cycle are those its own Run left when
started on its cleared collectors; and when some fetcher fails the returned aggregate is
not nil, while every other fetcher still has what its own Run published. -/
theorem C4_failure_isolation (fetchers : List Fetcher) (client : Client) :
    (Fetchers.Run fetchers client).calls = List.range fetchers.length ∧
    (Fetchers.Run fetchers client).fetchers.map Fetcher.base =
      fetchers.map (fun f => (f.Run client ⟨⟨[]⟩, ⟨[]⟩, ⟨[]⟩, ⟨[]⟩⟩).1) ∧
    ((∃ a ∈ fetchers, (a.Run client ⟨⟨[]⟩, ⟨[]⟩, ⟨[]⟩, ⟨[]⟩⟩).2 ≠ none) →
      (Fetchers.Run fetchers client).err ≠ none) := by
  refine ⟨cycle_calls fetchers client, cycle_fetchers fetchers client, ?_⟩
  rintro ⟨a, ha, hne⟩
  rw [cycle_err]
  have : fetchers.filterMap (runError client) ≠ [] := by
    intro hnil
    rw [List.filterMap_eq_nil_iff] at hnil
    exact hne (hnil a ha)
  rw [if_neg this]
  simp

/-- C5. Fetchers.Run returns nil if and only if the Run of every fetcher returned nil;
otherwise it returns the MultiError that lists the non-nil errors of the fetchers in
fetcher order, one for each failed fetcher. -/
theorem C5_aggregate_error_content (fetchers : List Fetcher) (client : Client) :
    ((Fetchers.Run fetchers client).err = none ↔
      ∀ f ∈ fetchers, (f.Run client ⟨⟨[]⟩, ⟨[]⟩, ⟨[]⟩, ⟨[]⟩⟩).2 = none) ∧
    (∀ errs, (Fetchers.Run fetchers client).err = some errs →
      errs = fetchers.filterMap (fun f => (f.Run client ⟨⟨[]⟩, ⟨[]⟩, ⟨[]⟩, ⟨[]⟩⟩).2) ∧
      errs.length = (fetchers.filter (fun f =>
        (f.Run client ⟨⟨[]⟩, ⟨[]⟩, ⟨[]⟩, ⟨[]⟩⟩).2.isSome)).length) := by
  have hlen : ∀ l : List Fetcher, (l.filterMap (runError client)).length =
      (l.filter (fun f => (f.Run client ⟨⟨[]⟩, ⟨[]⟩, ⟨[]⟩, ⟨[]⟩⟩).2.isSome)).length := by
    intro l
    induction l with
    | nil => rfl
    | cons f fs ih =>
      cases he : (f.Run client ⟨⟨[]⟩, ⟨[]⟩, ⟨[]⟩, ⟨[]⟩⟩).2 with
      | none =>
        have h1 : runError client f = none := he
        rw [List.filterMap_cons_none h1, List.filter_cons_of_neg (by simp [he])]
        exact ih
      | some e =>
        have h1 : runError client f = some e := he
        rw [List.filterMap_cons_some h1, List.filter_cons_of_pos (by simp [he])]
        simp [ih]
  rw [cycle_err]
  constructor
  · constructor
    · intro h
      by_cases hnil : fetchers.filterMap (runError client) = []
      · rw [List.filterMap_eq_nil_iff] at hnil
        exact hnil
      · rw [if_neg hnil] at h
        cases h
    · intro h
      have hnil : fetchers.filterMap (runError client) = [] := by
        rw [List.filterMap_eq_nil_iff]
        exact h
      rw [if_pos hnil]
  · intro errs h
    by_cases hnil : fetchers.filterMap (runError client) = []
    · rw [if_pos hnil] at h
      cases h
    · rw [if_neg hnil] at h
      cases h
      exact ⟨rfl, hlen fetchers⟩

/-! ## The run of the server fetcher -/


theorem priced_iff_ok (s : Server) :
    priced s ↔ ∃ p, findServerPricing s.Datacenter.Location s.ServerType.Pricings = .ok p := by
  unfold priced
  cases hf : findServerPricing s.Datacenter.Location s.ServerType.Pricings with
  | ok p =>
    have := findServerPricing_ok_mem _ _ p hf
    exact ⟨fun _ => ⟨p, rfl⟩, fun _ => ⟨p, this.1, this.2⟩⟩
  | error e =>
    have hne := (findServerPricing_error_iff s.Datacenter.Location s.ServerType.Pricings).1
      ⟨e, hf⟩
    constructor
    · rintro ⟨p, hp, heq⟩
      exact absurd heq (hne p hp)
    · rintro ⟨p, hp⟩
      cases hp

theorem serverLoop_cons_ok (clock : Nat → Time) (k : Nat) (s : Server) (servers : List Server)
    (b : baseFetcher) (p : ServerTypeLocationPricing)
    (h : findServerPricing s.Datacenter.Location s.ServerType.Pricings = .ok p) :
    serverLoop clock k (s :: servers) b =
      serverLoop clock (k + 1) servers
        ⟨parseToGauge b.hourly (serverLabels s) p.Hourly.Gross,
         parseToGauge b.monthly (serverLabels s) p.Monthly.Gross,
         parseToGauge b.current (serverLabels s)
           (getCurrentCosts (clock k) s.Created p.Hourly.Net),
         parseToCounter b.currentCounter (serverLabels s)
           (getCurrentCosts (clock k) s.Created p.Hourly.Net)⟩ := by
  simp only [serverLoop, h, serverLabels]

theorem serverLoop_cons_error (clock : Nat → Time) (k : Nat) (s : Server)
    (servers : List Server) (b : baseFetcher) (e : GoError)
    (h : findServerPricing s.Datacenter.Location s.ServerType.Pricings = .error e) :
    serverLoop clock k (s :: servers) b = (b, some e) := by
  simp only [serverLoop, h]

theorem serverLoop_append (clock : Nat → Time) (pre rest : List Server) (k : Nat)
    (b : baseFetcher) (hpre : ∀ t ∈ pre, priced t) :
    (serverLoop clock k pre b).2 = none ∧
    serverLoop clock k (pre ++ rest) b =
      serverLoop clock (k + pre.length) rest (serverLoop clock k pre b).1 := by
  induction pre generalizing k b with
  | nil => simp [serverLoop]
  | cons t ts ih =>
    obtain ⟨p, hp⟩ := (priced_iff_ok t).1 (hpre t (List.mem_cons_self _ _))
    have hts : ∀ u ∈ ts, priced u := fun u hu => hpre u (List.mem_cons_of_mem _ hu)
    rw [List.cons_append, serverLoop_cons_ok clock k t _ b p hp,
      serverLoop_cons_ok clock k t _ b p hp]
    obtain ⟨h1, h2⟩ := ih (k + 1) _ hts
    refine ⟨h1, ?_⟩
    rw [h2, List.length_cons]
    congr 1
    omega

theorem serverLoop_holds (clock : Nat → Time) (servers : List Server) (k : Nat)
    (b : baseFetcher) (labels : Labels)
    (h : holds (serverLoop clock k servers b).1 labels) :
    holds b labels ∨ ∃ s ∈ servers, serverLabels s = labels := by
  induction servers generalizing k b with
  | nil => exact Or.inl h
  | cons t ts ih =>
    cases hf : findServerPricing t.Datacenter.Location t.ServerType.Pricings with
    | error e =>
      rw [serverLoop_cons_error clock k t ts b e hf] at h
      exact Or.inl h
    | ok p =>
      rw [serverLoop_cons_ok clock k t ts b p hf] at h
      rcases ih (k + 1) _ h with h1 | ⟨s, hs, hl⟩
      · by_cases hl : labels = serverLabels t
        · exact Or.inr ⟨t, List.mem_cons_self _ _, hl.symm⟩
        · left
          unfold holds at h1 ⊢
          simp only [parseToGauge, parseToCounter, MetricVec.value_set, if_neg hl] at h1
          exact h1
      · exact Or.inr ⟨s, List.mem_cons_of_mem _ hs, hl⟩

theorem serverLoop_keeps (clock : Nat → Time) (servers : List Server) (k : Nat)
    (b : baseFetcher) (labels : Labels)
    (h : ∀ t ∈ servers, serverLabels t ≠ labels) :
    (serverLoop clock k servers b).1.hourly.value labels = b.hourly.value labels ∧
    (serverLoop clock k servers b).1.monthly.value labels = b.monthly.value labels ∧
    (serverLoop clock k servers b).1.current.value labels = b.current.value labels ∧
    (serverLoop clock k servers b).1.currentCounter.value labels =
      b.currentCounter.value labels := by
  induction servers generalizing k b with
  | nil => simp [serverLoop]
  | cons t ts ih =>
    have hts : ∀ u ∈ ts, serverLabels u ≠ labels :=
      fun u hu => h u (List.mem_cons_of_mem _ hu)
    have ht : ¬ labels = serverLabels t := fun e => h t (List.mem_cons_self _ _) e.symm
    cases hf : findServerPricing t.Datacenter.Location t.ServerType.Pricings with
    | error e =>
      rw [serverLoop_cons_error clock k t ts b e hf]
      simp
    | ok p =>
      rw [serverLoop_cons_ok clock k t ts b p hf]
      obtain ⟨h1, h2, h3, h4⟩ := ih (k + 1) _ hts
      rw [h1, h2, h3, h4]
      simp [parseToGauge, parseToCounter, MetricVec.value_set, if_neg ht]

/-- What the collectors hold for a server after a run: when the servers before s and s
itself are priced and no server after s has the label tuple of s, the four collectors
hold under that tuple the amounts written for s. -/
theorem serverLoop_published (clock : Nat → Time) (pre post : List Server) (s : Server)
    (b : baseFetcher) (p : ServerTypeLocationPricing)
    (hpre : ∀ t ∈ pre, priced t)
    (hs : findServerPricing s.Datacenter.Location s.ServerType.Pricings = .ok p)
    (hpost : ∀ t ∈ post, serverLabels t ≠ serverLabels s) :
    (serverLoop clock 0 (pre ++ s :: post) b).1.hourly.value (serverLabels s) =
      some p.Hourly.Gross ∧
    (serverLoop clock 0 (pre ++ s :: post) b).1.monthly.value (serverLabels s) =
      some p.Monthly.Gross ∧
    (serverLoop clock 0 (pre ++ s :: post) b).1.current.value (serverLabels s) =
      some (getCurrentCosts (clock pre.length) s.Created p.Hourly.Net) ∧
    (serverLoop clock 0 (pre ++ s :: post) b).1.currentCounter.value (serverLabels s) =
      some (getCurrentCosts (clock pre.length) s.Created p.Hourly.Net) := by
  rw [(serverLoop_append clock pre (s :: post) 0 b hpre).2, Nat.zero_add,
    serverLoop_cons_ok clock _ s post _ p hs]
  obtain ⟨h1, h2, h3, h4⟩ := serverLoop_keeps clock post (pre.length + 1) _ _ hpost
  rw [h1, h2, h3, h4]
  simp [parseToGauge, parseToCounter, MetricVec.value_set]

/-- C6. After Fetchers.Run, whatever the collectors held before the cycle, the collectors
of each fetcher are what its Run left when started on empty collectors, so they hold a
label tuple only if that Run wrote it in this cycle; for the server
fetcher, standing anywhere in the list, a label tuple held by one of its four collectors
after the cycle is the tuple of a server of the inventory enumerated in this cycle. So
when that inventory has no server with the tuple of R, or could not be enumerated, or the
run failed on the way, none of the four collectors holds the tuple of R. -/
theorem C6_stale_series_cleared (clock : Nat → Time) (client : Client)
    (prior : baseFetcher) (before after : List Fetcher) (labels : Labels) :
    (∀ fetchers : List Fetcher, (Fetchers.Run fetchers client).fetchers.map Fetcher.base =
      fetchers.map (fun f => (f.Run client ⟨⟨[]⟩, ⟨[]⟩, ⟨[]⟩, ⟨[]⟩⟩).1)) ∧
    ∃ b, ((Fetchers.Run (before ++ NewServer clock prior :: after) client).fetchers.map
        Fetcher.base).get? before.length = some b ∧
      b = (server.Run clock client ⟨⟨[]⟩, ⟨[]⟩, ⟨[]⟩, ⟨[]⟩⟩).1 ∧
      (holds b labels →
        ∃ servers, client.ServerList = .ok servers ∧
          ∃ s ∈ servers, serverLabels s = labels) ∧
      ((∀ servers, client.ServerList = .ok servers →
          ∀ s ∈ servers, serverLabels s ≠ labels) →
        b.hourly.value labels = none ∧ b.monthly.value labels = none ∧
        b.current.value labels = none ∧ b.currentCounter.value labels = none) := by
  have hempty : ¬ holds ⟨⟨[]⟩, ⟨[]⟩, ⟨[]⟩, ⟨[]⟩⟩ labels := by
    unfold holds
    simp [MetricVec.value]
  have hholds : holds (server.Run clock client ⟨⟨[]⟩, ⟨[]⟩, ⟨[]⟩, ⟨[]⟩⟩).1 labels →
      ∃ servers, client.ServerList = .ok servers ∧
        ∃ s ∈ servers, serverLabels s = labels := by
    intro h
    unfold server.Run at h
    cases hl : client.ServerList with
    | error e =>
      rw [hl] at h
      exact absurd h hempty
    | ok servers =>
      rw [hl] at h
      rcases serverLoop_holds clock servers 0 _ labels h with h1 | h2
      · exact absurd h1 hempty
      · exact ⟨servers, rfl, h2⟩
  refine ⟨fun fetchers => cycle_fetchers fetchers client,
    (server.Run clock client ⟨⟨[]⟩, ⟨[]⟩, ⟨[]⟩, ⟨[]⟩⟩).1, ?_, rfl, hholds, ?_⟩
  · rw [cycle_fetchers, List.map_append, List.map_cons]
    rw [List.get?_eq_getElem?, List.getElem?_append_right (by simp)]
    simp [runPublished, NewServer, baseFetcher.Reset, MetricVec.Reset]
  · intro habs
    have hnot : ¬ holds (server.Run clock client ⟨⟨[]⟩, ⟨[]⟩, ⟨[]⟩, ⟨[]⟩⟩).1 labels := by
      intro h
      obtain ⟨servers, hl, s, hs, heq⟩ := hholds h
      exact habs servers hl s hs heq
    unfold holds at hnot
    simp only [not_or, not_not] at hnot
    exact hnot

/-- C7. When the server-list call of the provider returns the error e, server.Run returns
e and leaves its four collectors as they were; run inside Fetchers.Run, where the
collectors are cleared first, the four collectors of the server fetcher are empty after
the cycle, and e is in the aggregate. -/
theorem C7_enumeration_failure_publishes_nothing (clock : Nat → Time) (e : GoError)
    (b prior : baseFetcher) (before after : List Fetcher) :
    server.Run clock ⟨.error e⟩ b = (b, some e) ∧
    ((Fetchers.Run (before ++ NewServer clock prior :: after) ⟨.error e⟩).fetchers.map
        Fetcher.base).get? before.length = some ⟨⟨[]⟩, ⟨[]⟩, ⟨[]⟩, ⟨[]⟩⟩ ∧
    (∃ errs, (Fetchers.Run (before ++ NewServer clock prior :: after) ⟨.error e⟩).err =
        some errs ∧ e ∈ errs) := by
  refine ⟨rfl, ?_, ?_⟩
  · rw [cycle_fetchers, List.map_append, List.map_cons]
    rw [List.get?_eq_getElem?, List.getElem?_append_right (by simp)]
    simp [runPublished, NewServer, baseFetcher.Reset, MetricVec.Reset, server.Run]
  · rw [cycle_err]
    have hmem : e ∈ (before ++ NewServer clock prior :: after).filterMap
        (runError ⟨.error e⟩) := by
      rw [List.mem_filterMap]
      exact ⟨NewServer clock prior, by simp, rfl⟩
    have hne : (before ++ NewServer clock prior :: after).filterMap
        (runError ⟨.error e⟩) ≠ [] := List.ne_nil_of_mem hmem
    rw [if_neg hne]
    exact ⟨_, rfl, hmem⟩

/-- C8. When the server s is the first of the enumerated servers whose location has no
entry among the pricings of its type, server.Run returns the error of findServerPricing
for s, and nothing is rolled back: for every server t before s (the last one with its
label tuple among the servers before s) the four series hold under the tuple of t the
hourly gross amount, the monthly gross amount and twice the accrued text published for
t. Nothing is written for s or for any server after s, whatever these are: under a label
tuple that no server before s carries, the four series are as they were before the run,
and the whole state is that of a run over the servers before s alone. -/
theorem C8_price_not_found_aborts (clock : Nat → Time) (pre post : List Server) (s : Server)
    (b : baseFetcher)
    (hpre : ∀ t ∈ pre, priced t)
    (hs : ∀ p ∈ s.ServerType.Pricings, p.Location.Name ≠ s.Datacenter.Location.Name) :
    (server.Run clock ⟨.ok (pre ++ s :: post)⟩ b).2 =
      some ⟨"no server pricing found for location " ++ s.Datacenter.Location.Name⟩ ∧
    findServerPricing s.Datacenter.Location s.ServerType.Pricings =
      .error ⟨"no server pricing found for location " ++ s.Datacenter.Location.Name⟩ ∧
    (∀ (pre1 pre2 : List Server) (t : Server) (p : ServerTypeLocationPricing),
      pre = pre1 ++ t :: pre2 →
      findServerPricing t.Datacenter.Location t.ServerType.Pricings = .ok p →
      (∀ u ∈ pre2, serverLabels u ≠ serverLabels t) →
      (server.Run clock ⟨.ok (pre ++ s :: post)⟩ b).1.hourly.value (serverLabels t) =
        some p.Hourly.Gross ∧
      (server.Run clock ⟨.ok (pre ++ s :: post)⟩ b).1.monthly.value (serverLabels t) =
        some p.Monthly.Gross ∧
      (server.Run clock ⟨.ok (pre ++ s :: post)⟩ b).1.current.value (serverLabels t) =
        some (getCurrentCosts (clock pre1.length) t.Created p.Hourly.Net) ∧
      (server.Run clock ⟨.ok (pre ++ s :: post)⟩ b).1.currentCounter.value (serverLabels t) =
        some (getCurrentCosts (clock pre1.length) t.Created p.Hourly.Net)) ∧
    (∀ labels : Labels, (∀ t ∈ pre, serverLabels t ≠ labels) →
      (server.Run clock ⟨.ok (pre ++ s :: post)⟩ b).1.hourly.value labels =
        b.hourly.value labels ∧
      (server.Run clock ⟨.ok (pre ++ s :: post)⟩ b).1.monthly.value labels =
        b.monthly.value labels ∧
      (server.Run clock ⟨.ok (pre ++ s :: post)⟩ b).1.current.value labels =
        b.current.value labels ∧
      (server.Run clock ⟨.ok (pre ++ s :: post)⟩ b).1.currentCounter.value labels =
        b.currentCounter.value labels) ∧
    server.Run clock ⟨.ok (pre ++ s :: post)⟩ b =
      ((server.Run clock ⟨.ok pre⟩ b).1,
        some ⟨"no server pricing found for location " ++ s.Datacenter.Location.Name⟩) ∧
    (server.Run clock ⟨.ok pre⟩ b).2 = none := by
  have hf : findServerPricing s.Datacenter.Location s.ServerType.Pricings =
      .error ⟨"no server pricing found for location " ++ s.Datacenter.Location.Name⟩ := by
    obtain ⟨e, he⟩ := (findServerPricing_error_iff _ _).2 hs
    rw [he]
    rw [findServerPricing_eq_find] at he
    cases hfind : s.ServerType.Pricings.find?
        (fun q => decide (q.Location.Name = s.Datacenter.Location.Name)) with
    | none => rw [hfind] at he; cases he; rfl
    | some q => rw [hfind] at he; cases he
  obtain ⟨h1, h2⟩ := serverLoop_append clock pre (s :: post) 0 b hpre
  have hrun : server.Run clock ⟨.ok (pre ++ s :: post)⟩ b =
      ((server.Run clock ⟨.ok pre⟩ b).1,
        some ⟨"no server pricing found for location " ++ s.Datacenter.Location.Name⟩) := by
    show serverLoop clock 0 (pre ++ s :: post) b = _
    rw [h2, serverLoop_cons_error clock _ s post _ _ hf]
    rfl
  have hstate : (server.Run clock ⟨.ok (pre ++ s :: post)⟩ b).1 =
      (serverLoop clock 0 pre b).1 := by
    rw [hrun]
    rfl
  refine ⟨by rw [hrun], hf, ?_, ?_, hrun, h1⟩
  · intro pre1 pre2 t p hsplit hp hlast
    rw [hstate, hsplit]
    have hpre1 : ∀ u ∈ pre1, priced u := by
      intro u hu
      apply hpre u
      rw [hsplit]
      exact List.mem_append_left _ hu
    exact serverLoop_published clock pre1 pre2 t b p hpre1 hp hlast
  · intro labels hnone
    rw [hstate]
    exact serverLoop_keeps clock pre 0 b labels hnone

/-! ## Integer lemmas behind the rounding -/

theorem bitLenAux_spec (fuel n : Nat) (hf : n ≤ fuel) (hn : n ≠ 0) :
    2 ^ (bitLenAux fuel n - 1) ≤ n ∧ n < 2 ^ bitLenAux fuel n ∧ 1 ≤ bitLenAux fuel n := by
  induction fuel generalizing n with
  | zero => omega
  | succ fuel ih =>
    unfold bitLenAux
    rw [if_neg hn]
    by_cases h2 : n / 2 = 0
    · have h1 : n = 1 := by omega
      subst h1
      cases fuel <;> simp [bitLenAux]
    · obtain ⟨a, b, c⟩ := ih (n / 2) (by omega) h2
      refine ⟨?_, ?_, by omega⟩
      · have : bitLenAux fuel (n / 2) + 1 - 1 = (bitLenAux fuel (n / 2) - 1) + 1 := by omega
        rw [this, pow_succ]
        omega
      · rw [pow_succ]
        omega

theorem bitLen_spec (n : Nat) (hn : n ≠ 0) :
    2 ^ (bitLen n - 1) ≤ n ∧ n < 2 ^ bitLen n ∧ 1 ≤ bitLen n :=
  bitLenAux_spec n n (le_refl n) hn

theorem two_zpow_split (k : Int) :
    (2 : ℚ) ^ k = ((2 ^ k.toNat : Nat) : ℚ) / ((2 ^ (-k).toNat : Nat) : ℚ) := by
  rcases le_total 0 k with h | h
  · obtain ⟨j, rfl⟩ := Int.eq_ofNat_of_zero_le h
    have : (-(j : Int)).toNat = 0 := by omega
    simp [this]
  · obtain ⟨j, hj⟩ := Int.eq_ofNat_of_zero_le (neg_nonneg.mpr h)
    have hk : k = -(j : Int) := by omega
    subst hk
    have : (-(j : Int)).toNat = 0 := by omega
    simp [this]

/-- The quotient of the scaled numerator and denominator used by the rounding. -/
theorem scaled_ratio (n d : Nat) (s : Int) :
    ((n * 2 ^ (-s).toNat : Nat) : ℚ) / ((d * 2 ^ s.toNat : Nat) : ℚ) =
      (n : ℚ) / (d : ℚ) / (2 : ℚ) ^ s := by
  rw [two_zpow_split s]
  have h1 : ((2 ^ s.toNat : Nat) : ℚ) ≠ 0 := by positivity
  have h2 : ((2 ^ (-s).toNat : Nat) : ℚ) ≠ 0 := by positivity
  by_cases hd : (d : ℚ) = 0
  · simp [hd]
  · push_cast
    field_simp

theorem floorLog2_spec (n d : Nat) (hn : 0 < n) (hd : 0 < d) :
    (2 : ℚ) ^ floorLog2 n d ≤ (n : ℚ) / d ∧ (n : ℚ) / d < (2 : ℚ) ^ (floorLog2 n d + 1) := by
  obtain ⟨n1, n2, n3⟩ := bitLen_spec n (by omega)
  obtain ⟨d1, d2, d3⟩ := bitLen_spec d (by omega)
  have hdq : (0 : ℚ) < d := by exact_mod_cast hd
  have hnq : (0 : ℚ) < n := by exact_mod_cast hn
  have n1q : (2 : ℚ) ^ ((bitLen n : Int) - 1) ≤ n := by
    have : ((bitLen n : Int) - 1) = ((bitLen n - 1 : Nat) : Int) := by omega
    rw [this, zpow_natCast]
    exact_mod_cast n1
  have n2q : (n : ℚ) < (2 : ℚ) ^ (bitLen n : Int) := by
    rw [zpow_natCast]
    exact_mod_cast n2
  have d1q : (2 : ℚ) ^ ((bitLen d : Int) - 1) ≤ d := by
    have : ((bitLen d : Int) - 1) = ((bitLen d - 1 : Nat) : Int) := by omega
    rw [this, zpow_natCast]
    exact_mod_cast d1
  have d2q : (d : ℚ) < (2 : ℚ) ^ (bitLen d : Int) := by
    rw [zpow_natCast]
    exact_mod_cast d2
  have key : ∀ k : Int, ((d * 2 ^ k.toNat ≤ n * 2 ^ (-k).toNat) ↔ (2 : ℚ) ^ k ≤ (n : ℚ) / d) := by
    intro k
    rw [two_zpow_split k, div_le_div_iff₀ (by positivity) hdq]
    constructor
    · intro h
      have : ((d * 2 ^ k.toNat : Nat) : ℚ) ≤ ((n * 2 ^ (-k).toNat : Nat) : ℚ) := by
        exact_mod_cast h
      push_cast at this ⊢
      linarith
    · intro h
      have : ((d * 2 ^ k.toNat : Nat) : ℚ) ≤ ((n * 2 ^ (-k).toNat : Nat) : ℚ) := by
        push_cast at h ⊢
        linarith
      exact_mod_cast this
  have hpos : ∀ k : Int, (0 : ℚ) < (2 : ℚ) ^ k := fun k => by positivity
  unfold floorLog2
  simp only
  split
  · rename_i h
    refine ⟨(key _).1 h, ?_⟩
    rw [div_lt_iff₀ hdq]
    have e1 : (2 : ℚ) ^ ((bitLen n : Int) - (bitLen d : Int) + 1) * (2 : ℚ) ^ ((bitLen d : Int) - 1) =
        (2 : ℚ) ^ (bitLen n : Int) := by
      rw [← zpow_add₀ (by norm_num : (2 : ℚ) ≠ 0)]
      congr 1
      ring
    calc (n : ℚ) < (2 : ℚ) ^ (bitLen n : Int) := n2q
      _ = (2 : ℚ) ^ ((bitLen n : Int) - (bitLen d : Int) + 1) * (2 : ℚ) ^ ((bitLen d : Int) - 1) := e1.symm
      _ ≤ (2 : ℚ) ^ ((bitLen n : Int) - (bitLen d : Int) + 1) * d :=
        mul_le_mul_of_nonneg_left d1q (le_of_lt (hpos _))
  · rename_i h
    have h2 : ¬ (2 : ℚ) ^ ((bitLen n : Int) - (bitLen d : Int)) ≤ (n : ℚ) / d :=
      fun hh => h ((key _).2 hh)
    refine ⟨?_, ?_⟩
    · rw [le_div_iff₀ hdq]
      have e1 : (2 : ℚ) ^ ((bitLen n : Int) - (bitLen d : Int) - 1) * (2 : ℚ) ^ (bitLen d : Int) =
          (2 : ℚ) ^ ((bitLen n : Int) - 1) := by
        rw [← zpow_add₀ (by norm_num : (2 : ℚ) ≠ 0)]
        congr 1
        ring
      calc (2 : ℚ) ^ ((bitLen n : Int) - (bitLen d : Int) - 1) * d
          ≤ (2 : ℚ) ^ ((bitLen n : Int) - (bitLen d : Int) - 1) * (2 : ℚ) ^ (bitLen d : Int) :=
            mul_le_mul_of_nonneg_left (le_of_lt d2q) (le_of_lt (hpos _))
        _ = (2 : ℚ) ^ ((bitLen n : Int) - 1) := e1
        _ ≤ n := n1q
    · have : (bitLen n : Int) - (bitLen d : Int) - 1 + 1 = (bitLen n : Int) - (bitLen d : Int) := by
        ring
      rw [this]
      exact lt_of_not_le h2

theorem floorLog2_ge (n d : Nat) (hn : 0 < n) (hd : 0 < d) (e : Int)
    (h : (2 : ℚ) ^ e ≤ (n : ℚ) / d) : e ≤ floorLog2 n d := by
  by_contra hlt
  have h1 : floorLog2 n d + 1 ≤ e := by omega
  have h2 := (floorLog2_spec n d hn hd).2
  have h3 : (2 : ℚ) ^ (floorLog2 n d + 1) ≤ (2 : ℚ) ^ e :=
    zpow_le_zpow_right₀ (by norm_num) h1
  linarith

theorem floorLog2_le (n d : Nat) (hn : 0 < n) (hd : 0 < d) (e : Int)
    (h : (n : ℚ) / d < (2 : ℚ) ^ (e + 1)) : floorLog2 n d ≤ e := by
  by_contra hlt
  have h1 : e + 1 ≤ floorLog2 n d := by omega
  have h2 := (floorLog2_spec n d hn hd).1
  have h3 : (2 : ℚ) ^ (e + 1) ≤ (2 : ℚ) ^ floorLog2 n d :=
    zpow_le_zpow_right₀ (by norm_num) h1
  linarith

theorem divRoundHalfEven_ge (n d K : Nat) (hd : 0 < d) (h : K * d ≤ n) :
    K ≤ divRoundHalfEven n d := by
  have hq : K ≤ n / d := (Nat.le_div_iff_mul_le hd).2 h
  unfold divRoundHalfEven
  simp only
  split
  · exact hq
  · split
    · omega
    · split <;> omega

theorem divRoundHalfEven_le (n d K : Nat) (hd : 0 < d) (h : n ≤ K * d) :
    divRoundHalfEven n d ≤ K := by
  have hdm := Nat.div_add_mod n d
  have hml := Nat.mod_lt n hd
  have hq : n / d ≤ K := by
    by_contra hc
    have h1 : K + 1 ≤ n / d := by omega
    have h2 : (K + 1) * d ≤ n := (Nat.le_div_iff_mul_le hd).1 h1
    have h3 : (K + 1) * d = K * d + d := by ring
    omega
  unfold divRoundHalfEven
  simp only
  by_cases hr : n % d = 0
  · rw [if_pos (by omega)]
    exact hq
  · have hlt : n / d < K := by
      by_contra hc
      have h1 : n / d = K := by omega
      have h2 : d * (n / d) = K * d := by rw [h1]; ring
      omega
    split
    · exact hq
    · split
      · omega
      · split <;> omega

theorem divRoundHalfEven_gt_half (n d K : Nat) (hd : 0 < d) (h : (2 * K + 1) * d < 2 * n) :
    K + 1 ≤ divRoundHalfEven n d := by
  have hdm := Nat.div_add_mod n d
  have hml := Nat.mod_lt n hd
  have hq : K ≤ n / d := by
    by_contra hc
    have h1 : n / d + 1 ≤ K := by omega
    have h2 : d * (n / d + 1) ≤ d * K := Nat.mul_le_mul_left d h1
    have h3 : d * (n / d + 1) = d * (n / d) + d := by ring
    have h4 : (2 * K + 1) * d = 2 * (d * K) + d := by ring
    omega
  unfold divRoundHalfEven
  simp only
  by_cases hK : K = n / d
  · have h4 : (2 * K + 1) * d = 2 * (d * (n / d)) + d := by rw [hK]; ring
    have h5 : d < 2 * (n % d) := by omega
    rw [if_neg (by omega), if_pos h5]
    omega
  · have : K + 1 ≤ n / d := by omega
    split
    · exact this
    · split
      · omega
      · split <;> omega

theorem divRoundHalfEven_lt_half (n d K : Nat) (hd : 0 < d) (h : 2 * n < (2 * K + 1) * d) :
    divRoundHalfEven n d ≤ K := by
  have hdm := Nat.div_add_mod n d
  have hml := Nat.mod_lt n hd
  have hq : n / d ≤ K := by
    by_contra hc
    have h1 : K + 1 ≤ n / d := by omega
    have h2 : d * (K + 1) ≤ d * (n / d) := Nat.mul_le_mul_left d h1
    have h3 : d * (K + 1) = d * K + d := by ring
    have h4 : (2 * K + 1) * d = 2 * (d * K) + d := by ring
    omega
  unfold divRoundHalfEven
  simp only
  by_cases hK : n / d = K
  · have h4 : (2 * K + 1) * d = 2 * (d * (n / d)) + d := by rw [hK]; ring
    have h5 : 2 * (n % d) < d := by omega
    rw [if_pos h5]
    exact hq
  · have : n / d + 1 ≤ K := by omega
    split
    · exact hq
    · split
      · exact this
      · split
        · exact hq
        · exact this

theorem divRoundHalfEven_one (n : Nat) : divRoundHalfEven n 1 = n := by
  unfold divRoundHalfEven
  simp [Nat.mod_one]

theorem nearestInt_of_divRoundHalfEven (n d : Nat) (hd : 0 < d) :
    NearestInt ((n : ℚ) / d) (divRoundHalfEven n d) := by
  have hdq : (0 : ℚ) < d := by exact_mod_cast hd
  refine ⟨?_, ?_, ?_, ?_⟩
  · intro K hK
    apply divRoundHalfEven_ge n d K hd
    rw [le_div_iff₀ hdq] at hK
    exact_mod_cast hK
  · intro K hK
    apply divRoundHalfEven_le n d K hd
    rw [div_le_iff₀ hdq] at hK
    exact_mod_cast hK
  · intro K hK
    apply divRoundHalfEven_gt_half n d K hd
    rw [lt_div_iff₀ hdq] at hK
    have : ((2 * (K : ℚ) + 1) * d) < 2 * n := by linarith
    exact_mod_cast this
  · intro K hK
    apply divRoundHalfEven_lt_half n d K hd
    rw [div_lt_iff₀ hdq] at hK
    have : 2 * (n : ℚ) < ((2 * (K : ℚ) + 1) * d) := by linarith
    exact_mod_cast this

/-- The rounding of a positive rational in the range of the normal numbers of a format:
the exponent is the binary order of magnitude of the rational, the significand a nearest
integer of the rational counted in units of the last place. -/
theorem roundRat_spec_fmt (fmt : FloatInfo) (neg : Bool) (n d : Nat) (hn : 0 < n) (hd : 0 < d)
    (hlo : (2 : ℚ) ^ fmt.emin ≤ (n : ℚ) / d) (hhi : (n : ℚ) / d < (2 : ℚ) ^ fmt.emax) :
    ∃ (fl : Int) (M : Nat), (2 : ℚ) ^ fl ≤ (n : ℚ) / d ∧ (n : ℚ) / d < (2 : ℚ) ^ (fl + 1) ∧
      NearestInt ((n : ℚ) / d / (2 : ℚ) ^ (fl - ((fmt.prec : Int) - 1))) M ∧
      roundRat fmt neg n d = .finite neg M (fl - ((fmt.prec : Int) - 1)) := by
  have h1 := floorLog2_ge n d hn hd _ hlo
  have h2 := floorLog2_le n d hn hd (fmt.emax - 1) (by simpa using hhi)
  obtain ⟨s1, s2⟩ := floorLog2_spec n d hn hd
  refine ⟨floorLog2 n d,
    divRoundHalfEven (n * 2 ^ (-(floorLog2 n d - ((fmt.prec : Int) - 1))).toNat)
      (d * 2 ^ (floorLog2 n d - ((fmt.prec : Int) - 1)).toNat), s1, s2, ?_, ?_⟩
  · rw [← scaled_ratio]
    exact nearestInt_of_divRoundHalfEven _ _ (by positivity)
  · unfold roundRat
    rw [if_neg (by omega)]
    simp only
    rw [max_eq_left h1, if_neg (by omega)]

/-- The rounding to float64 of a positive rational in the range of the normal numbers:
the exponent is the binary order of magnitude of the rational, the significand a nearest
integer of the rational counted in units of the last place. -/
theorem roundRat_spec (neg : Bool) (n d : Nat) (hn : 0 < n) (hd : 0 < d)
    (hlo : (2 : ℚ) ^ (-1022 : Int) ≤ (n : ℚ) / d) (hhi : (n : ℚ) / d < (2 : ℚ) ^ (1023 : Int)) :
    ∃ (fl : Int) (M : Nat), (2 : ℚ) ^ fl ≤ (n : ℚ) / d ∧ (n : ℚ) / d < (2 : ℚ) ^ (fl + 1) ∧
      NearestInt ((n : ℚ) / d / (2 : ℚ) ^ (fl - 52)) M ∧
      roundRat float64info neg n d = .finite neg M (fl - 52) := by
  have h1 := floorLog2_ge n d hn hd _ hlo
  have h2 := floorLog2_le n d hn hd 1022 (by simpa using hhi)
  obtain ⟨s1, s2⟩ := floorLog2_spec n d hn hd
  refine ⟨floorLog2 n d, divRoundHalfEven (n * 2 ^ (-(floorLog2 n d - 52)).toNat)
    (d * 2 ^ (floorLog2 n d - 52).toNat), s1, s2, ?_, ?_⟩
  · rw [← scaled_ratio]
    exact nearestInt_of_divRoundHalfEven _ _ (by positivity)
  · unfold roundRat
    rw [if_neg (by omega)]
    simp only [float64info]
    rw [max_eq_left h1, if_neg (by omega)]
    rfl

theorem nearestInt_exact (K M : Nat) (h : NearestInt (K : ℚ) M) : M = K :=
  le_antisymm (h.2.1 K (le_refl _)) (h.1 K (le_refl _))

theorem nat_div_zpow (a : Nat) (s : Int) (hs : s ≤ 0) :
    (a : ℚ) / (2 : ℚ) ^ s = ((a * 2 ^ (-s).toNat : Nat) : ℚ) := by
  obtain ⟨j, hj⟩ := Int.eq_ofNat_of_zero_le (neg_nonneg.mpr hs)
  have hk : s = -(j : Int) := by omega
  subst hk
  simp [zpow_neg]

/-- Rounding a natural number below 2^53 to float64 is exact. -/
theorem roundRat_nat_exact (neg : Bool) (i : Nat) (h53 : i < 2 ^ 53) :
    ∃ (M : Nat) (S : Int), roundRat float64info neg i 1 = .finite neg M S ∧
      (M : ℚ) * (2 : ℚ) ^ S = i := by
  by_cases hi : i = 0
  · subst hi
    exact ⟨0, 0, rfl, by simp⟩
  · have hpos : 0 < i := Nat.pos_of_ne_zero hi
    have h1 : (1 : ℚ) ≤ i := by exact_mod_cast hpos
    have h2 : (i : ℚ) < 2 ^ 53 := by exact_mod_cast h53
    have h53z : (2 : ℚ) ^ (53 : Int) = 2 ^ 53 := by
      rw [show (53 : Int) = ((53 : Nat) : Int) from rfl, zpow_natCast]
    obtain ⟨fl, M, a, b, c, e⟩ := roundRat_spec neg i 1 hpos (by norm_num)
      (by
        have : (2 : ℚ) ^ (-1022 : Int) ≤ 1 := zpow_le_one_of_nonpos₀ (by norm_num) (by norm_num)
        simpa using le_trans this h1)
      (by
        have : (2 : ℚ) ^ (53 : Int) ≤ (2 : ℚ) ^ (1023 : Int) :=
          zpow_le_zpow_right₀ (by norm_num) (by norm_num)
        rw [h53z] at this
        simpa using lt_of_lt_of_le h2 this)
    simp only [Nat.cast_one, div_one] at a b c
    have hfl : fl ≤ 52 := by
      by_contra hc
      have : (2 : ℚ) ^ (53 : Int) ≤ (2 : ℚ) ^ fl := zpow_le_zpow_right₀ (by norm_num) (by omega)
      rw [h53z] at this
      exact absurd (lt_of_le_of_lt (le_trans this a) h2) (lt_irrefl _)
    rw [nat_div_zpow i (fl - 52) (by omega)] at c
    have hM := nearestInt_exact _ _ c
    refine ⟨M, fl - 52, e, ?_⟩
    rw [hM, ← nat_div_zpow i (fl - 52) (by omega)]
    have : (2 : ℚ) ^ (fl - 52) ≠ 0 := by positivity
    field_simp

/-- The conversion of an integer below 2^53 in absolute value to float64 is exact. -/
theorem ofInt_finite (i : Int) (h : i.natAbs < 2 ^ 53) :
    ∃ (M : Nat) (S : Int), F64.ofInt i = .finite (decide (i < 0)) M S ∧
      (M : ℚ) * (2 : ℚ) ^ S = (i.natAbs : ℚ) :=
  roundRat_nat_exact _ _ h

theorem ofInt_exact (i : Nat) (h53 : i < 2 ^ 53) :
    ∃ (M : Nat) (S : Int), F64.ofInt (i : Int) = .finite false M S ∧
      (M : ℚ) * (2 : ℚ) ^ S = i := by
  obtain ⟨M, S, hM, hv⟩ := ofInt_finite (i : Int) (by simpa using h53)
  have hneg : ¬ ((i : Int) < 0) := by omega
  refine ⟨M, S, ?_, by simpa using hv⟩
  rw [hM]
  simp [hneg]

theorem div_finite (a b : Bool) (m n : Nat) (e f : Int) (hn : n ≠ 0) :
    F64.div (.finite a m e) (.finite b n f) =
      roundRat float64info (xor a b) (m * 2 ^ (e - f).toNat) (n * 2 ^ (f - e).toNat) ∧
    ((m * 2 ^ (e - f).toNat : Nat) : ℚ) / ((n * 2 ^ (f - e).toNat : Nat) : ℚ) =
      ((m : ℚ) * (2 : ℚ) ^ e) / ((n : ℚ) * (2 : ℚ) ^ f) := by
  constructor
  · simp [F64.div, hn]
  · have h := scaled_ratio m n (f - e)
    have h2 : -(f - e) = e - f := by ring
    rw [h2] at h
    rw [h, zpow_sub₀ (by norm_num : (2 : ℚ) ≠ 0)]
    have h3 : (n : ℚ) ≠ 0 := by exact_mod_cast hn
    have h4 : (2 : ℚ) ^ e ≠ 0 := by positivity
    have h5 : (2 : ℚ) ^ f ≠ 0 := by positivity
    field_simp

theorem add_finite (m n : Nat) (e f : Int) (hz : m ≠ 0 ∨ n ≠ 0) :
    ∃ z g, F64.add (.finite false m e) (.finite false n f) =
      roundRat float64info false (z * 2 ^ g.toNat) (2 ^ (-g).toNat) ∧ 0 < z ∧
    ((z * 2 ^ g.toNat : Nat) : ℚ) / ((2 ^ (-g).toNat : Nat) : ℚ) =
      (m : ℚ) * (2 : ℚ) ^ e + (n : ℚ) * (2 : ℚ) ^ f := by
  refine ⟨m * 2 ^ (e - min e f).toNat + n * 2 ^ (f - min e f).toNat, min e f, ?_, ?_, ?_⟩
  · have hzpos : 0 < m * 2 ^ (e - min e f).toNat + n * 2 ^ (f - min e f).toNat := by
      rcases hz with h | h
      · have : 0 < m * 2 ^ (e - min e f).toNat := Nat.mul_pos (Nat.pos_of_ne_zero h) (by positivity)
        omega
      · have : 0 < n * 2 ^ (f - min e f).toNat := Nat.mul_pos (Nat.pos_of_ne_zero h) (by positivity)
        omega
    unfold F64.add
    simp only [Bool.false_eq_true, if_false, one_mul, Bool.and_self]
    have hne : ¬ (((m * 2 ^ (e - min e f).toNat : Nat) : Int) +
        ((n * 2 ^ (f - min e f).toNat : Nat) : Int) = 0) := by omega
    rw [if_neg hne]
    have hlt : ¬ (((m * 2 ^ (e - min e f).toNat : Nat) : Int) +
        ((n * 2 ^ (f - min e f).toNat : Nat) : Int) < 0) := by omega
    have habs : (((m * 2 ^ (e - min e f).toNat : Nat) : Int) +
        ((n * 2 ^ (f - min e f).toNat : Nat) : Int)).natAbs =
        m * 2 ^ (e - min e f).toNat + n * 2 ^ (f - min e f).toNat := by omega
    rw [habs]
    simp only [roundDyadic, hlt, decide_False]
  · rcases hz with h | h
    · have : 0 < m * 2 ^ (e - min e f).toNat := Nat.mul_pos (Nat.pos_of_ne_zero h) (by positivity)
      omega
    · have : 0 < n * 2 ^ (f - min e f).toNat := Nat.mul_pos (Nat.pos_of_ne_zero h) (by positivity)
      omega
  · have h := scaled_ratio (m * 2 ^ (e - min e f).toNat + n * 2 ^ (f - min e f).toNat) 1
      (-(min e f))
    simp only [neg_neg, one_mul, Nat.cast_one, div_one] at h
    rw [h, zpow_neg, div_inv_eq_mul]
    push_cast
    have e1 : (e - min e f).toNat = e - min e f := Int.toNat_of_nonneg (by omega)
    have e2 : (f - min e f).toNat = f - min e f := Int.toNat_of_nonneg (by omega)
    have p1 : ((2 : ℚ) ^ (e - min e f).toNat) = (2 : ℚ) ^ (e - min e f) := by
      rw [← zpow_natCast, e1]
    have p2 : ((2 : ℚ) ^ (f - min e f).toNat) = (2 : ℚ) ^ (f - min e f) := by
      rw [← zpow_natCast, e2]
    rw [p1, p2, add_mul, mul_assoc, mul_assoc, ← zpow_add₀ (by norm_num : (2 : ℚ) ≠ 0),
      ← zpow_add₀ (by norm_num : (2 : ℚ) ≠ 0)]
    simp

theorem ceil_finite (M : Nat) (S : Int) :
    F64.ceil (.finite false M S) = .finite false ⌈(M : ℚ) * (2 : ℚ) ^ S⌉₊ 0 := by
  have h := scaled_ratio M 1 (-S)
  simp only [neg_neg, one_mul, Nat.cast_one, div_one, zpow_neg, div_inv_eq_mul] at h
  have hd : 0 < 2 ^ (-S).toNat := by positivity
  have hdq : (0 : ℚ) < ((2 ^ (-S).toNat : Nat) : ℚ) := by exact_mod_cast hd
  unfold F64.ceil
  simp only
  congr 1
  symm
  rw [← h]
  generalize M * 2 ^ S.toNat = n
  generalize 2 ^ (-S).toNat = d at hd hdq
  by_cases hn : n = 0
  · subst hn
    simp only [Nat.zero_add, Nat.cast_zero, zero_div, Nat.ceil_zero]
    have hlt : 0 + d - 1 < d := by omega
    simpa using (Nat.div_eq_of_lt hlt).symm
  · have hdm := Nat.div_add_mod (n + d - 1) d
    have hml := Nat.mod_lt (n + d - 1) hd
    have hc1 : n ≤ (n + d - 1) / d * d := by
      have : d * ((n + d - 1) / d) = (n + d - 1) / d * d := by ring
      omega
    have hc2 : (n + d - 1) / d * d ≤ n + d - 1 := Nat.div_mul_le_self _ _
    have hcpos : 0 < (n + d - 1) / d := by
      rcases Nat.eq_zero_or_pos ((n + d - 1) / d) with h0 | h0
      · rw [h0] at hc1; omega
      · exact h0
    rw [Nat.ceil_eq_iff (by omega)]
    constructor
    · rw [lt_div_iff₀ hdq]
      have h3 : ((n + d - 1) / d - 1) * d < n := by
        have : ((n + d - 1) / d - 1) * d = (n + d - 1) / d * d - d := by
          rw [Nat.sub_mul]; simp
        omega
      exact_mod_cast h3
    · rw [div_le_iff₀ hdq]
      exact_mod_cast hc1

theorem zpow_two_nat (k : Nat) : (2 : ℚ) ^ (k : Int) = ((2 ^ k : Nat) : ℚ) := by
  rw [zpow_natCast]
  push_cast
  rfl

theorem hours_split (D : Nat) :
    Duration.Hours (D : Int) =
      F64.add (F64.ofInt ((D / 3600000000000 : Nat) : Int))
        (F64.div (F64.ofInt ((D % 3600000000000 : Nat) : Int)) (F64.ofInt 3600000000000)) := by
  unfold Duration.Hours Hour
  have h1 : Int.tdiv (D : Int) 3600000000000 = ((D / 3600000000000 : Nat) : Int) := by
    rw [Int.tdiv_eq_ediv (by omega) (by norm_num)]
    omega
  have h2 : Int.tmod (D : Int) 3600000000000 = ((D % 3600000000000 : Nat) : Int) := by
    rw [Int.tmod_eq_emod (by omega) (by norm_num)]
    omega
  simp only [h1, h2]

theorem ofInt_hour_const :
    F64.ofInt 3600000000000 = .finite false 7372800000000000 (-11) := by decide

/-- The billed hours of a whole number of hours: the float64 computation is exact. -/
theorem hours_ceil_whole (D : Nat) (hD : D ≤ 9223372036854775807)
    (hc : D % 3600000000000 = 0) :
    F64.ceil (Duration.Hours (D : Int)) = .finite false ⌈(D : ℚ) / 3600000000000⌉₊ 0 := by
  have hdiv : (D : ℚ) / 3600000000000 = ((D / 3600000000000 : Nat) : ℚ) := by
    have : D = 3600000000000 * (D / 3600000000000) := by omega
    rw [div_eq_iff (by norm_num)]
    symm
    calc ((D / 3600000000000 : Nat) : ℚ) * 3600000000000
        = ((3600000000000 * (D / 3600000000000) : Nat) : ℚ) := by push_cast; ring
      _ = (D : ℚ) := by rw [← this]
  rw [hdiv, Nat.ceil_natCast, hours_split, hc]
  have hzero : F64.div (F64.ofInt ((0 : Nat) : Int)) (F64.ofInt 3600000000000) =
      .finite false 0 0 := by decide
  rw [hzero]
  have hlt : D / 3600000000000 < 2 ^ 53 := by
    have : D / 3600000000000 ≤ 2562047 := by omega
    have h2 : (2562047 : Nat) < 2 ^ 53 := by norm_num
    omega
  obtain ⟨M, S, hM, hv⟩ := ofInt_exact (D / 3600000000000) hlt
  rw [hM]
  by_cases h0 : D / 3600000000000 = 0
  · rw [h0] at hv ⊢
    have hM0 : M = 0 := by
      have hp : (2 : ℚ) ^ S ≠ 0 := by positivity
      have : (M : ℚ) = 0 := by
        have hv0 : (M : ℚ) * (2 : ℚ) ^ S = 0 := by rw [hv]; simp
        rcases mul_eq_zero.mp hv0 with h | h
        · exact h
        · exact absurd h hp
      exact_mod_cast this
    subst hM0
    have : F64.add (.finite false 0 S) (.finite false 0 0) = .finite false 0 0 := by
      simp [F64.add]
    rw [this]
    decide
  · have hMne : M ≠ 0 := by
      intro hM0
      subst hM0
      simp at hv
      exact h0 (by exact_mod_cast hv.symm)
    obtain ⟨z, g, hadd, hz, hval⟩ := add_finite M 0 S 0 (Or.inl hMne)
    rw [hadd]
    simp only [Nat.cast_zero, zero_mul, add_zero] at hval
    rw [hv] at hval
    have hge1 : (1 : ℚ) ≤ ((D / 3600000000000 : Nat) : ℚ) := by
      exact_mod_cast Nat.pos_of_ne_zero h0
    have hlt53 : ((D / 3600000000000 : Nat) : ℚ) < 2 ^ 53 := by exact_mod_cast hlt
    obtain ⟨fl, M2, a, b, c, e⟩ := roundRat_spec false (z * 2 ^ g.toNat) (2 ^ (-g).toNat)
      (Nat.mul_pos hz (by positivity)) (by positivity)
      (by
        rw [hval]
        have : (2 : ℚ) ^ (-1022 : Int) ≤ 1 := zpow_le_one_of_nonpos₀ (by norm_num) (by norm_num)
        exact le_trans this hge1)
      (by
        rw [hval]
        have : (2 : ℚ) ^ (53 : Int) ≤ (2 : ℚ) ^ (1023 : Int) :=
          zpow_le_zpow_right₀ (by norm_num) (by norm_num)
        have h3 : (2 : ℚ) ^ (53 : Int) = 2 ^ 53 := by
          rw [show (53 : Int) = ((53 : Nat) : Int) from rfl, zpow_natCast]
        linarith)
    rw [hval] at a b c
    have hfl : fl ≤ 52 := by
      by_contra hcon
      have : (2 : ℚ) ^ (53 : Int) ≤ (2 : ℚ) ^ fl := zpow_le_zpow_right₀ (by norm_num) (by omega)
      have h3 : (2 : ℚ) ^ (53 : Int) = 2 ^ 53 := by
        rw [show (53 : Int) = ((53 : Nat) : Int) from rfl, zpow_natCast]
      linarith
    rw [nat_div_zpow _ (fl - 52) (by omega)] at c
    have hM2 := nearestInt_exact _ _ c
    rw [e, ceil_finite, hM2, ← nat_div_zpow _ (fl - 52) (by omega)]
    have hp : (2 : ℚ) ^ (fl - 52) ≠ 0 := by positivity
    rw [div_mul_cancel₀ _ hp, Nat.ceil_natCast]

theorem zpow_mono_two {a b : Int} (h : a ≤ b) : (2 : ℚ) ^ a ≤ (2 : ℚ) ^ b :=
  zpow_le_zpow_right₀ (by norm_num) h

theorem zpow_lt_two {a b : Int} (h : (2 : ℚ) ^ a < (2 : ℚ) ^ b) : a < b := by
  by_contra hc
  have := zpow_mono_two (show b ≤ a by omega)
  linarith

/-- Bounds of a rounded value by the powers of two around the rounded number. -/
theorem nearest_bounds (x : ℚ) (fl : Int) (M : Nat) (h1 : (2 : ℚ) ^ fl ≤ x)
    (h2 : x < (2 : ℚ) ^ (fl + 1)) (h : NearestInt (x / (2 : ℚ) ^ (fl - 52)) M) :
    (2 : ℚ) ^ fl ≤ (M : ℚ) * (2 : ℚ) ^ (fl - 52) ∧
    (M : ℚ) * (2 : ℚ) ^ (fl - 52) ≤ (2 : ℚ) ^ (fl + 1) := by
  have hp : (0 : ℚ) < (2 : ℚ) ^ (fl - 52) := by positivity
  have e1 : (2 : ℚ) ^ fl = ((2 ^ 52 : Nat) : ℚ) * (2 : ℚ) ^ (fl - 52) := by
    rw [← zpow_two_nat, ← zpow_add₀ (by norm_num : (2 : ℚ) ≠ 0)]
    congr 1
    omega
  have e2 : (2 : ℚ) ^ (fl + 1) = ((2 ^ 53 : Nat) : ℚ) * (2 : ℚ) ^ (fl - 52) := by
    rw [← zpow_two_nat, ← zpow_add₀ (by norm_num : (2 : ℚ) ≠ 0)]
    congr 1
    omega
  constructor
  · have : 2 ^ 52 ≤ M := by
      apply h.1
      rw [le_div_iff₀ hp, ← e1]
      exact h1
    rw [e1]
    exact mul_le_mul_of_nonneg_right (by exact_mod_cast this) (le_of_lt hp)
  · have : M ≤ 2 ^ 53 := by
      apply h.2.1
      rw [div_le_iff₀ hp, ← e2]
      exact le_of_lt h2
    rw [e2]
    exact mul_le_mul_of_nonneg_right (by exact_mod_cast this) (le_of_lt hp)

theorem ceil_started_hour (D : Nat) (h : D % 3600000000000 ≠ 0) :
    ⌈(D : ℚ) / 3600000000000⌉₊ = D / 3600000000000 + 1 := by
  rw [Nat.ceil_eq_iff (by omega)]
  have hD : (D : ℚ) = ((3600000000000 * (D / 3600000000000) + D % 3600000000000 : Nat) : ℚ) := by
    rw [Nat.div_add_mod]
  have h1 : (0 : ℚ) < ((D % 3600000000000 : Nat) : ℚ) := by
    exact_mod_cast Nat.pos_of_ne_zero h
  have h2 : ((D % 3600000000000 : Nat) : ℚ) < 3600000000000 := by
    exact_mod_cast Nat.mod_lt D (by norm_num)
  constructor
  · rw [lt_div_iff₀ (by norm_num), hD]
    push_cast
    linarith
  · rw [div_le_iff₀ (by norm_num), hD]
    push_cast
    linarith

theorem exp_lt_of_bounds (x : ℚ) (fl k : Int) (h1 : (2 : ℚ) ^ fl ≤ x) (h2 : x < (2 : ℚ) ^ k) :
    fl < k :=
  zpow_lt_two (lt_of_le_of_lt h1 h2)

theorem exp_ge_of_bounds (x : ℚ) (fl k : Int) (h1 : (2 : ℚ) ^ k ≤ x)
    (h2 : x < (2 : ℚ) ^ (fl + 1)) : k ≤ fl := by
  have := zpow_lt_two (lt_of_le_of_lt h1 h2)
  omega

/-- The float64 quotient of the nanoseconds of a started hour by the nanoseconds of an
hour: above 2^-42, at most 1, and at least 2^-31 from 2000 nanoseconds on. -/
theorem frac_bounds (r : Nat) (hr0 : r ≠ 0) (hr : r < 3600000000000) (fl : Int) (M : Nat)
    (a : (2 : ℚ) ^ fl ≤ (r : ℚ) / 3600000000000)
    (b : (r : ℚ) / 3600000000000 < (2 : ℚ) ^ (fl + 1))
    (c : NearestInt ((r : ℚ) / 3600000000000 / (2 : ℚ) ^ (fl - 52)) M) :
    (2 : ℚ) ^ (-42 : Int) < (M : ℚ) * (2 : ℚ) ^ (fl - 52) ∧
    (M : ℚ) * (2 : ℚ) ^ (fl - 52) ≤ 1 ∧
    (2000 ≤ r → (2 : ℚ) ^ (-31 : Int) ≤ (M : ℚ) * (2 : ℚ) ^ (fl - 52)) := by
  have hx1 : (1 : ℚ) / 3600000000000 ≤ (r : ℚ) / 3600000000000 := by
    apply div_le_div_of_nonneg_right _ (by norm_num)
    exact_mod_cast Nat.pos_of_ne_zero hr0
  have hx2 : (r : ℚ) / 3600000000000 < (2 : ℚ) ^ (0 : Int) := by
    rw [zpow_zero, div_lt_one (by norm_num)]
    exact_mod_cast hr
  have h42 : (2 : ℚ) ^ (-42 : Int) ≤ (r : ℚ) / 3600000000000 :=
    le_trans (by norm_num) hx1
  obtain ⟨hFlo, hFhi⟩ := nearest_bounds _ fl M a b c
  have hfl1 : fl < 0 := exp_lt_of_bounds _ fl 0 a hx2
  have hfl2 : -42 ≤ fl := exp_ge_of_bounds _ fl (-42) h42 b
  refine ⟨?_, ?_, ?_⟩
  · by_cases h41 : -41 ≤ fl
    · have h1 : (2 : ℚ) ^ (-41 : Int) ≤ (2 : ℚ) ^ fl := zpow_mono_two h41
      have h2 : (2 : ℚ) ^ (-42 : Int) < (2 : ℚ) ^ (-41 : Int) := by norm_num
      exact lt_of_lt_of_le h2 (le_trans h1 hFlo)
    · have hfl : fl = -42 := by omega
      subst hfl
      have hK : 5501955730000000 ≤ M := by
        apply c.1
        rw [le_div_iff₀ (by positivity)]
        have : ((5501955730000000 : Nat) : ℚ) * (2 : ℚ) ^ ((-42 : Int) - 52) ≤
            (1 : ℚ) / 3600000000000 := by norm_num
        exact le_trans this hx1
      have hKq : ((5501955730000000 : Nat) : ℚ) ≤ (M : ℚ) := by exact_mod_cast hK
      have hp : (0 : ℚ) < (2 : ℚ) ^ ((-42 : Int) - 52) := by positivity
      have h3 : (2 : ℚ) ^ (-42 : Int) <
          ((5501955730000000 : Nat) : ℚ) * (2 : ℚ) ^ ((-42 : Int) - 52) := by norm_num
      exact lt_of_lt_of_le h3 (mul_le_mul_of_nonneg_right hKq (le_of_lt hp))
  · have : (2 : ℚ) ^ (fl + 1) ≤ (2 : ℚ) ^ (0 : Int) := zpow_mono_two (by omega)
    rw [zpow_zero] at this
    exact le_trans hFhi this
  · intro h2000
    have h1 : (2 : ℚ) ^ (-31 : Int) ≤ (r : ℚ) / 3600000000000 := by
      have h2 : (2 : ℚ) ^ (-31 : Int) ≤ (2000 : ℚ) / 3600000000000 := by norm_num
      have h3 : (2000 : ℚ) / 3600000000000 ≤ (r : ℚ) / 3600000000000 := by
        apply div_le_div_of_nonneg_right _ (by norm_num)
        exact_mod_cast h2000
      exact le_trans h2 h3
    have h31 : -31 ≤ fl := exp_ge_of_bounds _ fl (-31) h1 b
    exact le_trans (zpow_mono_two h31) hFlo

/-- The float64 sum of whole hours and a fraction F of an hour lies above the whole
hours and not above the next whole hour, when F exceeds half a unit in the last place of
the sum. -/
theorem sum_bounds (h : Nat) (hh : h ≤ 2562047) (F : ℚ) (hF1 : F ≤ 1)
    (fl : Int) (M : Nat) (a : (2 : ℚ) ^ fl ≤ (h : ℚ) + F)
    (c : NearestInt (((h : ℚ) + F) / (2 : ℚ) ^ (fl - 52)) M)
    (hc : (h < 4096 ∧ (2 : ℚ) ^ (-42 : Int) < F) ∨ (2 : ℚ) ^ (-31 : Int) ≤ F) :
    (h : ℚ) < (M : ℚ) * (2 : ℚ) ^ (fl - 52) ∧ (M : ℚ) * (2 : ℚ) ^ (fl - 52) ≤ (h : ℚ) + 1 := by
  have hhq : (h : ℚ) ≤ 2562047 := by exact_mod_cast hh
  have hh0 : (0 : ℚ) ≤ (h : ℚ) := Nat.cast_nonneg _
  have hfl : fl < 22 := by
    apply exp_lt_of_bounds _ fl 22 a
    have : (2 : ℚ) ^ (22 : Int) = 4194304 := by norm_num
    rw [this]
    linarith
  obtain ⟨P, hP⟩ : ∃ P : ℚ, P = (2 : ℚ) ^ (fl - 52) := ⟨_, rfl⟩
  have hPpos : 0 < P := by rw [hP]; positivity
  have hhalf : (2 : ℚ) ^ (fl - 53) = (1 / 2) * P := by
    have : fl - 53 = (fl - 52) + (-1) := by ring
    rw [hP, this, zpow_add₀ (by norm_num : (2 : ℚ) ≠ 0)]
    norm_num
    ring
  have hFbig : (1 / 2) * P < F := by
    rw [← hhalf]
    rcases hc with ⟨h4096, h42⟩ | h31
    · by_cases h11 : fl ≤ 11
      · exact lt_of_le_of_lt (zpow_mono_two (by omega)) h42
      · have h12 : (2 : ℚ) ^ (12 : Int) ≤ (2 : ℚ) ^ fl := zpow_mono_two (by omega)
        have h12v : (2 : ℚ) ^ (12 : Int) = 4096 := by norm_num
        rw [h12v] at h12
        have h4095 : (h : ℚ) ≤ 4095 := by
          have : h ≤ 4095 := by omega
          exact_mod_cast this
        have hZ : (4096 : ℚ) ≤ (h : ℚ) + F := le_trans h12 a
        have hFge : (1 : ℚ) ≤ F := by linarith
        have h32 : (2 : ℚ) ^ (fl - 53) ≤ (2 : ℚ) ^ (-32 : Int) := zpow_mono_two (by omega)
        have h32v : (2 : ℚ) ^ (-32 : Int) < 1 := by norm_num
        exact lt_of_le_of_lt h32 (lt_of_lt_of_le h32v hFge)
    · have h32 : (2 : ℚ) ^ (fl - 53) ≤ (2 : ℚ) ^ (-32 : Int) := zpow_mono_two (by omega)
      have h32v : (2 : ℚ) ^ (-32 : Int) < (2 : ℚ) ^ (-31 : Int) := by norm_num
      exact lt_of_le_of_lt h32 (lt_of_lt_of_le h32v h31)
  rw [← hP] at c ⊢
  have k1 : (h : ℚ) / P = ((h * 2 ^ (-(fl - 52)).toNat : Nat) : ℚ) := by
    rw [hP]
    exact nat_div_zpow h (fl - 52) (by omega)
  have k2 : ((h + 1 : Nat) : ℚ) / P = (((h + 1) * 2 ^ (-(fl - 52)).toNat : Nat) : ℚ) := by
    rw [hP]
    exact nat_div_zpow (h + 1) (fl - 52) (by omega)
  have hlow : h * 2 ^ (-(fl - 52)).toNat + 1 ≤ M := by
    apply c.2.2.1
    rw [← k1, lt_div_iff₀ hPpos, add_mul, div_mul_cancel₀ _ (ne_of_gt hPpos)]
    linarith
  have hupp : M ≤ (h + 1) * 2 ^ (-(fl - 52)).toNat := by
    apply c.2.1
    rw [← k2]
    apply div_le_div_of_nonneg_right _ (le_of_lt hPpos)
    push_cast
    linarith
  have hlowq : ((h * 2 ^ (-(fl - 52)).toNat + 1 : Nat) : ℚ) ≤ (M : ℚ) := by
    exact_mod_cast hlow
  have huppq : (M : ℚ) ≤ (((h + 1) * 2 ^ (-(fl - 52)).toNat : Nat) : ℚ) := by
    exact_mod_cast hupp
  constructor
  · have h1 := mul_le_mul_of_nonneg_right hlowq (le_of_lt hPpos)
    rw [Nat.cast_add, ← k1, add_mul, div_mul_cancel₀ _ (ne_of_gt hPpos)] at h1
    simp only [Nat.cast_one, one_mul] at h1
    linarith
  · have h1 := mul_le_mul_of_nonneg_right huppq (le_of_lt hPpos)
    rw [← k2, div_mul_cancel₀ _ (ne_of_gt hPpos)] at h1
    push_cast at h1
    exact h1

/-- The billed hours of a span with a started hour: the float64 sum of the whole hours
and the fraction lies above the whole hours, up to the next whole hour, when the span is
below 4096 hours or the started hour has run for 2000 nanoseconds. -/
theorem hours_ceil_part (D : Nat) (hD : D ≤ 9223372036854775807)
    (hpos : D % 3600000000000 ≠ 0)
    (hc : D / 3600000000000 < 4096 ∨ 2000 ≤ D % 3600000000000) :
    F64.ceil (Duration.Hours (D : Int)) = .finite false (D / 3600000000000 + 1) 0 := by
  have hnlt : D % 3600000000000 < 3600000000000 := Nat.mod_lt D (by norm_num)
  have hhour : D / 3600000000000 ≤ 2562047 := by omega
  obtain ⟨Mn, Sn, hMn, hvn⟩ := ofInt_exact (D % 3600000000000)
    (lt_trans hnlt (by norm_num))
  have hMn0 : Mn ≠ 0 := by
    intro h0
    subst h0
    simp at hvn
    exact hpos (by exact_mod_cast hvn.symm)
  obtain ⟨hdiv, hratio⟩ := div_finite false false Mn 7372800000000000 Sn (-11) (by norm_num)
  simp only [Bool.xor_false] at hdiv
  have hC : ((7372800000000000 : Nat) : ℚ) * (2 : ℚ) ^ (-11 : Int) = 3600000000000 := by
    norm_num
  rw [hvn, hC] at hratio
  have hx1 : (2 : ℚ) ^ (-1022 : Int) ≤ ((D % 3600000000000 : Nat) : ℚ) / 3600000000000 := by
    have h1 : (1 : ℚ) / 3600000000000 ≤ ((D % 3600000000000 : Nat) : ℚ) / 3600000000000 := by
      apply div_le_div_of_nonneg_right _ (by norm_num)
      exact_mod_cast Nat.pos_of_ne_zero hpos
    have h2 : (2 : ℚ) ^ (-42 : Int) ≤ (1 : ℚ) / 3600000000000 := by norm_num
    exact le_trans (zpow_mono_two (by norm_num)) (le_trans h2 h1)
  have hx2 : ((D % 3600000000000 : Nat) : ℚ) / 3600000000000 < (2 : ℚ) ^ (1023 : Int) := by
    have h1 : ((D % 3600000000000 : Nat) : ℚ) / 3600000000000 < 1 := by
      rw [div_lt_one (by norm_num)]
      exact_mod_cast hnlt
    have h2 : (1 : ℚ) ≤ (2 : ℚ) ^ (1023 : Int) := by
      have := zpow_mono_two (show (0 : Int) ≤ 1023 by norm_num)
      simpa using this
    exact lt_of_lt_of_le h1 h2
  obtain ⟨flF, MF, a, b, c, e⟩ := roundRat_spec false (Mn * 2 ^ (Sn - -11).toNat)
    (7372800000000000 * 2 ^ (-11 - Sn).toNat)
    (Nat.mul_pos (Nat.pos_of_ne_zero hMn0) (by positivity))
    (Nat.mul_pos (by norm_num) (by positivity))
    (by rw [hratio]; exact hx1) (by rw [hratio]; exact hx2)
  rw [hratio] at a b c
  obtain ⟨hF42, hF1, hF31⟩ := frac_bounds _ hpos hnlt flF MF a b c
  have hF0 : (0 : ℚ) < (MF : ℚ) * (2 : ℚ) ^ (flF - 52) :=
    lt_trans (by positivity) hF42
  have hMF0 : MF ≠ 0 := by
    intro h0
    subst h0
    simp at hF0
  obtain ⟨Mh, Sh, hMh, hvh⟩ := ofInt_exact (D / 3600000000000)
    (lt_of_le_of_lt hhour (by norm_num))
  obtain ⟨z, g, hadd, hz, hval⟩ := add_finite Mh MF Sh (flF - 52) (Or.inr hMF0)
  rw [hvh] at hval
  obtain ⟨F, hF⟩ : ∃ F : ℚ, F = (MF : ℚ) * (2 : ℚ) ^ (flF - 52) := ⟨_, rfl⟩
  rw [← hF] at hval hF42 hF1 hF31 hF0
  have hhq : (0 : ℚ) ≤ ((D / 3600000000000 : Nat) : ℚ) := Nat.cast_nonneg _
  have hhq2 : ((D / 3600000000000 : Nat) : ℚ) ≤ 2562047 := by exact_mod_cast hhour
  have hpm : (0 : ℚ) < (2 : ℚ) ^ (-1022 : Int) := by positivity
  obtain ⟨flZ, MZ, a2, b2, c2, e2⟩ := roundRat_spec false (z * 2 ^ g.toNat) (2 ^ (-g).toNat)
    (Nat.mul_pos hz (by positivity)) (by positivity)
    (by
      rw [hval]
      have h1 : (2 : ℚ) ^ (-1022 : Int) ≤ (2 : ℚ) ^ (-42 : Int) := zpow_mono_two (by norm_num)
      have h2 : (2 : ℚ) ^ (-42 : Int) ≤ ((D / 3600000000000 : Nat) : ℚ) + F :=
        le_trans (le_of_lt hF42) (le_add_of_nonneg_left hhq)
      exact le_trans h1 h2)
    (by
      rw [hval]
      have h1 := zpow_mono_two (show (22 : Int) ≤ 1023 by norm_num)
      have h2 : (2 : ℚ) ^ (22 : Int) = 4194304 := by norm_num
      rw [h2] at h1
      have h3 : ((D / 3600000000000 : Nat) : ℚ) + F < 4194304 := by linarith only [hhq2, hF1]
      exact lt_of_lt_of_le h3 h1)
  rw [hval] at a2 b2 c2
  obtain ⟨hlo, hhi⟩ := sum_bounds (D / 3600000000000) hhour F hF1 flZ MZ a2 c2
    (by
      rcases hc with h4096 | h2000
      · exact Or.inl ⟨h4096, hF42⟩
      · exact Or.inr (hF31 h2000))
  rw [hours_split, hMn, ofInt_hour_const, hdiv, e, hMh, hadd, e2, ceil_finite]
  congr 1
  rw [Nat.ceil_eq_iff (by omega)]
  constructor
  · simpa using hlo
  · push_cast
    exact hhi

theorem tmod_neg_nat (D C : Nat) : Int.tmod (-(D : Int)) (C : Int) = -((D % C : Nat) : Int) := by
  cases D with
  | zero => simp
  | succ k => rfl

/-- The billed hours: math.Ceil of Duration.Hours is the ceiling of the span in hours, for
an unsaturated span that is below 4096 hours, or a whole number of hours, or has run at
least 2000 nanoseconds into its last hour. -/
theorem hours_ceil (D : Nat) (hD : D ≤ 9223372036854775807)
    (hc : D < 4096 * 3600000000000 ∨ D % 3600000000000 = 0 ∨ 2000 ≤ D % 3600000000000) :
    F64.ceil (Duration.Hours (D : Int)) = .finite false ⌈(D : ℚ) / 3600000000000⌉₊ 0 := by
  by_cases h0 : D % 3600000000000 = 0
  · exact hours_ceil_whole D hD h0
  · rw [ceil_started_hour D h0]
    apply hours_ceil_part D hD h0
    rcases hc with h | h | h
    · left; omega
    · exact absurd h h0
    · right; exact h

/-- A rational below 2^1023 rounds to a finite float64 of the given sign. -/
theorem roundRat_finite (neg : Bool) (n d : Nat) (hd : 0 < d)
    (h : (n : ℚ) / d < (2 : ℚ) ^ (1023 : Int)) :
    ∃ M S, roundRat float64info neg n d = .finite neg M S := by
  unfold roundRat
  by_cases hn : n = 0
  · rw [if_pos hn]
    exact ⟨0, 0, rfl⟩
  · rw [if_neg hn]
    have h2 := floorLog2_le n d (Nat.pos_of_ne_zero hn) hd 1022 (by simpa using h)
    simp only [float64info]
    have hmax : max (floorLog2 n d) (-1022) ≤ 1022 := max_le h2 (by norm_num)
    rw [if_neg (by omega)]
    exact ⟨_, _, rfl⟩

/-- The scaled operands of a float64 sum, as integers with their signs. -/
theorem add_unfold (a b : Bool) (m n : Nat) (e f : Int) :
    F64.add (.finite a m e) (.finite b n f) =
      if (if a then -1 else 1) * ((m * 2 ^ (e - min e f).toNat : Nat) : Int) +
          (if b then -1 else 1) * ((n * 2 ^ (f - min e f).toNat : Nat) : Int) = 0
      then .finite (a && b) 0 0
      else roundRat float64info
        (decide ((if a then -1 else 1) * ((m * 2 ^ (e - min e f).toNat : Nat) : Int) +
          (if b then -1 else 1) * ((n * 2 ^ (f - min e f).toNat : Nat) : Int) < 0))
        (((if a then -1 else 1) * ((m * 2 ^ (e - min e f).toNat : Nat) : Int) +
          (if b then -1 else 1) * ((n * 2 ^ (f - min e f).toNat : Nat) : Int)).natAbs *
            2 ^ (min e f).toNat) (2 ^ (-(min e f)).toNat) := rfl

theorem scaled_sum (m n : Nat) (e f : Int) :
    ((m * 2 ^ (e - min e f).toNat + n * 2 ^ (f - min e f).toNat : Nat) : ℚ) *
      (2 : ℚ) ^ (min e f) = (m : ℚ) * (2 : ℚ) ^ e + (n : ℚ) * (2 : ℚ) ^ f := by
  have e1 : (e - min e f).toNat = e - min e f := Int.toNat_of_nonneg (by omega)
  have e2 : (f - min e f).toNat = f - min e f := Int.toNat_of_nonneg (by omega)
  have p1 : ((2 : ℚ) ^ (e - min e f).toNat) = (2 : ℚ) ^ (e - min e f) := by
    rw [← zpow_natCast, e1]
  have p2 : ((2 : ℚ) ^ (f - min e f).toNat) = (2 : ℚ) ^ (f - min e f) := by
    rw [← zpow_natCast, e2]
  push_cast
  rw [p1, p2, add_mul, mul_assoc, mul_assoc, ← zpow_add₀ (by norm_num : (2 : ℚ) ≠ 0),
    ← zpow_add₀ (by norm_num : (2 : ℚ) ≠ 0)]
  simp

theorem natAbs_signed_sum_le (a b : Bool) (X Y : Nat) :
    ((if a then -1 else 1) * (X : Int) + (if b then -1 else 1) * (Y : Int)).natAbs ≤ X + Y := by
  cases a <;> cases b <;> simp <;> omega

theorem signed_sum_nonneg (X Y : Nat) :
    ¬ ((if false then -1 else 1) * (X : Int) + (if false then -1 else 1) * (Y : Int) < 0) := by
  simp
  omega

/-- A float64 sum of finite numbers whose magnitudes add up to less than 2^1023 is
finite, and its sign bit is clear when both sign bits are. -/
theorem add_finite_any (a b : Bool) (m n : Nat) (e f : Int)
    (h : (m : ℚ) * (2 : ℚ) ^ e + (n : ℚ) * (2 : ℚ) ^ f < (2 : ℚ) ^ (1023 : Int)) :
    ∃ c M S, F64.add (.finite a m e) (.finite b n f) = .finite c M S ∧
      (a = false → b = false → c = false) := by
  rw [add_unfold]
  have hs := scaled_sum m n e f
  have hle := natAbs_signed_sum_le a b (m * 2 ^ (e - min e f).toNat)
    (n * 2 ^ (f - min e f).toNat)
  have hsg : a = false → b = false →
      ¬ ((if a then -1 else 1) * ((m * 2 ^ (e - min e f).toNat : Nat) : Int) +
        (if b then -1 else 1) * ((n * 2 ^ (f - min e f).toNat : Nat) : Int) < 0) := by
    intro ha hb
    subst ha hb
    exact signed_sum_nonneg _ _
  generalize (m * 2 ^ (e - min e f).toNat) = X at hs hle hsg ⊢
  generalize (n * 2 ^ (f - min e f).toNat) = Y at hs hle hsg ⊢
  generalize ((if a then -1 else 1) * (X : Int) + (if b then -1 else 1) * (Y : Int)) = z
    at hle hsg ⊢
  split
  · refine ⟨_, _, _, rfl, ?_⟩
    intro ha hb
    subst ha hb
    rfl
  · obtain ⟨M, S, hMS⟩ := roundRat_finite (decide (z < 0))
      (z.natAbs * 2 ^ (min e f).toNat) (2 ^ (-(min e f)).toNat) (by positivity)
      (by
        have hsc := scaled_ratio z.natAbs 1 (-(min e f))
        simp only [neg_neg, one_mul, Nat.cast_one, div_one] at hsc
        rw [hsc, zpow_neg, div_inv_eq_mul]
        have hleq : ((z.natAbs : Nat) : ℚ) ≤ ((X + Y : Nat) : ℚ) := by exact_mod_cast hle
        have hp : (0 : ℚ) ≤ (2 : ℚ) ^ (min e f) := by positivity
        have hmul := mul_le_mul_of_nonneg_right hleq hp
        rw [hs] at hmul
        exact lt_of_le_of_lt hmul h)
    refine ⟨_, M, S, hMS, ?_⟩
    intro ha hb
    simp [hsg ha hb]

/-- The float64 quotient of the nanoseconds within an hour by the nanoseconds of an hour
is finite, at most 1, with the sign of the nanoseconds. -/
theorem frac_finite (sn : Bool) (Mn : Nat) (Sn : Int) (R : Nat) (hR : R < 3600000000000)
    (hv : (Mn : ℚ) * (2 : ℚ) ^ Sn = R) :
    ∃ M S, F64.div (.finite sn Mn Sn) (F64.ofInt 3600000000000) = .finite sn M S ∧
      (M : ℚ) * (2 : ℚ) ^ S ≤ 1 := by
  rw [ofInt_hour_const]
  obtain ⟨hdiv, hratio⟩ := div_finite sn false Mn 7372800000000000 Sn (-11) (by norm_num)
  simp only [Bool.xor_false] at hdiv
  have hC : ((7372800000000000 : Nat) : ℚ) * (2 : ℚ) ^ (-11 : Int) = 3600000000000 := by
    norm_num
  rw [hv, hC] at hratio
  rw [hdiv]
  by_cases hMn : Mn = 0
  · subst hMn
    refine ⟨0, 0, ?_, by simp⟩
    simp [roundRat]
  · have hR0 : R ≠ 0 := by
      intro h0
      subst h0
      have hp : (2 : ℚ) ^ Sn ≠ 0 := by positivity
      have hv0 : (Mn : ℚ) * (2 : ℚ) ^ Sn = 0 := by rw [hv]; simp
      rcases mul_eq_zero.mp hv0 with h | h
      · exact hMn (by exact_mod_cast h)
      · exact hp h
    have hx1 : (2 : ℚ) ^ (-1022 : Int) ≤ (R : ℚ) / 3600000000000 := by
      have h1 : (1 : ℚ) / 3600000000000 ≤ (R : ℚ) / 3600000000000 := by
        apply div_le_div_of_nonneg_right _ (by norm_num)
        exact_mod_cast Nat.pos_of_ne_zero hR0
      have h2 : (2 : ℚ) ^ (-42 : Int) ≤ (1 : ℚ) / 3600000000000 := by norm_num
      exact le_trans (zpow_mono_two (by norm_num)) (le_trans h2 h1)
    have hlt1 : (R : ℚ) / 3600000000000 < 1 := by
      rw [div_lt_one (by norm_num)]
      exact_mod_cast hR
    have hx2 : (R : ℚ) / 3600000000000 < (2 : ℚ) ^ (1023 : Int) := by
      have h2 : (1 : ℚ) ≤ (2 : ℚ) ^ (1023 : Int) := by
        have := zpow_mono_two (show (0 : Int) ≤ 1023 by norm_num)
        simpa using this
      exact lt_of_lt_of_le hlt1 h2
    obtain ⟨fl, M, a, b, c, e⟩ := roundRat_spec sn (Mn * 2 ^ (Sn - -11).toNat)
      (7372800000000000 * 2 ^ (-11 - Sn).toNat)
      (Nat.mul_pos (Nat.pos_of_ne_zero hMn) (by positivity))
      (Nat.mul_pos (by norm_num) (by positivity))
      (by rw [hratio]; exact hx1) (by rw [hratio]; exact hx2)
    rw [hratio] at a b c
    refine ⟨M, fl - 52, e, ?_⟩
    have hfl : fl < 0 := exp_lt_of_bounds _ fl 0 a (by rw [zpow_zero]; exact hlt1)
    have h3 : (2 : ℚ) ^ (fl + 1) ≤ (2 : ℚ) ^ (0 : Int) := zpow_mono_two (by omega)
    rw [zpow_zero] at h3
    exact le_trans (nearest_bounds _ fl M a b c).2 h3

/-- The value of Duration.Hours is a finite float64 for every Duration, and its sign bit
is clear for a Duration that is not negative. -/
theorem hours_finite (d : Int) (h1 : -9223372036854775808 ≤ d) (h2 : d ≤ 9223372036854775807) :
    ∃ c M S, Duration.Hours d = .finite c M S ∧ (0 ≤ d → c = false) := by
  unfold Duration.Hours Hour
  simp only
  have hH : (Int.tdiv d 3600000000000).natAbs ≤ 2562048 := by
    rw [Int.natAbs_tdiv]
    show d.natAbs / 3600000000000 ≤ 2562048
    omega
  have hR : (Int.tmod d 3600000000000).natAbs < 3600000000000 := by
    rcases le_total 0 d with hd | hd
    · obtain ⟨D, rfl⟩ := Int.eq_ofNat_of_zero_le hd
      rw [show (3600000000000 : Int) = ((3600000000000 : Nat) : Int) from rfl,
        ← Int.ofNat_tmod]
      simp only [Int.natAbs_ofNat]
      exact Nat.mod_lt _ (by norm_num)
    · obtain ⟨D, hD⟩ := Int.eq_ofNat_of_zero_le (neg_nonneg.mpr hd)
      have : d = -(D : Int) := by omega
      subst this
      rw [show (3600000000000 : Int) = ((3600000000000 : Nat) : Int) from rfl, tmod_neg_nat]
      simp only [Int.natAbs_neg, Int.natAbs_ofNat]
      exact Nat.mod_lt _ (by norm_num)
  obtain ⟨Mh, Sh, hMh, hvh⟩ := ofInt_finite (Int.tdiv d 3600000000000)
    (lt_of_le_of_lt hH (by norm_num))
  obtain ⟨Mn, Sn, hMn, hvn⟩ := ofInt_finite (Int.tmod d 3600000000000)
    (lt_trans hR (by norm_num))
  obtain ⟨MF, SF, hF, hF1⟩ := frac_finite _ Mn Sn _ hR hvn
  rw [hMh, hMn, hF]
  obtain ⟨c, M, S, hadd, hsign⟩ := add_finite_any (decide (Int.tdiv d 3600000000000 < 0))
    (decide (Int.tmod d 3600000000000 < 0)) Mh MF Sh SF (by
      rw [hvh]
      have hHq : (((Int.tdiv d 3600000000000).natAbs : Nat) : ℚ) ≤ 2562048 := by
        exact_mod_cast hH
      have h22 := zpow_mono_two (show (22 : Int) ≤ 1023 by norm_num)
      have h22v : (2 : ℚ) ^ (22 : Int) = 4194304 := by norm_num
      rw [h22v] at h22
      exact lt_of_lt_of_le (by linarith only [hHq, hF1]) h22)
  refine ⟨c, M, S, hadd, ?_⟩
  intro hd
  apply hsign
  · have : 0 ≤ Int.tdiv d 3600000000000 := Int.tdiv_nonneg hd (by norm_num)
    simp
    omega
  · have : 0 ≤ Int.tmod d 3600000000000 := Int.tmod_nonneg _ hd
    simp
    omega

/-! ## Reading back the text of a cost -/

theorem digitChar_facts : ∀ k, k < 10 →
    isDigit (Char.ofNat (48 + k)) = true ∧ (Char.ofNat (48 + k)).toNat - 48 = k ∧
    (Char.ofNat (48 + k) = '0' ↔ k = 0) := by
  decide

theorem digitChar_isDigit (n : Nat) : isDigit (digitChar n) = true :=
  (digitChar_facts (n % 10) (Nat.mod_lt n (by norm_num))).1

theorem digitChar_toNat (n : Nat) : (digitChar n).toNat - 48 = n % 10 :=
  (digitChar_facts (n % 10) (Nat.mod_lt n (by norm_num))).2.1

theorem isDigit_ne (c : Char) (h : isDigit c = true) :
    c ≠ '_' ∧ c ≠ '.' ∧ c ≠ '-' ∧ c ≠ '+' ∧ lower c ≠ 120 ∧ lower c ≠ 101 ∧
    (c = '0' → c.toNat - 48 = 0) := by
  refine ⟨?_, ?_, ?_, ?_, ?_, ?_, ?_⟩
  · rintro rfl; revert h; decide
  · rintro rfl; revert h; decide
  · rintro rfl; revert h; decide
  · rintro rfl; revert h; decide
  · intro hl
    unfold isDigit at h
    simp only [decide_eq_true_eq] at h
    have h1 : (48 : Nat) ≤ c.toNat := h.1
    have h2 : c.toNat ≤ 57 := h.2
    unfold lower at hl
    have : c.toNat ||| 32 < 64 := Nat.or_lt_two_pow (n := 6) (by omega) (by norm_num)
    omega
  · intro hl
    unfold isDigit at h
    simp only [decide_eq_true_eq] at h
    have h1 : (48 : Nat) ≤ c.toNat := h.1
    have h2 : c.toNat ≤ 57 := h.2
    unfold lower at hl
    have : c.toNat ||| 32 < 64 := Nat.or_lt_two_pow (n := 6) (by omega) (by norm_num)
    omega
  · rintro rfl; rfl

theorem scanDigits_digit (c : Char) (cs : List Char) (st : ScanState) (h : isDigit c = true)
    (hinv : 0 ≤ st.nd ∧ (st.nd = 0 → st.mantissa = 0)) :
    ∃ st2, scanDigits false (c :: cs) st = scanDigits false cs st2 ∧
      st2.mantissa = st.mantissa * 10 + (c.toNat - 48) ∧
      st2.dp - st2.nd = st.dp - st.nd - 1 ∧ st2.sawdot = st.sawdot ∧
      st2.underscores = st.underscores ∧ st2.sawdigits = true ∧
      (0 ≤ st2.nd ∧ (st2.nd = 0 → st2.mantissa = 0)) := by
  obtain ⟨n1, n2, _, _, _, _, n7⟩ := isDigit_ne c h
  by_cases hz : c = '0' ∧ st.nd = 0
  · refine ⟨{ st with sawdigits := true, dp := st.dp - 1 }, ?_, ?_, ?_, rfl, rfl, rfl, ?_⟩
    · rw [scanDigits, if_neg n1, if_neg n2, if_pos h, if_pos hz]
    · simp only [hinv.2 hz.2, n7 hz.1]
    · simp only
      omega
    · exact hinv
  · refine ⟨⟨st.mantissa * 10 + (c.toNat - 48), st.nd + 1, st.dp, st.sawdot, true,
      st.underscores⟩, ?_, rfl, ?_, rfl, rfl, rfl, ?_⟩
    · rw [scanDigits, if_neg n1, if_neg n2, if_pos h, if_neg hz]
      rfl
    · simp only
      omega
    · simp only
      constructor
      · omega
      · intro h0
        omega

theorem scanDigits_digits (ds rest : List Char) (st : ScanState) (hds : AllDigits ds)
    (hinv : 0 ≤ st.nd ∧ (st.nd = 0 → st.mantissa = 0)) :
    ∃ st2, scanDigits false (ds ++ rest) st = scanDigits false rest st2 ∧
      st2.mantissa = digitsValue st.mantissa ds ∧
      st2.dp - st2.nd = st.dp - st.nd - ds.length ∧ st2.sawdot = st.sawdot ∧
      st2.underscores = st.underscores ∧
      (st.sawdigits = true ∨ ds ≠ [] → st2.sawdigits = true) ∧
      (0 ≤ st2.nd ∧ (st2.nd = 0 → st2.mantissa = 0)) := by
  induction ds generalizing st with
  | nil =>
    refine ⟨st, rfl, rfl, by simp, rfl, rfl, ?_, hinv⟩
    rintro (h | h)
    · exact h
    · exact absurd rfl h
  | cons c cs ih =>
    obtain ⟨st1, e1, m1, d1, s1, u1, g1, i1⟩ :=
      scanDigits_digit c (cs ++ rest) st (hds c (List.mem_cons_self _ _)) hinv
    obtain ⟨st2, e2, m2, d2, s2, u2, g2, i2⟩ :=
      ih st1 (fun x hx => hds x (List.mem_cons_of_mem _ hx)) i1
    refine ⟨st2, ?_, ?_, ?_, ?_, ?_, fun _ => g2 (Or.inl g1), i2⟩
    · rw [List.cons_append, e1, e2]
    · rw [m2, m1]
      rfl
    · rw [d2, d1, List.length_cons]
      push_cast
      ring
    · rw [s2, s1]
    · rw [u2, u1]

theorem natDigitsAux_spec (fuel n : Nat) (acc : List Char) (hf : n < fuel)
    (hacc : AllDigits acc) :
    AllDigits (natDigitsAux fuel n acc) ∧ natDigitsAux fuel n acc ≠ [] ∧
    digitsValue 0 (natDigitsAux fuel n acc) = digitsValue n acc := by
  induction fuel generalizing n acc with
  | zero => omega
  | succ fuel ih =>
    unfold natDigitsAux
    by_cases h10 : n < 10
    · rw [if_pos h10]
      refine ⟨?_, by simp, ?_⟩
      · intro c hc
        rcases List.mem_cons.mp hc with h | h
        · rw [h]; exact digitChar_isDigit n
        · exact hacc c h
      · unfold digitsValue
        rw [List.foldl_cons, digitChar_toNat, Nat.mod_eq_of_lt h10]
        simp
    · rw [if_neg h10]
      have hacc2 : AllDigits (digitChar n :: acc) := by
        intro c hc
        rcases List.mem_cons.mp hc with h | h
        · rw [h]; exact digitChar_isDigit n
        · exact hacc c h
      obtain ⟨a1, a2, a3⟩ := ih (n / 10) (digitChar n :: acc) (by omega) hacc2
      refine ⟨a1, a2, ?_⟩
      rw [a3]
      unfold digitsValue
      rw [List.foldl_cons, digitChar_toNat]
      congr 1
      omega

theorem natDigits_spec (n : Nat) :
    AllDigits (natDigits n) ∧ natDigits n ≠ [] ∧ digitsValue 0 (natDigits n) = n := by
  obtain ⟨a1, a2, a3⟩ := natDigitsAux_spec (n + 1) n [] (by omega) (by intro c hc; cases hc)
  exact ⟨a1, a2, by rw [natDigits, a3]; rfl⟩

theorem fracDigits6_spec (A r : Nat) (hr : r < 1000000) :
    AllDigits (fracDigits6 r) ∧ (fracDigits6 r).length = 6 ∧
    digitsValue A (fracDigits6 r) = A * 1000000 + r := by
  refine ⟨?_, rfl, ?_⟩
  · intro c hc
    simp only [fracDigits6, List.mem_cons, List.mem_singleton, List.not_mem_nil, or_false] at hc
    rcases hc with h | h | h | h | h | h <;> rw [h] <;> exact digitChar_isDigit _
  · simp only [digitsValue, fracDigits6, List.foldl_cons, List.foldl_nil, digitChar_toNat]
    omega

theorem hexMark_false (s : List Char) (h : ∀ c ∈ s, lower c ≠ 120) : hexMark s = false := by
  match s with
  | [] => rfl
  | [_] => rfl
  | [_, _] => rfl
  | a :: b :: c :: t =>
    have hb := h b (by simp)
    simp [hexMark, hb]

theorem lower_dot : lower '.' ≠ 120 := by decide

/-- ReadFloat reads the text of u millionths back as the significand u with the decimal
exponent -6. -/
theorem readFloat_microsText (u : Nat) :
    readFloat (microsText u).data =
      some ⟨false, u, if u ≠ 0 then -6 else 0, false, []⟩ := by
  obtain ⟨a1, a2, a3⟩ := natDigits_spec (u / 1000000)
  obtain ⟨f1, f2, f3⟩ := fracDigits6_spec (u / 1000000) (u % 1000000)
    (Nat.mod_lt u (by norm_num))
  have hu : u / 1000000 * 1000000 + u % 1000000 = u := by omega
  rw [hu] at f3
  obtain ⟨c0, tl, hcons⟩ := List.exists_cons_of_ne_nil a2
  have hc0 : isDigit c0 = true := a1 c0 (by rw [hcons]; exact List.mem_cons_self _ _)
  obtain ⟨_, _, nm, np, _, _, _⟩ := isDigit_ne c0 hc0
  have hall : ∀ c ∈ natDigits (u / 1000000) ++ [ '.'] ++ fracDigits6 (u % 1000000),
      lower c ≠ 120 := by
    intro c hc
    simp only [List.append_assoc, List.mem_append, List.mem_singleton] at hc
    rcases hc with h | h | h
    · exact (isDigit_ne c (a1 c h)).2.2.2.2.1
    · rw [h]; exact lower_dot
    · exact (isDigit_ne c (f1 c h)).2.2.2.2.1
  have hhex := hexMark_false _ hall
  obtain ⟨st1, e1, m1, d1, s1, u1, g1, i1⟩ := scanDigits_digits (natDigits (u / 1000000))
    ([ '.'] ++ fracDigits6 (u % 1000000)) ⟨0, 0, 0, false, false, false⟩ a1
    ⟨le_refl _, fun _ => rfl⟩
  obtain ⟨st3, e3, m3, d3, s3, u3, g3, i3⟩ := scanDigits_digits (fracDigits6 (u % 1000000)) []
    ⟨st1.mantissa, st1.nd, st1.nd, true, st1.sawdigits, st1.underscores⟩ f1 i1
  have hdot : scanDigits false ([ '.'] ++ fracDigits6 (u % 1000000)) st1 =
      scanDigits false (fracDigits6 (u % 1000000))
        ⟨st1.mantissa, st1.nd, st1.nd, true, st1.sawdigits, st1.underscores⟩ := by
    rw [List.singleton_append, scanDigits, if_neg (by decide), if_pos rfl,
      if_neg (by rw [s1]; simp)]
  have hscan : scanDigits false
      (natDigits (u / 1000000) ++ [ '.'] ++ fracDigits6 (u % 1000000))
      ⟨0, 0, 0, false, false, false⟩ = (st3, []) := by
    rw [List.append_assoc, e1, hdot]
    have := e3
    rw [List.append_nil] at this
    rw [this]
    rfl
  have hm : st3.mantissa = u := by
    rw [m3]
    simp only
    rw [m1, a3, f3]
  have hd : st3.dp - st3.nd = -6 := by
    rw [d3, f2]
    simp
  have hsd : st3.sawdigits = true := g3 (Or.inr (by
    intro h
    rw [h] at f2
    cases f2))
  have hdata : (microsText u).data =
      natDigits (u / 1000000) ++ [ '.'] ++ fracDigits6 (u % 1000000) := rfl
  rw [hdata]
  rw [hcons] at hhex hscan ⊢
  simp only [List.cons_append] at hhex hscan ⊢
  unfold readFloat
  simp only [nm, np, or_self, if_false, hhex, hscan, hsd, s3, u3, u1, hm, Bool.false_eq_true,
    not_true_eq_false, not_false_eq_true, false_and, if_true, decide_False]
  rw [hd]

theorem decimalValue_microsText (u : Nat) :
    decimalValue (microsText u) = some ((u : ℚ) / 1000000) := by
  unfold decimalValue
  rw [readFloat_microsText]
  simp only [and_self, if_true, Bool.false_eq_true, if_false, one_mul]
  by_cases hu : u = 0
  · subst hu
    simp
  · rw [if_pos hu]
    congr 1
    rw [zpow_neg, show ((6 : Int)) = ((6 : Nat) : Int) from rfl, zpow_natCast]
    norm_num
    ring

theorem sprintfF_finite (M : Nat) (S : Int) :
    sprintfF (.finite false M S) =
      microsText (divRoundHalfEven (M * 2 ^ S.toNat * 1000000) (2 ^ (-S).toNat)) ∧
    NearestInt ((M : ℚ) * (2 : ℚ) ^ S * 1000000)
      (divRoundHalfEven (M * 2 ^ S.toNat * 1000000) (2 ^ (-S).toNat)) := by
  constructor
  · simp [sprintfF, microsText]
  · have h := nearestInt_of_divRoundHalfEven (M * 2 ^ S.toNat * 1000000) (2 ^ (-S).toNat)
      (by positivity)
    have hs := scaled_ratio M 1 (-S)
    simp only [neg_neg, one_mul, Nat.cast_one, div_one, zpow_neg, div_inv_eq_mul] at hs
    have : ((M * 2 ^ S.toNat * 1000000 : Nat) : ℚ) / ((2 ^ (-S).toNat : Nat) : ℚ) =
        (M : ℚ) * (2 : ℚ) ^ S * 1000000 := by
      rw [← hs]
      push_cast
      ring
    rw [this] at h
    exact h

theorem scanDigits_stop (x : Char) (t : List Char) (st : ScanState) (h1 : x ≠ '_')
    (h2 : x ≠ '.') (h3 : isDigit x = false) :
    scanDigits false (x :: t) st = (st, x :: t) := by
  rw [scanDigits, if_neg h1, if_neg h2, if_neg (by simp [h3]), if_neg (by simp)]

theorem hexMark_first (x : Char) (t : List Char) (h : x ≠ '0') : hexMark (x :: t) = false := by
  match t with
  | [] => rfl
  | [_] => rfl
  | b :: c :: t => simp [hexMark, h]

/-- ReadFloat rejects an input whose first character after an optional sign cannot start a
number. -/
theorem readFloat_none_of_stop (s : List Char) (x : Char) (t : List Char)
    (hs : s = x :: t ∨ ∃ c, (c = '+' ∨ c = '-') ∧ s = c :: x :: t)
    (h1 : x ≠ '_') (h2 : x ≠ '.') (h3 : isDigit x = false) (h4 : x ≠ '0') (h5 : x ≠ '+')
    (h6 : x ≠ '-') : readFloat s = none := by
  rcases hs with rfl | ⟨c, hc, rfl⟩
  · unfold readFloat
    simp only [h5, h6, or_self, if_false, hexMark_first x t h4, Bool.false_eq_true,
      scanDigits_stop x t _ h1 h2 h3, not_false_eq_true, if_true]
  · unfold readFloat
    simp only [hc, if_true, List.drop_succ_cons, List.drop_zero, hexMark_first x t h4,
      Bool.false_eq_true, if_false, scanDigits_stop x t _ h1 h2 h3, not_false_eq_true]

theorem fold_letter (c p : Char)
    (h : (if 'A' ≤ c ∧ c ≤ 'Z' then Char.ofNat (c.toNat + 32) else c) = p)
    (hp : p = 'i' ∨ p = 'n') :
    c ≠ '_' ∧ c ≠ '.' ∧ isDigit c = false ∧ c ≠ '0' ∧ c ≠ '+' ∧ c ≠ '-' := by
  by_cases hu : 'A' ≤ c ∧ c ≤ 'Z'
  · have h65 : (65 : Nat) ≤ c.toNat := hu.1
    have h90 : c.toNat ≤ 90 := hu.2
    refine ⟨?_, ?_, ?_, ?_, ?_, ?_⟩
    · rintro rfl; revert h90; decide
    · rintro rfl; revert h65; decide
    · unfold isDigit
      simp only [decide_eq_false_iff_not, not_and]
      intro _ h9
      have : c.toNat ≤ 57 := h9
      omega
    · rintro rfl; revert h65; decide
    · rintro rfl; revert h65; decide
    · rintro rfl; revert h65; decide
  · rw [if_neg hu] at h
    subst h
    rcases hp with rfl | rfl <;> decide

theorem commonPrefix_pos (s p : List Char) (h : 0 < commonPrefixLenIgnoreCase s p) :
    ∃ c t q r, s = c :: t ∧ p = q :: r ∧
      (if 'A' ≤ c ∧ c ≤ 'Z' then Char.ofNat (c.toNat + 32) else c) = q := by
  match s, p with
  | [], _ => simp [commonPrefixLenIgnoreCase] at h
  | _ :: _, [] => simp [commonPrefixLenIgnoreCase] at h
  | c :: t, q :: r =>
    refine ⟨c, t, q, r, rfl, rfl, ?_⟩
    by_contra hne
    simp [commonPrefixLenIgnoreCase, hne] at h

theorem specialInf_some (neg : Bool) (s : List Char) (r : F64 × List Char)
    (h : specialInf neg s = some r) :
    ∃ c t, s = c :: t ∧ c ≠ '_' ∧ c ≠ '.' ∧ isDigit c = false ∧ c ≠ '0' ∧ c ≠ '+' ∧ c ≠ '-' := by
  unfold specialInf at h
  simp only at h
  have hpos : 0 < commonPrefixLenIgnoreCase s "infinity".data := by
    by_contra h0
    have h00 : commonPrefixLenIgnoreCase s "infinity".data = 0 := by omega
    rw [h00] at h
    simp at h
  obtain ⟨c, t, q, r2, hs, hp, hf⟩ := commonPrefix_pos _ _ hpos
  have hq : q = 'i' := by
    have : "infinity".data = 'i' :: "nfinity".data := rfl
    rw [this] at hp
    cases hp
    rfl
  exact ⟨c, t, hs, fold_letter c q hf (Or.inl hq)⟩

/-- An input that readFloat accepts is none of the special values. -/
theorem special_none_of_readFloat (s : List Char) (l : FloatLit) (h : readFloat s = some l) :
    special s = none := by
  by_contra hsp
  obtain ⟨r, hr⟩ := Option.ne_none_iff_exists'.mp hsp
  have hnone : readFloat s = none := by
    match s with
    | [] => simp [special] at hr
    | c :: cs =>
      simp only [special] at hr
      by_cases hsign : c = '+' ∨ c = '-'
      · rw [if_pos hsign] at hr
        obtain ⟨x, t, hcs, g1, g2, g3, g4, g5, g6⟩ := specialInf_some _ _ _ hr
        exact readFloat_none_of_stop _ x t (Or.inr ⟨c, hsign, by rw [hcs]⟩) g1 g2 g3 g4 g5 g6
      · rw [if_neg hsign] at hr
        by_cases hi : c = 'i' ∨ c = 'I'
        · rw [if_pos hi] at hr
          obtain ⟨x, t, hcs, g1, g2, g3, g4, g5, g6⟩ := specialInf_some _ _ _ hr
          cases hcs
          exact readFloat_none_of_stop _ c cs (Or.inl rfl) g1 g2 g3 g4 g5 g6
        · rw [if_neg hi] at hr
          by_cases hn : c = 'n' ∨ c = 'N'
          · have g : c ≠ '_' ∧ c ≠ '.' ∧ isDigit c = false ∧ c ≠ '0' ∧ c ≠ '+' ∧ c ≠ '-' := by
              rcases hn with rfl | rfl <;> decide
            exact readFloat_none_of_stop _ c cs (Or.inl rfl) g.1 g.2.1 g.2.2.1 g.2.2.2.1
              g.2.2.2.2.1 g.2.2.2.2.2
          · rw [if_neg hn] at hr
            cases hr
  rw [hnone] at h
  cases h

/-! ## Decimal numbers are accepted by ParseFloat -/

theorem skipDigits_split (l : List Char) :
    ∃ ds, AllDigits ds ∧ l = ds ++ skipDigits l ∧
      ds.length = l.length - (skipDigits l).length ∧
      (∀ c t, skipDigits l = c :: t → isDigit c = false) := by
  induction l with
  | nil => exact ⟨[], (by intro c hc; cases hc), rfl, rfl, (by intro c t h; cases h)⟩
  | cons a l ih =>
    by_cases ha : isDigit a = true
    · obtain ⟨ds, h1, h2, h3, h4⟩ := ih
      have hsk : skipDigits (a :: l) = skipDigits l := by rw [skipDigits, if_pos ha]
      refine ⟨a :: ds, ?_, ?_, ?_, ?_⟩
      · intro c hc
        rcases List.mem_cons.mp hc with h | h
        · rw [h]; exact ha
        · exact h1 c h
      · rw [hsk, List.cons_append, ← h2]
      · rw [hsk, List.length_cons, List.length_cons, h3]
        have hlen : (skipDigits l).length ≤ l.length := by
          have := congrArg List.length h2
          rw [List.length_append] at this
          omega
        omega
      · rw [hsk]; exact h4
    · have hsk : skipDigits (a :: l) = a :: l := by rw [skipDigits, if_neg ha]
      refine ⟨[], (by intro c hc; cases hc), (by rw [hsk]; rfl), (by rw [hsk]; simp), ?_⟩
      intro c t h
      rw [hsk] at h
      cases h
      simpa using ha

theorem scanExponent_digits (ds : List Char) (e : Nat) (us : Bool) (h : AllDigits ds) :
    ∃ e2, scanExponent ds e us = (e2, us, []) := by
  induction ds generalizing e with
  | nil => exact ⟨e, rfl⟩
  | cons a ds ih =>
    have ha : isDigit a = true := h a (List.mem_cons_self _ _)
    obtain ⟨e2, he2⟩ := ih (if e < 10000 then e * 10 + (a.toNat - 48) else e)
      (fun c hc => h c (List.mem_cons_of_mem _ hc))
    exact ⟨e2, by rw [scanExponent, if_pos ha, he2]⟩

theorem skipPoint_cases (l : List Char) :
    (skipPoint l = l ∧ ∀ c t, l = c :: t → c ≠ '.') ∨ l = '.' :: skipPoint l := by
  match l with
  | [] => exact Or.inl ⟨rfl, by intro c t h; cases h⟩
  | a :: t =>
    by_cases ha : a = '.'
    · right
      rw [skipPoint, if_pos ha, ha]
    · left
      refine ⟨by rw [skipPoint, if_neg ha], ?_⟩
      intro c t2 h
      cases h
      exact ha

theorem expMark_facts (c : Char) (h : c = 'e' ∨ c = 'E') :
    c ≠ '_' ∧ c ≠ '.' ∧ lower c = 101 ∧ lower c ≠ 120 ∧ c ≠ '+' ∧ c ≠ '-' := by
  rcases h with rfl | rfl <;> decide

/-- The digit loop of readFloat on the digits and the point of a decimal number: it stops
at the end or at the exponent mark, has seen a digit and no underscore. -/
theorem scanDigits_decimal (s1 : List Char)
    (hcount : (s1.length - (skipDigits s1).length) +
      ((skipPoint (skipDigits s1)).length -
        (skipDigits (skipPoint (skipDigits s1))).length) ≠ 0)
    (htail : ∀ c t, skipDigits (skipPoint (skipDigits s1)) = c :: t → c = 'e' ∨ c = 'E') :
    ∃ st, scanDigits false s1 ⟨0, 0, 0, false, false, false⟩ =
        (st, skipDigits (skipPoint (skipDigits s1))) ∧
      st.sawdigits = true ∧ st.underscores = false := by
  obtain ⟨ds1, a1, a2, a3, a4⟩ := skipDigits_split s1
  obtain ⟨ds2, b1, b2, b3, b4⟩ := skipDigits_split (skipPoint (skipDigits s1))
  rw [← a3, ← b3] at hcount
  generalize skipDigits s1 = s2 at a2 a4 b2 b4 htail ⊢
  generalize hs3 : skipPoint s2 = s3 at b2 b4 htail ⊢
  generalize skipDigits s3 = s4 at b2 b4 htail ⊢
  obtain ⟨st1, e1, _, _, sd1, u1, g1, i1⟩ := scanDigits_digits ds1 s2
    ⟨0, 0, 0, false, false, false⟩ a1 ⟨le_refl _, fun _ => rfl⟩
  rw [← a2] at e1
  have hend : ∀ st : ScanState, scanDigits false s4 st = (st, s4) := by
    intro st
    match s4, b4, htail with
    | [], _, _ => rfl
    | c :: t, b4, htail =>
      obtain ⟨n1, n2, _⟩ := expMark_facts c (htail c t rfl)
      exact scanDigits_stop c t st n1 n2 (b4 c t rfl)
  rcases skipPoint_cases s2 with ⟨hsame, hnodot⟩ | hdot
  · rw [hs3] at hsame
    subst hsame
    have hds2 : ds2 = [] := by
      match ds2, b1, b2 with
      | [], _, _ => rfl
      | d :: ds, b1, b2 =>
        have hd : isDigit d = true := b1 d (List.mem_cons_self _ _)
        rw [List.cons_append] at b2
        have := a4 d _ b2
        rw [hd] at this
        cases this
    subst hds2
    rw [List.nil_append] at b2
    subst b2
    refine ⟨st1, by rw [e1, hend], g1 (Or.inr ?_), by rw [u1]⟩
    intro h
    rw [h] at hcount
    simp at hcount
  · rw [hs3] at hdot
    obtain ⟨st3, e3, _, _, sd3, u3, g3, i3⟩ := scanDigits_digits ds2 s4
      ⟨st1.mantissa, st1.nd, st1.nd, true, st1.sawdigits, st1.underscores⟩ b1 i1
    rw [← b2] at e3
    have hstep : scanDigits false s2 st1 = scanDigits false s3
        ⟨st1.mantissa, st1.nd, st1.nd, true, st1.sawdigits, st1.underscores⟩ := by
      rw [hdot, scanDigits, if_neg (by decide), if_pos rfl, if_neg (by rw [sd1]; simp)]
    refine ⟨st3, by rw [e1, hstep, e3, hend], ?_, by rw [u3]; exact u1⟩
    by_cases hd1 : ds1 = []
    · apply g3
      right
      intro h
      rw [hd1, h] at hcount
      simp at hcount
    · exact g3 (Or.inl (g1 (Or.inr hd1)))

theorem hexMark_decimal (s1 : List Char)
    (htail : ∀ c t, skipDigits (skipPoint (skipDigits s1)) = c :: t → c = 'e' ∨ c = 'E') :
    hexMark s1 = false := by
  match s1 with
  | [] => rfl
  | [_] => rfl
  | [_, _] => rfl
  | a :: b :: c :: t =>
    by_contra hne
    have hm : a = '0' ∧ lower b = 120 := by
      simpa [hexMark] using hne
    obtain ⟨ha, hb⟩ := hm
    subst ha
    have hbd : isDigit b = false := by
      by_contra hd
      have hd2 : isDigit b = true := by simpa using hd
      exact (isDigit_ne b hd2).2.2.2.2.1 hb
    have hbdot : b ≠ '.' := by
      rintro rfl
      revert hb
      decide
    have h1 : skipDigits ('0' :: b :: c :: t) = b :: c :: t := by
      rw [skipDigits, if_pos (by decide), skipDigits, if_neg (by simp [hbd])]
    have h2 : skipPoint (b :: c :: t) = b :: c :: t := by rw [skipPoint, if_neg hbdot]
    have h3 : skipDigits (b :: c :: t) = b :: c :: t := by
      rw [skipDigits, if_neg (by simp [hbd])]
    have := htail b (c :: t) (by rw [h1, h2, h3])
    have hx := (expMark_facts b this).2.2.2.1
    exact hx hb

/-- ReadFloat accepts every syntactically valid decimal number and reads it to its end. -/
theorem readFloat_decimal (s : String) (h : isDecimalNumber s = true) :
    ∃ l, readFloat s.data = some l ∧ l.rest = [] := by
  unfold isDecimalNumber at h
  simp only at h
  generalize s.data = cs at h ⊢
  by_cases hcount : (skipSign cs).length - (skipDigits (skipSign cs)).length +
      ((skipPoint (skipDigits (skipSign cs))).length -
        (skipDigits (skipPoint (skipDigits (skipSign cs)))).length) = 0
  · rw [if_pos hcount] at h
    cases h
  rw [if_neg hcount] at h
  have htail : ∀ c t, skipDigits (skipPoint (skipDigits (skipSign cs))) = c :: t →
      c = 'e' ∨ c = 'E' := by
    intro c t hct
    rw [hct] at h
    simp only at h
    by_contra hne
    rw [if_neg hne] at h
    cases h
  obtain ⟨st, hscan, hsd, hus⟩ := scanDigits_decimal (skipSign cs) hcount htail
  have hhex := hexMark_decimal (skipSign cs) htail
  match cs, h, hcount, htail, hscan, hhex with
  | [], _, hcount, _, _, _ => simp [skipSign, skipDigits, skipPoint] at hcount
  | c0 :: t, h, hcount, htail, hscan, hhex =>
    have hsign : (if c0 = '+' ∨ c0 = '-' then (c0 :: t).drop 1 else c0 :: t) =
        skipSign (c0 :: t) := by
      rw [skipSign]
      rfl
    unfold readFloat
    simp only [hsign, hhex, Bool.false_eq_true, if_false, hscan, hsd, not_true_eq_false, hus,
      false_and]
    cases hs4 : skipDigits (skipPoint (skipDigits (skipSign (c0 :: t)))) with
    | nil => exact ⟨_, rfl, rfl⟩
    | cons c s4 =>
      rw [hs4] at h
      simp only at h
      have hc := htail c s4 hs4
      rw [if_pos hc] at h
      simp only [decide_eq_true_eq] at h
      obtain ⟨hne, hall⟩ := h
      obtain ⟨_, _, hl, _, _, _⟩ := expMark_facts c hc
      simp only [hl, if_true]
      match s4, hne, hall with
      | [], hne, _ => exact absurd rfl hne
      | d :: s5, hne, hall =>
        have hs6 : (if d = '+' ∨ d = '-' then s5 else d :: s5) = skipSign (d :: s5) := by
          rw [skipSign]
        simp only [hs6]
        obtain ⟨ds, q1, q2, q3, q4⟩ := skipDigits_split (skipSign (d :: s5))
        rw [hall, List.append_nil] at q2
        rw [← q2] at q1
        match hs6b : skipSign (d :: s5), hne, q1 with
        | [], hne, _ => exact absurd rfl hne
        | f :: r, _, q1 =>
          have hf : isDigit f = true := q1 f (List.mem_cons_self _ _)
          obtain ⟨e2, he2⟩ := scanExponent_digits (f :: r) 0 false q1
          simp only [hf, not_true_eq_false, if_false, he2, Bool.false_eq_true, false_and]
          exact ⟨_, rfl, rfl⟩

/-- A text that ParseFloat rejects with a syntax error is not a syntactically valid decimal
number. -/
theorem invalid_not_decimal (s : String) (h : (ParseFloat32 s).2 = some .invalid) :
    isDecimalNumber s = false := by
  by_contra hd
  have hd2 : isDecimalNumber s = true := by simpa using hd
  obtain ⟨l, hl, hrest⟩ := readFloat_decimal s hd2
  unfold ParseFloat32 at h
  rw [special_none_of_readFloat _ l hl, hl] at h
  simp only [hrest, if_true] at h
  unfold FloatLit.toFloat32 at h
  simp only at h
  split at h <;> simp at h

/-! ## The value of the returned text -/

theorem ten_ratio (m : Nat) (e : Int) :
    ((m * 10 ^ e.toNat : Nat) : ℚ) / ((10 ^ (-e).toNat : Nat) : ℚ) = (m : ℚ) * (10 : ℚ) ^ e := by
  rcases le_total 0 e with h | h
  · obtain ⟨j, rfl⟩ := Int.eq_ofNat_of_zero_le h
    have : (-(j : Int)).toNat = 0 := by omega
    simp [this]
  · obtain ⟨j, hj⟩ := Int.eq_ofNat_of_zero_le (neg_nonneg.mpr h)
    have hk : e = -(j : Int) := by omega
    subst hk
    have : (-(j : Int)).toNat = 0 := by omega
    simp [this, zpow_neg, div_eq_mul_inv]

theorem toFloat32_fst (l : FloatLit) (h : l.hex = false) :
    l.toFloat32.1 =
      roundRat float32info l.neg (l.mantissa * 10 ^ l.exp.toNat) (10 ^ (-l.exp).toNat) := by
  unfold FloatLit.toFloat32
  simp only [h, Bool.false_eq_true, if_false]
  split <;> rfl

/-- What ParseFloat returns for a text that denotes a decimal number. -/
theorem parseFloat32_decimal (p : String) (q : ℚ) (h : decimalValue p = some q) :
    ∃ l, readFloat p.data = some l ∧ l.hex = false ∧
      q = (if l.neg then -1 else 1) * (l.mantissa : ℚ) * (10 : ℚ) ^ l.exp ∧
      (ParseFloat32 p).1 =
        roundRat float32info l.neg (l.mantissa * 10 ^ l.exp.toNat) (10 ^ (-l.exp).toNat) := by
  unfold decimalValue at h
  cases hr : readFloat p.data with
  | none => rw [hr] at h; cases h
  | some l =>
    rw [hr] at h
    simp only at h
    by_cases hc : l.rest = [] ∧ l.hex = false
    · rw [if_pos hc] at h
      cases h
      refine ⟨l, rfl, hc.2, rfl, ?_⟩
      unfold ParseFloat32
      rw [special_none_of_readFloat _ l hr, hr]
      simp only [hc.1, if_true]
      exact toFloat32_fst l hc.2
    · rw [if_neg hc] at h
      cases h

/-- A nearest integer is within one half. -/
theorem nearest_err (y : ℚ) (M : Nat) (hy : 0 ≤ y) (h : NearestInt y M) :
    (M : ℚ) ≤ y + 1 / 2 ∧ y ≤ (M : ℚ) + 1 / 2 := by
  have hfl : ((⌊y⌋₊ : Nat) : ℚ) ≤ y := Nat.floor_le hy
  have hlt : y < ((⌊y⌋₊ : Nat) : ℚ) + 1 := Nat.lt_floor_add_one y
  have hge : ⌊y⌋₊ ≤ M := h.1 _ hfl
  have hle : M ≤ ⌊y⌋₊ + 1 := h.2.1 _ (by push_cast; linarith)
  have hgeq : ((⌊y⌋₊ : Nat) : ℚ) ≤ (M : ℚ) := by exact_mod_cast hge
  have hleq : (M : ℚ) ≤ ((⌊y⌋₊ : Nat) : ℚ) + 1 := by exact_mod_cast hle
  rcases lt_trichotomy y (((⌊y⌋₊ : Nat) : ℚ) + 1 / 2) with hc | hc | hc
  · have : M ≤ ⌊y⌋₊ := h.2.2.2 _ hc
    have hq : (M : ℚ) ≤ ((⌊y⌋₊ : Nat) : ℚ) := by exact_mod_cast this
    constructor <;> linarith
  · constructor <;> linarith
  · have : ⌊y⌋₊ + 1 ≤ M := h.2.2.1 _ hc
    have hq : ((⌊y⌋₊ : Nat) : ℚ) + 1 ≤ (M : ℚ) := by exact_mod_cast this
    constructor <;> linarith

/-- The float64 nearest to a dyadic number with a significand below 2^53 is the number. -/
theorem roundDyadic_exact (neg : Bool) (m : Nat) (e : Int) (hm0 : 0 < m) (hm : m < 2 ^ 53)
    (hlo : (2 : ℚ) ^ (-1022 : Int) ≤ (m : ℚ) * (2 : ℚ) ^ e)
    (hhi : (m : ℚ) * (2 : ℚ) ^ e < (2 : ℚ) ^ (1023 : Int)) :
    ∃ M S, roundDyadic neg m e = .finite neg M S ∧
      (M : ℚ) * (2 : ℚ) ^ S = (m : ℚ) * (2 : ℚ) ^ e := by
  have hs := scaled_ratio m 1 (-e)
  simp only [neg_neg, one_mul, Nat.cast_one, div_one, zpow_neg, div_inv_eq_mul] at hs
  obtain ⟨fl, M, a, b, c, r⟩ := roundRat_spec neg (m * 2 ^ e.toNat) (2 ^ (-e).toNat)
    (Nat.mul_pos hm0 (by positivity)) (by positivity) (by rw [hs]; exact hlo)
    (by rw [hs]; exact hhi)
  rw [hs] at a b c
  have hfl : fl < 53 + e := by
    have h1 : (m : ℚ) < (2 : ℚ) ^ (53 : Int) := by
      rw [show (53 : Int) = ((53 : Nat) : Int) from rfl, zpow_natCast]
      exact_mod_cast hm
    have h2 : (m : ℚ) * (2 : ℚ) ^ e < (2 : ℚ) ^ (53 + e) := by
      rw [zpow_add₀ (by norm_num : (2 : ℚ) ≠ 0)]
      exact mul_lt_mul_of_pos_right h1 (by positivity)
    exact zpow_lt_two (lt_of_le_of_lt a h2)
  have hnat : (m : ℚ) * (2 : ℚ) ^ e / (2 : ℚ) ^ (fl - 52) =
      ((m * 2 ^ (e - (fl - 52)).toNat : Nat) : ℚ) := by
    have e1 : ((e - (fl - 52)).toNat : Int) = e - (fl - 52) := Int.toNat_of_nonneg (by omega)
    have e2 : (2 : ℚ) ^ (e - (fl - 52)) = (2 : ℚ) ^ e / (2 : ℚ) ^ (fl - 52) :=
      zpow_sub₀ (by norm_num : (2 : ℚ) ≠ 0) _ _
    have e3 : ((2 ^ (e - (fl - 52)).toNat : Nat) : ℚ) = (2 : ℚ) ^ (e - (fl - 52)) := by
      push_cast
      rw [← zpow_natCast, e1]
    rw [Nat.cast_mul, e3, e2, mul_div_assoc]
  rw [hnat] at c
  have hM := nearestInt_exact _ _ c
  refine ⟨M, fl - 52, r, ?_⟩
  rw [hM, ← hnat]
  have : (2 : ℚ) ^ (fl - 52) ≠ 0 := by positivity
  field_simp

theorem mul_finite (a b : Bool) (m n : Nat) (e f : Int) :
    F64.mul (.finite a m e) (.finite b n f) = roundDyadic (xor a b) (m * n) (e + f) := rfl

theorem roundDyadic_zero (neg : Bool) (e : Int) : roundDyadic neg 0 e = .finite neg 0 0 := by
  simp [roundDyadic, roundRat]

theorem decimalValue_neg_zero : decimalValue "-0.000000" = some 0 := by
  have hr : readFloat "-0.000000".data = some ⟨true, 0, 0, false, []⟩ := by decide
  simp only [decimalValue, hr]
  norm_num

/-- The text of the product of the float32 nearest to a price and a number of hours
denotes the exact product, for a price of at most six decimals when the price and the
product are at most 8. -/
theorem product_text_value (p : String) (q : ℚ) (a H : Nat)
    (hq : decimalValue p = some q) (ha : q = (a : ℚ) / 1000000) (hq8 : q ≤ 8)
    (hH : (H : ℚ) * q ≤ 8) :
    decimalValue (sprintfF (F64.mul (ParseFloat32 p).1 (.finite false H 0))) =
      some ((H : ℚ) * q) := by
  obtain ⟨l, hr, hhex, hql, hpf⟩ := parseFloat32_decimal p q hq
  rw [hpf]
  have hq0 : 0 ≤ q := by rw [ha]; positivity
  by_cases hm : l.mantissa = 0
  · have hqz : q = 0 := by rw [hql, hm]; simp
    have hv : roundRat float32info l.neg (l.mantissa * 10 ^ l.exp.toNat)
        (10 ^ (-l.exp).toNat) = .finite l.neg 0 0 := by
      simp [roundRat, hm]
    rw [hv, mul_finite, Nat.zero_mul, roundDyadic_zero, hqz, mul_zero]
    cases l.neg
    · have : sprintfF (.finite (xor false false) 0 0) = microsText 0 := by decide
      rw [this, decimalValue_microsText]
      simp
    · have : sprintfF (.finite (xor true false) 0 0) = "-0.000000" := by decide
      rw [this, decimalValue_neg_zero]
  · have hmpos : 0 < l.mantissa := Nat.pos_of_ne_zero hm
    have hmq : (0 : ℚ) < (l.mantissa : ℚ) * (10 : ℚ) ^ l.exp := by positivity
    have hneg : l.neg = false := by
      cases hn : l.neg with
      | false => rfl
      | true =>
        rw [hn] at hql
        simp only [if_true] at hql
        have : q < 0 := by rw [hql]; linarith
        exact absurd hq0 (not_le.mpr this)
    rw [hneg] at hql ⊢
    simp only [Bool.false_eq_true, if_false, one_mul] at hql
    have hqpos : 0 < q := by rw [hql]; exact hmq
    have hapos : 0 < a := by
      rcases Nat.eq_zero_or_pos a with h0 | h0
      · rw [h0] at ha
        simp at ha
        exact absurd ha (ne_of_gt hqpos)
      · exact h0
    have hq6 : (1 : ℚ) / 1000000 ≤ q := by
      rw [ha]
      apply div_le_div_of_nonneg_right _ (by norm_num)
      exact_mod_cast hapos
    have hratio := ten_ratio l.mantissa l.exp
    rw [← hql] at hratio
    obtain ⟨fl, M32, b1, b2, c, e⟩ := roundRat_spec_fmt float32info false
      (l.mantissa * 10 ^ l.exp.toNat) (10 ^ (-l.exp).toNat)
      (Nat.mul_pos hmpos (by positivity)) (by positivity)
      (by
        rw [hratio]
        have : (2 : ℚ) ^ float32info.emin ≤ (1 : ℚ) / 1000000 := by
          simp only [float32info]
          norm_num
        exact le_trans this hq6)
      (by
        rw [hratio]
        have : (8 : ℚ) < (2 : ℚ) ^ float32info.emax := by
          simp only [float32info]
          norm_num
        exact lt_of_le_of_lt hq8 this)
    rw [hratio] at b1 b2 c
    have hprec : fl - ((float32info.prec : Int) - 1) = fl - 23 := by
      simp only [float32info]
      norm_num
    rw [hprec] at c e
    rw [e, mul_finite]
    simp only [Bool.xor_false, add_zero]
    -- the unit in the last place of the float32 price
    obtain ⟨P, hP⟩ : ∃ P : ℚ, P = (2 : ℚ) ^ (fl - 23) := ⟨_, rfl⟩
    have hPpos : 0 < P := by rw [hP]; positivity
    have hP23 : (2 : ℚ) ^ fl = 8388608 * P := by
      rw [hP, show (8388608 : ℚ) = (2 : ℚ) ^ (23 : Int) by norm_num,
        ← zpow_add₀ (by norm_num : (2 : ℚ) ≠ 0)]
      congr 1
      ring
    have hP24 : (2 : ℚ) ^ (fl + 1) = 16777216 * P := by
      rw [hP, show (16777216 : ℚ) = (2 : ℚ) ^ (24 : Int) by norm_num,
        ← zpow_add₀ (by norm_num : (2 : ℚ) ≠ 0)]
      congr 1
      ring
    rw [hP23] at b1
    rw [hP24] at b2
    rw [← hP] at c
    have hM1 : 8388608 ≤ M32 := by
      apply c.1
      rw [le_div_iff₀ hPpos]
      exact_mod_cast b1
    have hM2 : M32 ≤ 16777216 := by
      apply c.2.1
      rw [div_le_iff₀ hPpos]
      exact_mod_cast le_of_lt b2
    obtain ⟨n1, n2⟩ := nearest_err _ M32 (div_nonneg hq0 (le_of_lt hPpos)) c
    have hv1 : (M32 : ℚ) * P ≤ q + P / 2 := by
      have := mul_le_mul_of_nonneg_right n1 (le_of_lt hPpos)
      rw [add_mul, div_mul_cancel₀ _ (ne_of_gt hPpos)] at this
      linarith
    have hv2 : q ≤ (M32 : ℚ) * P + P / 2 := by
      have := mul_le_mul_of_nonneg_right n2 (le_of_lt hPpos)
      rw [add_mul, div_mul_cancel₀ _ (ne_of_gt hPpos)] at this
      linarith
    by_cases hH0 : H = 0
    · subst hH0
      rw [Nat.mul_zero, roundDyadic_zero]
      have : sprintfF (.finite false 0 0) = microsText 0 := by decide
      rw [this, decimalValue_microsText]
      simp
    · have hHpos : 0 < H := Nat.pos_of_ne_zero hH0
      have hH1 : (1 : ℚ) ≤ (H : ℚ) := by exact_mod_cast hHpos
      have hHle : H ≤ 8000000 := by
        have h1 : (H : ℚ) * (1 / 1000000) ≤ 8 :=
          le_trans (mul_le_mul_of_nonneg_left hq6 (by linarith only [hH1])) hH
        have h2 : (H : ℚ) ≤ 8000000 := by linarith only [h1]
        exact_mod_cast h2
      have hHq : (H : ℚ) ≤ 8000000 := by exact_mod_cast hHle
      have hM1q : (8388608 : ℚ) ≤ (M32 : ℚ) := by exact_mod_cast hM1
      have hM2q : (M32 : ℚ) ≤ 16777216 := by exact_mod_cast hM2
      have hfl1 : -126 ≤ fl := by
        have h1 : (2 : ℚ) ^ (-126 : Int) ≤ q := le_trans (by norm_num) hq6
        have h2 : q < (2 : ℚ) ^ (fl + 1) := by rw [hP24]; exact b2
        exact exp_ge_of_bounds q fl (-126) h1 h2
      have hfl2 : fl < 4 := by
        have h1 : (2 : ℚ) ^ fl ≤ q := by rw [hP23]; exact b1
        have h2 : q < (2 : ℚ) ^ (4 : Int) := lt_of_le_of_lt hq8 (by norm_num)
        exact exp_lt_of_bounds q fl 4 h1 h2
      have hPlo : (2 : ℚ) ^ (-149 : Int) ≤ P := by
        rw [hP]
        exact zpow_mono_two (by omega)
      have hPhi : P ≤ (2 : ℚ) ^ (-20 : Int) := by
        rw [hP]
        exact zpow_mono_two (by omega)
      have hprod : (M32 * H : Nat) < 2 ^ 53 := by
        have : M32 * H ≤ 16777216 * 8000000 := Nat.mul_le_mul hM2 hHle
        have h2 : (16777216 * 8000000 : Nat) < 2 ^ 53 := by norm_num
        omega
      have hMH1 : (1 : ℚ) ≤ (M32 : ℚ) * (H : ℚ) :=
        one_le_mul_of_one_le_of_one_le (le_trans (by norm_num) hM1q) hH1
      have hMH2 : (M32 : ℚ) * (H : ℚ) ≤ 16777216 * 8000000 :=
        mul_le_mul hM2q hHq (by linarith only [hH1]) (by norm_num)
      have hlo : (2 : ℚ) ^ (-1022 : Int) ≤ ((M32 * H : Nat) : ℚ) * (2 : ℚ) ^ (fl - 23) := by
        rw [← hP]
        push_cast
        have h1 : (2 : ℚ) ^ (-1022 : Int) ≤ (2 : ℚ) ^ (-149 : Int) :=
          zpow_mono_two (by norm_num)
        have h2 : P ≤ (M32 : ℚ) * (H : ℚ) * P := le_mul_of_one_le_left (le_of_lt hPpos) hMH1
        exact le_trans h1 (le_trans hPlo h2)
      have hhi : ((M32 * H : Nat) : ℚ) * (2 : ℚ) ^ (fl - 23) < (2 : ℚ) ^ (1023 : Int) := by
        rw [← hP]
        push_cast
        have h1 : (M32 : ℚ) * (H : ℚ) * P ≤ 16777216 * 8000000 * P :=
          mul_le_mul_of_nonneg_right hMH2 (le_of_lt hPpos)
        have h2 : (16777216 * 8000000 : ℚ) * P ≤
            16777216 * 8000000 * (2 : ℚ) ^ (-20 : Int) :=
          mul_le_mul_of_nonneg_left hPhi (by norm_num)
        have h3 : (16777216 * 8000000 : ℚ) * (2 : ℚ) ^ (-20 : Int) <
            (2 : ℚ) ^ (30 : Int) := by norm_num
        have h4 : (2 : ℚ) ^ (30 : Int) ≤ (2 : ℚ) ^ (1023 : Int) :=
          zpow_mono_two (by norm_num)
        exact lt_of_le_of_lt (le_trans h1 h2) (lt_of_lt_of_le h3 h4)
      obtain ⟨M, S, hmul, hval⟩ := roundDyadic_exact false (M32 * H) (fl - 23)
        (Nat.mul_pos (by omega) hHpos) hprod hlo hhi
      rw [hmul]
      obtain ⟨htxt, hnear⟩ := sprintfF_finite M S
      rw [htxt]
      rw [hval, ← hP] at hnear
      have hqa : q * 1000000 = (a : ℚ) := by rw [ha]; field_simp
      -- the rounding to six decimals lands on the exact product
      have hPq : P * 8388608 ≤ q := by linarith only [b1]
      have hH0q : (0 : ℚ) ≤ (H : ℚ) := by linarith only [hH1]
      have h3 : (H : ℚ) * (P * 8388608) ≤ 8 :=
        le_trans (mul_le_mul_of_nonneg_left hPq hH0q) hH
      have hx1 : ((M32 * H : Nat) : ℚ) * P * 1000000 < ((H * a : Nat) : ℚ) + 1 / 2 := by
        push_cast
        rw [← hqa]
        have h1 : (M32 : ℚ) * P - q ≤ P / 2 := by linarith only [hv1]
        have h2 : (H : ℚ) * ((M32 : ℚ) * P - q) ≤ (H : ℚ) * (P / 2) :=
          mul_le_mul_of_nonneg_left h1 hH0q
        linarith only [h2, h3]
      have hx2 : ((H * a : Nat) : ℚ) - 1 / 2 < ((M32 * H : Nat) : ℚ) * P * 1000000 := by
        push_cast
        rw [← hqa]
        have h1 : q - (M32 : ℚ) * P ≤ P / 2 := by linarith only [hv2]
        have h2 : (H : ℚ) * (q - (M32 : ℚ) * P) ≤ (H : ℚ) * (P / 2) :=
          mul_le_mul_of_nonneg_left h1 hH0q
        linarith only [h2, h3]
      have hu : divRoundHalfEven (M * 2 ^ S.toNat * 1000000) (2 ^ (-S).toNat) = H * a := by
        apply le_antisymm
        · exact hnear.2.2.2 _ hx1
        · have hKpos : 0 < H * a := Nat.mul_pos hHpos hapos
          have hcast : ((H * a - 1 : Nat) : ℚ) = ((H * a : Nat) : ℚ) - 1 := by
            rw [Nat.cast_sub (by omega)]
            simp
          have := hnear.2.2.1 (H * a - 1) (by
            rw [hcast]
            linarith only [hx2])
          omega
      rw [hu, decimalValue_microsText]
      congr 1
      push_cast
      rw [ha]
      ring

/-! ## The accrued cost -/

/-- The text getCurrentCosts returns, with the billed hours as the ceiling of the span. -/
theorem getCurrentCosts_ceil (T N : Time) (p : String)
    (h1 : T.nanos ≤ N.nanos) (h2 : N.nanos - T.nanos ≤ 9223372036854775807)
    (h3 : N.nanos - T.nanos < 4096 * 3600000000000 ∨
      (N.nanos - T.nanos) % 3600000000000 = 0 ∨
      2000 ≤ (N.nanos - T.nanos) % 3600000000000) :
    getCurrentCosts N T p =
      sprintfF (F64.mul (ParseFloat32 p).1 (.finite false (ceilHours T N) 0)) := by
  obtain ⟨D, hD⟩ := Int.eq_ofNat_of_zero_le (sub_nonneg.mpr h1)
  have hsub : N.Sub T = (D : Int) := by
    unfold Time.Sub maxDuration minDuration
    rw [hD] at h2 ⊢
    rw [min_eq_right h2,
      max_eq_right (show (-9223372036854775808 : Int) ≤ (D : Int) by omega)]
  rw [hD] at h2 h3
  have hD2 : D ≤ 9223372036854775807 := by omega
  have hD3 : D < 4096 * 3600000000000 ∨ D % 3600000000000 = 0 ∨
      2000 ≤ D % 3600000000000 := by
    rcases h3 with h | h | h
    · left; omega
    · right; left; omega
    · right; right; omega
  have hc := hours_ceil D hD2 hD3
  unfold getCurrentCosts ceilHours
  simp only
  rw [hsub, hc, hD]
  simp

/-- The number the returned text denotes: the price times the hours rounded up, for a
price of at most six decimals when the price and the product are at most 8. -/
theorem getCurrentCosts_value (T N : Time) (p : String) (q : ℚ) (a : Nat)
    (h1 : T.nanos ≤ N.nanos) (h2 : N.nanos - T.nanos ≤ 9223372036854775807)
    (h3 : N.nanos - T.nanos < 4096 * 3600000000000 ∨
      (N.nanos - T.nanos) % 3600000000000 = 0 ∨
      2000 ≤ (N.nanos - T.nanos) % 3600000000000)
    (hq : decimalValue p = some q) (ha : q = (a : ℚ) / 1000000) (hq8 : q ≤ 8)
    (hH : (ceilHours T N : ℚ) * q ≤ 8) :
    decimalValue (getCurrentCosts N T p) = some ((ceilHours T N : ℚ) * q) := by
  rw [getCurrentCosts_ceil T N p h1 h2 h3]
  exact product_text_value p q a (ceilHours T N) hq ha hq8 hH

/-- C1 (as amended). For every creation time T, every evaluation instant N at or after T
whose distance from T fits a Duration and is below 4096 hours, or a whole number of
hours, or at least 2000 nanoseconds into its last hour, and every price text p,
getCurrentCosts returns the text that Sprintf with the verb f gives (six decimals, half to
even) for the float64 product of the float32 nearest to p and the hours from T to N
rounded up: a started hour is billed as a full hour. The text denotes exactly the price
times the hours rounded up when p is a decimal number that is not negative, has at most
six digits after the point and is at most 8, and the product is at most 8. For
N = T + 90 minutes and p = 1.00 the text is 2.000000, which denotes 2. -/
theorem C1_accrual_ceiling (T N : Time) (p : String)
    (h1 : T.nanos ≤ N.nanos) (h2 : N.nanos - T.nanos ≤ 9223372036854775807)
    (h3 : N.nanos - T.nanos < 4096 * 3600000000000 ∨
      (N.nanos - T.nanos) % 3600000000000 = 0 ∨
      2000 ≤ (N.nanos - T.nanos) % 3600000000000) :
    getCurrentCosts N T p =
      sprintfF (F64.mul (ParseFloat32 p).1 (.finite false (ceilHours T N) 0)) ∧
    (∀ (q : ℚ) (a : Nat), decimalValue p = some q → q = (a : ℚ) / 1000000 → q ≤ 8 →
      (ceilHours T N : ℚ) * q ≤ 8 → AccrualCeilingRule T N p) ∧
    getCurrentCosts ⟨T.nanos + 5400000000000⟩ T "1.00" = "2.000000" ∧
    decimalValue "2.000000" = some 2 := by
  refine ⟨getCurrentCosts_ceil T N p h1 h2 h3, ?_, ?_, ?_⟩
  · intro q a hq ha hq8 hH
    exact ⟨q, hq, getCurrentCosts_value T N p q a h1 h2 h3 hq ha hq8 hH⟩
  · rw [getCurrentCosts_ceil T ⟨T.nanos + 5400000000000⟩ "1.00" (by simp) (by simp)
      (by left; simp)]
    have hc : ceilHours T ⟨T.nanos + 5400000000000⟩ = 2 := by
      unfold ceilHours
      simp only [add_sub_cancel_left]
      rw [Nat.ceil_eq_iff (by norm_num)]
      norm_num
    rw [hc]
    decide
  · have h : readFloat "2.000000".data = some ⟨false, 2000000, -6, false, []⟩ := by decide
    simp only [decimalValue, h]
    norm_num

theorem C1_accrual_ceiling_witness :
    (⟨1800000000000⟩ : Time).nanos ≤ (⟨12600000000000⟩ : Time).nanos ∧
    getCurrentCosts ⟨12600000000000⟩ ⟨1800000000000⟩ "0.0050" =
      sprintfF (F64.mul (ParseFloat32 "0.0050").1
        (.finite false (ceilHours ⟨1800000000000⟩ ⟨12600000000000⟩) 0)) :=
  ⟨by decide, (C1_accrual_ceiling ⟨1800000000000⟩ ⟨12600000000000⟩ "0.0050" (by decide)
    (by decide) (by decide)).1⟩

/-- C1 (as stated) fails: with the price 0.1 and 1000 hours between creation and
evaluation the returned text is 100.000001, which does not denote 1000 * 0.1; and with
the price 1 and one nanosecond more than 4096 hours the returned text is 4096.000000,
although the span rounds up to 4097 hours. -/
theorem C1_accrual_ceiling_counterexample :
    ¬ AccrualCeilingRule ⟨0⟩ ⟨3600000000000000⟩ "0.1" ∧
    ¬ AccrualCeilingRule ⟨0⟩ ⟨14745600000000001⟩ "1" := by
  constructor
  · rintro ⟨q, hq, hv⟩
    have h1 : getCurrentCosts ⟨3600000000000000⟩ ⟨0⟩ "0.1" = "100.000001" := by decide
    have h2 : readFloat "0.1".data = some ⟨false, 1, -1, false, []⟩ := by decide
    have h3 : readFloat "100.000001".data = some ⟨false, 100000001, -6, false, []⟩ := by
      decide
    have hc : ceilHours ⟨0⟩ ⟨3600000000000000⟩ = 1000 := by
      unfold ceilHours
      rw [Nat.ceil_eq_iff (by norm_num)]
      norm_num
    rw [h1, hc] at hv
    simp only [decimalValue, h2, h3] at hq hv
    norm_num at hq hv
    rw [← hq] at hv
    norm_num at hv
  · rintro ⟨q, hq, hv⟩
    have h1 : getCurrentCosts ⟨14745600000000001⟩ ⟨0⟩ "1" = "4096.000000" := by decide!
    have h2 : readFloat "1".data = some ⟨false, 1, 0, false, []⟩ := by decide
    have h3 : readFloat "4096.000000".data = some ⟨false, 4096000000, -6, false, []⟩ := by
      decide
    have hc : ceilHours ⟨0⟩ ⟨14745600000000001⟩ = 4097 := by
      unfold ceilHours
      rw [Nat.ceil_eq_iff (by norm_num)]
      norm_num
    rw [h1, hc] at hv
    simp only [decimalValue, h2, h3] at hq hv
    norm_num at hq hv
    rw [← hq] at hv
    norm_num at hv

theorem sub_range (N T : Time) :
    -9223372036854775808 ≤ N.Sub T ∧ N.Sub T ≤ 9223372036854775807 ∧
    (T.nanos ≤ N.nanos → 0 ≤ N.Sub T) := by
  unfold Time.Sub maxDuration minDuration
  refine ⟨le_max_left _ _, max_le (by norm_num) (min_le_left _ _), ?_⟩
  intro h
  have h0 : (0 : Int) ≤ N.nanos - T.nanos := by omega
  exact le_max_of_le_right (le_min (by norm_num) h0)

theorem toFloat32_not_invalid (l : FloatLit) : l.toFloat32.2 ≠ some .invalid := by
  unfold FloatLit.toFloat32
  simp only
  split <;> simp

theorem parseFloat32_invalid (s : String) (h : (ParseFloat32 s).2 = some .invalid) :
    (ParseFloat32 s).1 = .finite false 0 0 := by
  unfold ParseFloat32 at h ⊢
  cases hsp : special s.data with
  | some vr =>
    obtain ⟨v, rest⟩ := vr
    rw [hsp] at h
    simp only at h ⊢
    by_cases hr : rest = []
    · rw [if_pos hr] at h
      simp at h
    · rw [if_neg hr]
  | none =>
    rw [hsp] at h
    simp only at h ⊢
    cases hrf : readFloat s.data with
    | none => rfl
    | some l =>
      rw [hrf] at h
      simp only at h ⊢
      by_cases hr : l.rest = []
      · rw [if_pos hr] at h
        exact absurd h (toFloat32_not_invalid l)
      · rw [if_neg hr]

theorem mul_zero_finite (c : Bool) (M : Nat) (S : Int) :
    F64.mul (.finite false 0 0) (.finite c M S) = .finite c 0 0 := by
  simp [F64.mul, roundDyadic, roundRat]

/-- The text returned for a price that ParseFloat rejects: zero with the sign of the
elapsed hours. -/
theorem getCurrentCosts_invalid (now created : Time) (s : String)
    (h : (ParseFloat32 s).2 = some .invalid) :
    (getCurrentCosts now created s = "0.000000" ∨
      getCurrentCosts now created s = "-0.000000") ∧
    (created.nanos ≤ now.nanos → getCurrentCosts now created s = "0.000000") := by
  obtain ⟨r1, r2, r3⟩ := sub_range now created
  obtain ⟨c, M, S, hH, hsign⟩ := hours_finite (now.Sub created) r1 r2
  have hceil : ∃ M2, F64.ceil (.finite c M S) = .finite c M2 0 := by
    cases c
    · exact ⟨_, rfl⟩
    · exact ⟨_, rfl⟩
  obtain ⟨M2, hM2⟩ := hceil
  have hres : getCurrentCosts now created s = sprintfF (.finite c 0 0) := by
    unfold getCurrentCosts
    simp only
    rw [parseFloat32_invalid s h, hH, hM2, mul_zero_finite]
  rw [hres]
  constructor
  · cases c
    · left; decide
    · right; decide
  · intro hle
    rw [hsign (r3 hle)]
    decide

/-- C10 (as amended). For every price text that strconv.ParseFloat rejects with a syntax
error (the empty text is one), the error is dropped and the price is taken as 0: whatever
the creation time and the evaluation instant, getCurrentCosts returns 0.000000 or
-0.000000, both denoting zero, and it returns 0.000000 when the evaluation instant is not
before the creation time. So a run of server.Run in which every server has a price entry
returns no error, and the current gauge and counter of a server with such a net price,
created before its evaluation instant, hold 0.000000. Every such text is among those that
are not syntactically valid decimal numbers. -/
theorem C10_malformed_price_is_zero (s : String) (h : (ParseFloat32 s).2 = some .invalid) :
    (ParseFloat32 s).1 = .finite false 0 0 ∧
    (∀ now created : Time, getCurrentCosts now created s = "0.000000" ∨
      getCurrentCosts now created s = "-0.000000") ∧
    (∀ now created : Time, created.nanos ≤ now.nanos →
      getCurrentCosts now created s = "0.000000") ∧
    decimalValue "0.000000" = some 0 ∧ decimalValue "-0.000000" = some 0 ∧
    (∀ (clock : Nat → Time) (pre post : List Server) (srv : Server) (b : baseFetcher)
      (p : ServerTypeLocationPricing),
      (∀ t ∈ pre ++ srv :: post, priced t) →
      findServerPricing srv.Datacenter.Location srv.ServerType.Pricings = .ok p →
      p.Hourly.Net = s →
      (∀ t ∈ post, serverLabels t ≠ serverLabels srv) →
      srv.Created.nanos ≤ (clock pre.length).nanos →
      (server.Run clock ⟨.ok (pre ++ srv :: post)⟩ b).2 = none ∧
      (server.Run clock ⟨.ok (pre ++ srv :: post)⟩ b).1.current.value (serverLabels srv) =
        some "0.000000" ∧
      (server.Run clock ⟨.ok (pre ++ srv :: post)⟩ b).1.currentCounter.value
        (serverLabels srv) = some "0.000000") ∧
    isDecimalNumber s = false := by
  refine ⟨parseFloat32_invalid s h, fun now created => (getCurrentCosts_invalid now created s h).1,
    fun now created => (getCurrentCosts_invalid now created s h).2, ?_, ?_, ?_,
    invalid_not_decimal s h⟩
  · have hr : readFloat "0.000000".data = some ⟨false, 0, 0, false, []⟩ := by decide
    simp only [decimalValue, hr]
    norm_num
  · have hr : readFloat "-0.000000".data = some ⟨true, 0, 0, false, []⟩ := by decide
    simp only [decimalValue, hr]
    norm_num
  · intro clock pre post srv b p hall hp hnet hpost hcreated
    have hpre : ∀ t ∈ pre, priced t := fun t ht => hall t (List.mem_append_left _ ht)
    obtain ⟨_, _, h3, h4⟩ := serverLoop_published clock pre post srv b p hpre hp hpost
    have hz := (getCurrentCosts_invalid (clock pre.length) srv.Created s h).2 hcreated
    rw [hnet, hz] at h3 h4
    refine ⟨?_, h3, h4⟩
    have := (serverLoop_append clock (pre ++ srv :: post) [] 0 b hall).1
    exact this

theorem C10_malformed_price_is_zero_witness :
    (ParseFloat32 "").2 = some .invalid ∧
    getCurrentCosts ⟨7200000000000⟩ ⟨0⟩ "" = "0.000000" :=
  ⟨by decide, (C10_malformed_price_is_zero "" (by decide)).2.2.1 ⟨7200000000000⟩ ⟨0⟩
    (by decide)⟩

/-- C10 (as stated) fails. The texts 0x1p-2, nan, inf and 1_000 are not syntactically
valid decimal numbers, yet strconv.ParseFloat accepts them without an error and the price
is not taken as 0: for a server created three hours before the evaluation the price text
0x1p-2 gives 0.750000, which denotes 3/4, and one hour after the creation the price texts
nan, inf and 1_000 give NaN, +Inf and 1000.000000. A run of server.Run over one server
with the hourly net price 0x1p-2 publishes 0.750000 in the current gauge and counter. -/
theorem C10_malformed_price_is_zero_counterexample :
    (isDecimalNumber "0x1p-2" = false ∧
      ParseFloat32 "0x1p-2" = (.finite false 8388608 (-25), none) ∧
      getCurrentCosts ⟨10800000000000⟩ ⟨0⟩ "0x1p-2" = "0.750000" ∧
      decimalValue "0.750000" = some (3 / 4) ∧
      ¬ MalformedPriceRule ⟨10800000000000⟩ ⟨0⟩ "0x1p-2") ∧
    (isDecimalNumber "nan" = false ∧ ParseFloat32 "nan" = (.nan, none) ∧
      getCurrentCosts ⟨3600000000000⟩ ⟨0⟩ "nan" = "NaN" ∧
      ¬ MalformedPriceRule ⟨3600000000000⟩ ⟨0⟩ "nan") ∧
    (isDecimalNumber "inf" = false ∧ ParseFloat32 "inf" = (.inf false, none) ∧
      getCurrentCosts ⟨3600000000000⟩ ⟨0⟩ "inf" = "+Inf" ∧
      ¬ MalformedPriceRule ⟨3600000000000⟩ ⟨0⟩ "inf") ∧
    (isDecimalNumber "1_000" = false ∧
      ParseFloat32 "1_000" = (.finite false 16384000 (-14), none) ∧
      getCurrentCosts ⟨3600000000000⟩ ⟨0⟩ "1_000" = "1000.000000" ∧
      decimalValue "1000.000000" = some 1000 ∧
      ¬ MalformedPriceRule ⟨3600000000000⟩ ⟨0⟩ "1_000") ∧
    (let web1 : Server := ⟨"web-1", ⟨0⟩, ⟨⟨"fsn1"⟩⟩,
        ⟨"cx11", [⟨⟨"fsn1"⟩, ⟨"0x1p-2", "0.2975"⟩, ⟨"150", "178.5"⟩⟩]⟩⟩
     let after := server.Run (fun _ => ⟨10800000000000⟩) ⟨.ok [web1]⟩
        ⟨⟨[]⟩, ⟨[]⟩, ⟨[]⟩, ⟨[]⟩⟩
     after.2 = none ∧
     after.1.current.value ["web-1", "fsn1", "cx11"] = some "0.750000" ∧
     after.1.currentCounter.value ["web-1", "fsn1", "cx11"] = some "0.750000") := by
  have v1 : decimalValue "0.750000" = some (3 / 4) := by
    have hr : readFloat "0.750000".data = some ⟨false, 750000, -6, false, []⟩ := by decide
    simp only [decimalValue, hr]
    norm_num
  have v2 : decimalValue "1000.000000" = some 1000 := by
    have hr : readFloat "1000.000000".data = some ⟨false, 1000000000, -6, false, []⟩ := by
      decide
    simp only [decimalValue, hr]
    norm_num
  have v3 : decimalValue "NaN" = none := by
    have hr : readFloat "NaN".data = none := by decide
    simp only [decimalValue, hr]
  have v4 : decimalValue "+Inf" = none := by
    have hr : readFloat "+Inf".data = none := by decide
    simp only [decimalValue, hr]
  have g1 : getCurrentCosts ⟨10800000000000⟩ ⟨0⟩ "0x1p-2" = "0.750000" := by decide
  have g2 : getCurrentCosts ⟨3600000000000⟩ ⟨0⟩ "nan" = "NaN" := by decide
  have g3 : getCurrentCosts ⟨3600000000000⟩ ⟨0⟩ "inf" = "+Inf" := by decide
  have g4 : getCurrentCosts ⟨3600000000000⟩ ⟨0⟩ "1_000" = "1000.000000" := by decide
  refine ⟨⟨by decide, by decide, g1, v1, ?_⟩, ⟨by decide, by decide, g2, ?_⟩,
    ⟨by decide, by decide, g3, ?_⟩, ⟨by decide, by decide, g4, v2, ?_⟩, by decide⟩
  · intro h
    have h0 := h (by decide)
    rw [g1, v1] at h0
    norm_num at h0
  · intro h
    have h0 := h (by decide)
    rw [g2, v3] at h0
    cases h0
  · intro h
    have h0 := h (by decide)
    rw [g3, v4] at h0
    cases h0
  · intro h
    have h0 := h (by decide)
    rw [g4, v2] at h0
    norm_num at h0

/-- C9 (as amended). After a successful server.Run, for a server s with the price entry p
such that no later server of the list has the label tuple of s, that tuple carries in the
hourly series the hourly gross amount of p, in the monthly series its monthly gross
amount, and in the current gauge and the current counter alike the text getCurrentCosts
returns for the creation time of s, the instant read for s and the hourly net amount of
p. For the server web-1 in fsn1 created 3 hours 1 minute before the evaluation with
hourly gross 0.0060, hourly net 0.0050 and monthly gross 3.0 the four texts are 0.0060,
3.0, 0.020000 and 0.020000, and 0.020000 denotes 0.02. -/
theorem C9_published_values (clock : Nat → Time) (pre post : List Server) (s : Server)
    (b : baseFetcher) (p : ServerTypeLocationPricing)
    (hall : ∀ t ∈ pre ++ s :: post, priced t)
    (hs : findServerPricing s.Datacenter.Location s.ServerType.Pricings = .ok p)
    (hpost : ∀ t ∈ post, serverLabels t ≠ serverLabels s) :
    (server.Run clock ⟨.ok (pre ++ s :: post)⟩ b).2 = none ∧
    (server.Run clock ⟨.ok (pre ++ s :: post)⟩ b).1.hourly.value (serverLabels s) =
      some p.Hourly.Gross ∧
    (server.Run clock ⟨.ok (pre ++ s :: post)⟩ b).1.monthly.value (serverLabels s) =
      some p.Monthly.Gross ∧
    (server.Run clock ⟨.ok (pre ++ s :: post)⟩ b).1.current.value (serverLabels s) =
      some (getCurrentCosts (clock pre.length) s.Created p.Hourly.Net) ∧
    (server.Run clock ⟨.ok (pre ++ s :: post)⟩ b).1.currentCounter.value (serverLabels s) =
      some (getCurrentCosts (clock pre.length) s.Created p.Hourly.Net) ∧
    (∀ (q : ℚ) (a : Nat), s.Created.nanos ≤ (clock pre.length).nanos →
      (clock pre.length).nanos - s.Created.nanos < 4096 * 3600000000000 →
      decimalValue p.Hourly.Net = some q → q = (a : ℚ) / 1000000 → q ≤ 8 →
      (ceilHours s.Created (clock pre.length) : ℚ) * q ≤ 8 →
      ∃ cur, (server.Run clock ⟨.ok (pre ++ s :: post)⟩ b).1.current.value (serverLabels s) =
          some cur ∧
        decimalValue cur = some ((ceilHours s.Created (clock pre.length) : ℚ) * q)) ∧
    (let web1 : Server := ⟨"web-1", ⟨0⟩, ⟨⟨"fsn1"⟩⟩,
        ⟨"cx11", [⟨⟨"fsn1"⟩, ⟨"0.0050", "0.0060"⟩, ⟨"2.5", "3.0"⟩⟩]⟩⟩
     let after := (server.Run (fun _ => ⟨10860000000000⟩) ⟨.ok [web1]⟩
        ⟨⟨[]⟩, ⟨[]⟩, ⟨[]⟩, ⟨[]⟩⟩).1
     after.hourly.value ["web-1", "fsn1", "cx11"] = some "0.0060" ∧
     after.monthly.value ["web-1", "fsn1", "cx11"] = some "3.0" ∧
     after.current.value ["web-1", "fsn1", "cx11"] = some "0.020000" ∧
     after.currentCounter.value ["web-1", "fsn1", "cx11"] = some "0.020000") ∧
    decimalValue "0.020000" = some (2 / 100) := by
  have hpre : ∀ t ∈ pre, priced t := fun t ht => hall t (List.mem_append_left _ ht)
  obtain ⟨h1, h2, h3, h4⟩ := serverLoop_published clock pre post s b p hpre hs hpost
  refine ⟨(serverLoop_append clock (pre ++ s :: post) [] 0 b hall).1, h1, h2, h3, h4, ?_, ?_,
    ?_⟩
  · intro q a hle hspan hq ha hq8 hH
    exact ⟨_, h3, getCurrentCosts_value s.Created (clock pre.length) p.Hourly.Net q a hle
      (by omega) (Or.inl hspan) hq ha hq8 hH⟩
  · decide
  · have hr : readFloat "0.020000".data = some ⟨false, 20000, -6, false, []⟩ := by decide
    simp only [decimalValue, hr]
    norm_num

theorem C9_published_values_witness :
    (server.Run (fun _ => ⟨7200000000001⟩)
      ⟨.ok ([] ++ (⟨"db-1", ⟨0⟩, ⟨⟨"hel1"⟩⟩,
        ⟨"cx21", [⟨⟨"hel1"⟩, ⟨"0.0100", "0.0119"⟩, ⟨"5.0", "5.95"⟩⟩]⟩⟩ : Server) :: [])⟩
      ⟨⟨[]⟩, ⟨[]⟩, ⟨[]⟩, ⟨[]⟩⟩).1.current.value
      (serverLabels ⟨"db-1", ⟨0⟩, ⟨⟨"hel1"⟩⟩,
        ⟨"cx21", [⟨⟨"hel1"⟩, ⟨"0.0100", "0.0119"⟩, ⟨"5.0", "5.95"⟩⟩]⟩⟩) =
      some (getCurrentCosts ⟨7200000000001⟩ ⟨0⟩ "0.0100") :=
  (C9_published_values (fun _ => ⟨7200000000001⟩) [] []
    ⟨"db-1", ⟨0⟩, ⟨⟨"hel1"⟩⟩, ⟨"cx21", [⟨⟨"hel1"⟩, ⟨"0.0100", "0.0119"⟩, ⟨"5.0", "5.95"⟩⟩]⟩⟩
    ⟨⟨[]⟩, ⟨[]⟩, ⟨[]⟩, ⟨[]⟩⟩ ⟨⟨"hel1"⟩, ⟨"0.0100", "0.0119"⟩, ⟨"5.0", "5.95"⟩⟩
    (by
      intro t ht
      simp only [List.nil_append, List.mem_singleton] at ht
      subst ht
      exact ⟨_, List.mem_singleton.mpr rfl, rfl⟩)
    rfl (by simp)).2.2.2.1

/-- C9 (as stated) fails. With one server of hourly net price 0.3 created 720 hours
before the evaluation, the current gauge holds 216.000009, which does not denote
720 * 0.3. And with two servers of the same name, location and type, created 5 hours and
1 hour before the evaluation at the hourly net price 1, the gauge holds under their
common label tuple the text 1.000000 of the later server, not the 5 hours of the first. -/
theorem C9_published_values_counterexample :
    ¬ PublishedAccrualRule ⟨2592000000000000⟩
        [⟨"web-1", ⟨0⟩, ⟨⟨"fsn1"⟩⟩,
          ⟨"cx11", [⟨⟨"fsn1"⟩, ⟨"0.3", "0.357"⟩, ⟨"200", "238"⟩⟩]⟩⟩]
        ⟨"web-1", ⟨0⟩, ⟨⟨"fsn1"⟩⟩,
          ⟨"cx11", [⟨⟨"fsn1"⟩, ⟨"0.3", "0.357"⟩, ⟨"200", "238"⟩⟩]⟩⟩ ∧
    ¬ PublishedAccrualRule ⟨18000000000000⟩
        [⟨"web-1", ⟨0⟩, ⟨⟨"fsn1"⟩⟩,
          ⟨"cx11", [⟨⟨"fsn1"⟩, ⟨"1", "1.19"⟩, ⟨"600", "714"⟩⟩]⟩⟩,
         ⟨"web-1", ⟨14400000000000⟩, ⟨⟨"fsn1"⟩⟩,
          ⟨"cx11", [⟨⟨"fsn1"⟩, ⟨"1", "1.19"⟩, ⟨"600", "714"⟩⟩]⟩⟩]
        ⟨"web-1", ⟨0⟩, ⟨⟨"fsn1"⟩⟩,
          ⟨"cx11", [⟨⟨"fsn1"⟩, ⟨"1", "1.19"⟩, ⟨"600", "714"⟩⟩]⟩⟩ := by
  constructor
  · rintro ⟨p, q, cur, hp, hq, hcur, hv⟩
    have hp2 : p = ⟨⟨"fsn1"⟩, ⟨"0.3", "0.357"⟩, ⟨"200", "238"⟩⟩ := by
      have : findServerPricing (⟨"fsn1"⟩ : Location)
          [⟨⟨"fsn1"⟩, ⟨"0.3", "0.357"⟩, ⟨"200", "238"⟩⟩] =
          .ok ⟨⟨"fsn1"⟩, ⟨"0.3", "0.357"⟩, ⟨"200", "238"⟩⟩ := by rfl
      rw [this] at hp
      cases hp
      rfl
    subst hp2
    have hc2 : cur = "216.000009" := by
      have : (server.Run (fun _ => (⟨2592000000000000⟩ : Time))
          ⟨.ok [⟨"web-1", ⟨0⟩, ⟨⟨"fsn1"⟩⟩,
            ⟨"cx11", [⟨⟨"fsn1"⟩, ⟨"0.3", "0.357"⟩, ⟨"200", "238"⟩⟩]⟩⟩]⟩
          ⟨⟨[]⟩, ⟨[]⟩, ⟨[]⟩, ⟨[]⟩⟩).1.current.value
          (serverLabels ⟨"web-1", ⟨0⟩, ⟨⟨"fsn1"⟩⟩,
            ⟨"cx11", [⟨⟨"fsn1"⟩, ⟨"0.3", "0.357"⟩, ⟨"200", "238"⟩⟩]⟩⟩) =
          some "216.000009" := by decide
      rw [this] at hcur
      cases hcur
      rfl
    subst hc2
    have h2 : readFloat "0.3".data = some ⟨false, 3, -1, false, []⟩ := by decide
    have h3 : readFloat "216.000009".data = some ⟨false, 216000009, -6, false, []⟩ := by
      decide
    have hc : ceilHours ⟨0⟩ ⟨2592000000000000⟩ = 720 := by
      unfold ceilHours
      rw [Nat.ceil_eq_iff (by norm_num)]
      norm_num
    simp only [hc] at hv
    simp only [decimalValue, h2, h3] at hq hv
    norm_num at hq hv
    rw [← hq] at hv
    norm_num at hv
  · rintro ⟨p, q, cur, hp, hq, hcur, hv⟩
    have hp2 : p = ⟨⟨"fsn1"⟩, ⟨"1", "1.19"⟩, ⟨"600", "714"⟩⟩ := by
      have : findServerPricing (⟨"fsn1"⟩ : Location)
          [⟨⟨"fsn1"⟩, ⟨"1", "1.19"⟩, ⟨"600", "714"⟩⟩] =
          .ok ⟨⟨"fsn1"⟩, ⟨"1", "1.19"⟩, ⟨"600", "714"⟩⟩ := by rfl
      rw [this] at hp
      cases hp
      rfl
    subst hp2
    have hc2 : cur = "1.000000" := by
      have : (server.Run (fun _ => (⟨18000000000000⟩ : Time))
          ⟨.ok [⟨"web-1", ⟨0⟩, ⟨⟨"fsn1"⟩⟩,
            ⟨"cx11", [⟨⟨"fsn1"⟩, ⟨"1", "1.19"⟩, ⟨"600", "714"⟩⟩]⟩⟩,
           ⟨"web-1", ⟨14400000000000⟩, ⟨⟨"fsn1"⟩⟩,
            ⟨"cx11", [⟨⟨"fsn1"⟩, ⟨"1", "1.19"⟩, ⟨"600", "714"⟩⟩]⟩⟩]⟩
          ⟨⟨[]⟩, ⟨[]⟩, ⟨[]⟩, ⟨[]⟩⟩).1.current.value
          (serverLabels ⟨"web-1", ⟨0⟩, ⟨⟨"fsn1"⟩⟩,
            ⟨"cx11", [⟨⟨"fsn1"⟩, ⟨"1", "1.19"⟩, ⟨"600", "714"⟩⟩]⟩⟩) =
          some "1.000000" := by decide
      rw [this] at hcur
      cases hcur
      rfl
    subst hc2
    have h2 : readFloat "1".data = some ⟨false, 1, 0, false, []⟩ := by decide
    have h3 : readFloat "1.000000".data = some ⟨false, 1000000, -6, false, []⟩ := by decide
    have hc : ceilHours ⟨0⟩ ⟨18000000000000⟩ = 5 := by
      unfold ceilHours
      rw [Nat.ceil_eq_iff (by norm_num)]
      norm_num
    simp only [hc] at hv
    simp only [decimalValue, h2, h3] at hq hv
    norm_num at hq hv
    rw [← hq] at hv
    norm_num at hv

theorem C8_price_not_found_aborts_witness :
    (server.Run (fun _ => ⟨3600000000000⟩)
      ⟨.ok ([(⟨"a", ⟨0⟩, ⟨⟨"fsn1"⟩⟩, ⟨"cx11", [⟨⟨"fsn1"⟩, ⟨"1", "1.19"⟩, ⟨"600", "714"⟩⟩]⟩⟩ :
          Server)] ++
        ⟨"b", ⟨0⟩, ⟨⟨"ash"⟩⟩, ⟨"cx11", [⟨⟨"fsn1"⟩, ⟨"1", "1.19"⟩, ⟨"600", "714"⟩⟩]⟩⟩ ::
        [⟨"c", ⟨0⟩, ⟨⟨"fsn1"⟩⟩, ⟨"cx11", [⟨⟨"fsn1"⟩, ⟨"1", "1.19"⟩, ⟨"600", "714"⟩⟩]⟩⟩])⟩
      ⟨⟨[]⟩, ⟨[]⟩, ⟨[]⟩, ⟨[]⟩⟩).2 =
      some ⟨"no server pricing found for location " ++ "ash"⟩ ∧
    (server.Run (fun _ => ⟨3600000000000⟩)
      ⟨.ok ([(⟨"a", ⟨0⟩, ⟨⟨"fsn1"⟩⟩, ⟨"cx11", [⟨⟨"fsn1"⟩, ⟨"1", "1.19"⟩, ⟨"600", "714"⟩⟩]⟩⟩ :
          Server)] ++
        ⟨"b", ⟨0⟩, ⟨⟨"ash"⟩⟩, ⟨"cx11", [⟨⟨"fsn1"⟩, ⟨"1", "1.19"⟩, ⟨"600", "714"⟩⟩]⟩⟩ ::
        [⟨"c", ⟨0⟩, ⟨⟨"fsn1"⟩⟩, ⟨"cx11", [⟨⟨"fsn1"⟩, ⟨"1", "1.19"⟩, ⟨"600", "714"⟩⟩]⟩⟩])⟩
      ⟨⟨[]⟩, ⟨[]⟩, ⟨[]⟩, ⟨[]⟩⟩).1.hourly.value
      (serverLabels ⟨"a", ⟨0⟩, ⟨⟨"fsn1"⟩⟩,
        ⟨"cx11", [⟨⟨"fsn1"⟩, ⟨"1", "1.19"⟩, ⟨"600", "714"⟩⟩]⟩⟩) = some "1.19" :=
  ⟨(C8_price_not_found_aborts (fun _ => ⟨3600000000000⟩)
    [⟨"a", ⟨0⟩, ⟨⟨"fsn1"⟩⟩, ⟨"cx11", [⟨⟨"fsn1"⟩, ⟨"1", "1.19"⟩, ⟨"600", "714"⟩⟩]⟩⟩]
    [⟨"c", ⟨0⟩, ⟨⟨"fsn1"⟩⟩, ⟨"cx11", [⟨⟨"fsn1"⟩, ⟨"1", "1.19"⟩, ⟨"600", "714"⟩⟩]⟩⟩]
    ⟨"b", ⟨0⟩, ⟨⟨"ash"⟩⟩, ⟨"cx11", [⟨⟨"fsn1"⟩, ⟨"1", "1.19"⟩, ⟨"600", "714"⟩⟩]⟩⟩
    ⟨⟨[]⟩, ⟨[]⟩, ⟨[]⟩, ⟨[]⟩⟩
    (by
      intro t ht
      simp only [List.mem_singleton] at ht
      subst ht
      exact ⟨_, List.mem_singleton.mpr rfl, rfl⟩)
    (by
      intro p hp
      simp only [List.mem_singleton] at hp
      subst hp
      decide)).1,
   ((C8_price_not_found_aborts (fun _ => ⟨3600000000000⟩)
    [⟨"a", ⟨0⟩, ⟨⟨"fsn1"⟩⟩, ⟨"cx11", [⟨⟨"fsn1"⟩, ⟨"1", "1.19"⟩, ⟨"600", "714"⟩⟩]⟩⟩]
    [⟨"c", ⟨0⟩, ⟨⟨"fsn1"⟩⟩, ⟨"cx11", [⟨⟨"fsn1"⟩, ⟨"1", "1.19"⟩, ⟨"600", "714"⟩⟩]⟩⟩]
    ⟨"b", ⟨0⟩, ⟨⟨"ash"⟩⟩, ⟨"cx11", [⟨⟨"fsn1"⟩, ⟨"1", "1.19"⟩, ⟨"600", "714"⟩⟩]⟩⟩
    ⟨⟨[]⟩, ⟨[]⟩, ⟨[]⟩, ⟨[]⟩⟩
    (by
      intro t ht
      simp only [List.mem_singleton] at ht
      subst ht
      exact ⟨_, List.mem_singleton.mpr rfl, rfl⟩)
    (by
      intro p hp
      simp only [List.mem_singleton] at hp
      subst hp
      decide)).2.2.1 [] []
    ⟨"a", ⟨0⟩, ⟨⟨"fsn1"⟩⟩, ⟨"cx11", [⟨⟨"fsn1"⟩, ⟨"1", "1.19"⟩, ⟨"600", "714"⟩⟩]⟩⟩
    ⟨⟨"fsn1"⟩, ⟨"1", "1.19"⟩, ⟨"600", "714"⟩⟩ rfl rfl (by simp)).1⟩

end HcloudPricing
